import Mathlib

/-!
Verification development for the value-deserialization subsystem of the
Lobster scripting runtime (dev/src/lobsterreader.cpp): the textual value
parser, the self-describing ("flex buffer") binary parser and the
schema-driven native binary parser, together with the scratch value stack,
the default-value synthesizer and the sub-class resolver they share.

The runtime collaborators that the C++ file consumes at its boundary
(the type-descriptor table, the lexer token stream, the flex-buffer tree
reader, the varint codec and the three encoders) are modelled from the
specification where their code is not part of the file; every such
definition is marked in its doc comment.  All machine integers are
modelled as Nat or Int with explicit wrapping where the C++ casts.
-/

namespace LobsterReader

/-- Runtime value-type tag, from the `ValueType` enumeration as used by
lobsterreader.cpp (`V_INT`, `V_FLOAT`, `V_STRING`, `V_NIL`, `V_VECTOR`,
`V_STRUCT_S`, `V_STRUCT_R`, `V_CLASS`, `V_ANY`). -/
inductive VType where
  | vAny
  | vInt
  | vFloat
  | vString
  | vNil
  | vVector
  | vStructS
  | vStructR
  | vClass
deriving DecidableEq, Repr

/-- One member entry of an aggregate type: the member type (an index into
the type table) and its declared default value, mirroring
`ti.elemtypes[i].type` and `ti.elemtypes[i].defval`. -/
structure Elem where
  type : Nat
  defval : Int
deriving DecidableEq, Repr

/-- Modelled from the spec: one runtime type descriptor ("a tag, for
aggregates an ordered list of member descriptors, a structural index, and
for classes an index into an enumeration table").  `subt` is the element
or wrapped type for `vVector` and `vNil`; `len` is the slot count of an
aggregate; `enumidx` is nonnegative exactly for enum-typed integers. -/
structure TypeInfo where
  t : VType
  subt : Nat := 0
  len : Nat := 0
  elemtypes : List Elem := []
  structidx : Nat := 0
  enumidx : Int := -1
deriving DecidableEq, Repr

/-- Modelled from the spec: one entry of the by-name UDT lookup table used
by the sub-class resolver (`vm.UDTLookup[sname]`): the structural index of
the declared super type (`udt->super_idx()`, -1 when none) and the
assigned runtime type slot (`udt->typeidx()`, -1 when the type was never
instantiated). -/
structure UDT where
  super_idx : Int
  typeidx : Int
deriving DecidableEq, Repr

/-- Modelled from the spec: the read-only VM services consumed by the
parsers.  `types` is the type-descriptor table indexed by `type_elem_t`
offsets; `names` maps a structural index to the type name
(`vm.StructName`); `fieldNames` is `vm.LookupField(structidx, i)`;
`udtLookup` is `vm.UDTLookup[sname]`; `subClassFromSerID` is
`vm.GetSubClassFromSerID` (returning -1 on failure); `serId` is the
serialization id the schema-binary encoder writes for a class type;
`lookupEnum` is `vm.LookupEnum`.  All strings are byte lists. -/
structure VM where
  types : List TypeInfo
  names : Nat → List Nat
  fieldNames : Nat → Nat → List Nat
  udtLookup : List Nat → List UDT
  subClassFromSerID : Nat → Nat → Int
  serId : Nat → Nat
  lookupEnum : List Nat → Int → Option Int

/-- Out-of-range type offsets yield a harmless `vAny` descriptor; the
well-formedness conditions of the theorems keep all used offsets in
range. -/
def VM.getTypeInfo (vm : VM) (off : Nat) : TypeInfo :=
  vm.types.getD off ⟨.vAny, 0, 0, [], 0, -1⟩

/-- The fixed type-table offsets the parser compares against
(`TYPE_ELEM_ANY`, `TYPE_ELEM_INT`, `TYPE_ELEM_FLOAT`). -/
def TYPE_ELEM_ANY : Nat := 0

/-- Offset of the canonical plain integer type. -/
def TYPE_ELEM_INT : Nat := 1

/-- Offset of the canonical plain float type. -/
def TYPE_ELEM_FLOAT : Nat := 2

/-- Runtime value.  Floats are carried as their 32-bit payload pattern
(`bits`), strings as byte lists; vectors store their flat slot list (a
struct element occupies several consecutive slots) plus the vector type
offset, class instances store their slot list plus their type offset,
exactly the data `NewVec`/`NewObject` record. -/
inductive Value where
  | vInt (i : Int)
  | vFloat (bits : Nat)
  | nilVal
  | vString (s : List Nat)
  | vVec (off : Nat) (slots : List Value)
  | vObj (off : Nat) (elems : List Value)

/-- The fatal parse-error kinds of the three parsers (each constructor
stands for one distinct error message thrown by the C++ code). -/
inductive Err where
  | typeMismatch (needed given : VType)
  | classRequired (given : VType)
  | unknownEnum
  | unresolvedSubclass
  | unresolvedSerId
  | noDefault
  | illegalExpr
  | expectFail
  | unaryMinus
  | truncated
  | extraFields
  | cantConvert
  | oob
  | fuel
deriving DecidableEq, Repr

/-- `IsStruct(t)`: struct-by-value or struct-by-reference. -/
def isStructT (t : VType) : Bool :=
  t = .vStructS || t = .vStructR

/-- `IsUDT(t)`: struct or class. -/
def isUDT (t : VType) : Bool :=
  isStructT t || t = .vClass

/-- Whether a value pushed for this datum carries a heap reference
(strings, vectors and objects are pushed with `is_ref = true`). -/
def isRefV : Value → Bool
  | .vString _ => true
  | .vVec _ _ => true
  | .vObj _ _ => true
  | _ => false

/-- `int2float(defval).f`: the C++ reinterprets the low 32 bits of the
declared integer default as a float payload. -/
def int2float (i : Int) : Nat :=
  (i % (4294967296 : Int)).toNat

/-- The `(int)` cast the schema-binary parser applies to the decoded
unsigned element count: 32-bit two-complement wrap. -/
def i32 (n : Nat) : Int :=
  if n % 4294967296 < 2147483648 then ((n % 4294967296 : Nat) : Int)
  else ((n % 4294967296 : Nat) : Int) - 4294967296

/-- Sequencing of fallible steps: propagate the first fatal error,
continue otherwise (the unwind semantics of the C++ throw). -/
def bindE {α β : Type} (x : Except Err α) (fn : α → Except Err β) : Except Err β :=
  match x with
  | .error e => .error e
  | .ok a => fn a

/-! ## The scratch value stack (`struct Deserializer`) -/

/-- The scratch value stack: the value sequence and the parallel
owned-reference flag sequence (`stack` / `is_ref`).  The top of stack is
the last list entry, as with `emplace_back`. -/
structure DStack where
  stack : List Value := []
  is_ref : List Bool := []

/-- `PushV(v, ir)`. -/
def pushV (d : DStack) (v : Value) (ir : Bool) : DStack :=
  ⟨d.stack ++ [v], d.is_ref ++ [ir]⟩

/-- `PopV()`: returns the top value and the shrunk stack. -/
def popV (d : DStack) : Value × DStack :=
  (d.stack.getLastD .nilVal, ⟨d.stack.dropLast, d.is_ref.dropLast⟩)

/-- `PopVN(len)`: drop the last `len` slots of both sequences. -/
def popVN (d : DStack) (n : Nat) : DStack :=
  ⟨d.stack.take (d.stack.length - n), d.is_ref.take (d.is_ref.length - n)⟩

/-- The last `n` stack slots in order, the source range of
`CopyElemsShallow(&stack[stack.size() - len], len)`. -/
def lastN (d : DStack) (n : Nat) : List Value :=
  d.stack.drop (d.stack.length - n)

/-- The list of values the `Deserializer` destructor releases: every slot
whose parallel flag marks it as owning a reference, each exactly once, in
stack order. -/
def destructorReleases (d : DStack) : List Value :=
  (d.stack.zip d.is_ref).filterMap fun p => if p.2 then some p.1 else none

/-! ## The default-value synthesizer (`Deserializer::PushDefault`) -/

/-- Call selector for the fuel-indexed recursion of `PushDefault`:
either synthesize one default for a type offset and declared default, or
run the member loop over an aggregate member list. -/
inductive DC where
  | one (off : Nat) (defval : Int)
  | loop (es : List Elem)

/-- `Deserializer::PushDefault` and its aggregate member loop, translated
case by case; the Bool result mirrors the C++ return value (the member
loop discards the inner results exactly as the C++ does).  The fuel only
bounds recursion depth; all theorems supply enough of it. -/
def defStep : Nat → VM → DC → DStack → Bool × DStack
  | 0, _, _, d => (false, d)
  | fuel + 1, vm, .one off defval, d =>
    let ti := vm.getTypeInfo off
    match ti.t with
    | .vInt => (true, pushV d (.vInt defval) false)
    | .vFloat => (true, pushV d (.vFloat (int2float defval)) false)
    | .vNil => (true, pushV d .nilVal false)
    | .vVector => (true, pushV d (.vVec off []) true)
    | .vStructS | .vStructR | .vClass =>
      let d2 := (defStep fuel vm (.loop ti.elemtypes) d).2
      if ti.t = .vClass then
        let elems := lastN d2 ti.len
        let d3 := popVN d2 ti.len
        (true, pushV d3 (.vObj off elems) true)
      else
        (true, d2)
    | _ => (false, d)
  | fuel + 1, vm, .loop es, d =>
    match es with
    | [] => (true, d)
    | e :: rest =>
      let d2 := (defStep fuel vm (.one e.type e.defval) d).2
      (defStep fuel vm (.loop rest) d2).2 |> fun d3 => (true, d3)

/-- `PushDefault(typeoff, defval)` as the callers invoke it. -/
def pushDefault (fuel : Nat) (vm : VM) (off : Nat) (defval : Int)
    (d : DStack) : Bool × DStack :=
  defStep fuel vm (.one off defval) d

/-! ## The sub-class resolver (`Deserializer::LookupSubClass`) -/

/-- The scan loop of `LookupSubClass`: first UDT entry whose declared
super structural index equals the expected base index and whose assigned
runtime type slot is populated (`typeidx >= 0`). -/
def lookupSubClassGo (vm : VM) (baseidx : Nat) : List UDT → Option (TypeInfo × Nat)
  | [] => none
  | udt :: rest =>
    if udt.super_idx = (baseidx : Int) && decide (0 ≤ udt.typeidx) then
      some (vm.getTypeInfo udt.typeidx.toNat, udt.typeidx.toNat)
    else
      lookupSubClassGo vm baseidx rest

/-- `Deserializer::LookupSubClass(sname, ti, typeoff)`; `none` mirrors the
`{ nullptr, -1 }` no-match result. -/
def lookupSubClass (vm : VM) (sname : List Nat) (ti : TypeInfo) :
    Option (TypeInfo × Nat) :=
  lookupSubClassGo vm ti.structidx (vm.udtLookup sname)

/-- `vm.StructName(*ti)`. -/
def structName (vm : VM) (ti : TypeInfo) : List Nat :=
  vm.names ti.structidx

/-- Modelled from the spec: member descriptor lookup
(`ti->GetElemOrParent(i)`): the declared descriptor of the member at slot
`i` of an aggregate. -/
def getElemOrParent (ti : TypeInfo) (i : Nat) : Nat :=
  (ti.elemtypes.getD i ⟨0, 0⟩).type

/-! ## Varint codec and byte-level primitives

Modelled from the spec: "integers are a variable-length signed varint;
floats are a fixed 4-byte little-endian value; strings and vectors are
length-prefixed with an unsigned varint".  `DecodeVarintU` /
`DecodeVarintS` take the end pointer and report truncation. -/

/-- LEB128 unsigned varint encoder, fuel-recursive so that it reduces
definitionally; `encVarU` supplies always-sufficient fuel. -/
def encVarUGo : Nat → Nat → List Nat
  | 0, _ => []
  | fuel + 1, n => if n < 128 then [n] else (n % 128 + 128) :: encVarUGo fuel (n / 128)

/-- Modelled from the spec: unsigned varint encoding. -/
def encVarU (n : Nat) : List Nat :=
  encVarUGo (n + 1) n

/-- Zigzag mapping of a signed integer to an unsigned one. -/
def zig (i : Int) : Nat :=
  if 0 ≤ i then (2 * i).toNat else (-(2 * i) - 1).toNat

/-- Inverse zigzag mapping. -/
def unzig (n : Nat) : Int :=
  if n % 2 = 0 then ((n / 2 : Nat) : Int) else -(((n / 2 : Nat) : Int)) - 1

/-- Modelled from the spec: signed varint encoding. -/
def encVarS (i : Int) : List Nat :=
  encVarU (zig i)

/-- Unsigned varint decoder over memory `mem` with end bound `endp`:
reading at or past `endp` is the fatal truncation error, reading past the
materialized memory is an out-of-bounds fault.  The fuel supplied by
`decVarU` is always sufficient. -/
def decVarUGo : Nat → List Nat → Nat → Nat → Nat → Nat → Except Err (Nat × Nat)
  | 0, _, _, _, _, _ => .error .fuel
  | fuel + 1, mem, endp, pos, shift, acc =>
    if pos < endp then
      if pos < mem.length then
        let b := mem.getD pos 0
        if b < 128 then .ok (acc + b * 2 ^ shift, pos + 1)
        else decVarUGo fuel mem endp (pos + 1) (shift + 7) (acc + b % 128 * 2 ^ shift)
      else .error .oob
    else .error .truncated

/-- Modelled from the spec: `DecodeVarintU(data, end)`; returns the value
and the advanced cursor. -/
def decVarU (mem : List Nat) (endp pos : Nat) : Except Err (Nat × Nat) :=
  decVarUGo (endp + 1 - pos) mem endp pos 0 0

/-- Modelled from the spec: `DecodeVarintS(data, end)`. -/
def decVarS (mem : List Nat) (endp pos : Nat) : Except Err (Int × Nat) :=
  match decVarU mem endp pos with
  | .error e => .error e
  | .ok (n, p) => .ok (unzig n, p)

/-- Little-endian 4-byte encoding of a 32-bit float payload. -/
def enc4 (bits : Nat) : List Nat :=
  [bits % 256, bits / 256 % 256, bits / 65536 % 256, bits / 16777216 % 256]

/-! ## The schema-driven binary parser (`struct LobsterBinaryParser`) -/

/-- Cursor state of the schema-binary parser: the materialized memory the
byte pointer ranges over (which may extend past the end bound, as the
buffer owner's allocation does), the cursor `pos` (`data`), the end bound
`endp` (`end`) and the scratch value stack. -/
structure BinSt where
  mem : List Nat
  pos : Nat
  endp : Nat
  ds : DStack

/-- Call selector for the fuel-indexed mutual recursion of
`LobsterBinaryParser::ParseElem`: parse one element, the vector element
loop, the class member loop, or the struct member loop. -/
inductive BC where
  | elem (off : Nat)
  | vloop (cnt : Nat) (subt : Nat)
  | cloop (ti : TypeInfo) (elen : Int) (start : Nat)
  | sloop (ti : TypeInfo) (start : Nat)

/-- `LobsterBinaryParser::ParseElem(data, end, typeoff)` and its three
internal loops, translated case by case from the C++ switch.  Note the
faithful modelling of: the `(int)` cast on the class element count; the
absence of an end-bound check on the string payload (`data += len` after
`NewString(string_view(data, len))`); and the entry check `end == data`. -/
def binStep : Nat → VM → BC → BinSt → Except Err BinSt
  | 0, _, _, _ => .error .fuel
  | fuel + 1, vm, .elem off, st =>
    let base_ti := vm.getTypeInfo off
    let off1 := if base_ti.t = .vNil then base_ti.subt else off
    let ti := vm.getTypeInfo off1
    if st.endp = st.pos then .error .truncated
    else
      match ti.t with
      | .vInt =>
        bindE (decVarS st.mem st.endp st.pos) fun ip =>
          .ok { st with pos := ip.2, ds := pushV st.ds (.vInt ip.1) false }
      | .vFloat =>
        if st.endp < st.pos + 4 then .error .truncated
        else if st.mem.length < st.pos + 4 then .error .oob
        else
          let bits := st.mem.getD st.pos 0 + 256 * st.mem.getD (st.pos + 1) 0 +
            65536 * st.mem.getD (st.pos + 2) 0 + 16777216 * st.mem.getD (st.pos + 3) 0
          .ok { st with pos := st.pos + 4, ds := pushV st.ds (.vFloat bits) false }
      | .vString =>
        bindE (decVarU st.mem st.endp st.pos) fun lp =>
          if lp.1 = 0 ∧ base_ti.t = .vNil then
            .ok { st with pos := lp.2, ds := pushV st.ds .nilVal false }
          else if st.mem.length < lp.2 + lp.1 then .error .oob
          else
            .ok { st with pos := lp.2 + lp.1, ds := pushV st.ds (.vString ((st.mem.drop lp.2).take lp.1)) true }
      | .vVector =>
        bindE (decVarU st.mem st.endp st.pos) fun lp =>
          if lp.1 = 0 ∧ base_ti.t = .vNil then
            .ok { st with pos := lp.2, ds := pushV st.ds .nilVal false }
          else
            let start := st.ds.stack.length
            bindE (binStep fuel vm (.vloop lp.1 ti.subt) { st with pos := lp.2 }) fun st2 =>
              let len2 := st2.ds.stack.length - start
              .ok { st2 with ds := pushV (popVN st2.ds len2) (.vVec off1 (lastN st2.ds len2)) true }
      | .vClass =>
        bindE (decVarU st.mem st.endp st.pos) fun np =>
          let elen : Int := i32 np.1
          if elen = 0 ∧ base_ti.t = .vNil then
            .ok { st with pos := np.2, ds := pushV st.ds .nilVal false }
          else
            bindE (decVarU st.mem st.endp np.2) fun sp =>
              let t2 := vm.subClassFromSerID off1 (sp.1 % 4294967296)
              if t2 < 0 then .error .unresolvedSerId
              else
                let off2 := t2.toNat
                let ti2 := vm.getTypeInfo off2
                let start := st.ds.stack.length
                bindE (binStep fuel vm (.cloop ti2 elen start) { st with pos := sp.2 }) fun st2 =>
                  let len2 := st2.ds.stack.length - start
                  if elen > (len2 : Int) then .error .extraFields
                  else
                    .ok { st2 with
                      ds := pushV (popVN st2.ds len2) (.vObj off2 (lastN st2.ds len2)) true }
      | .vStructS | .vStructR =>
        binStep fuel vm (.sloop ti st.ds.stack.length) st
      | _ => .error .cantConvert
  | fuel + 1, vm, .vloop cnt subt, st =>
    match cnt with
    | 0 => .ok st
    | c + 1 =>
      bindE (binStep fuel vm (.elem subt) st) fun st2 => binStep fuel vm (.vloop c subt) st2
  | fuel + 1, vm, .cloop ti elen start, st =>
    let ne := st.ds.stack.length - start
    if ne = ti.len then .ok st
    else
      let eti := getElemOrParent ti ne
      if elen ≤ (ne : Int) then
        let r := pushDefault fuel vm eti (ti.elemtypes.getD ne ⟨0, 0⟩).defval st.ds
        if r.1 then binStep fuel vm (.cloop ti elen start) { st with ds := r.2 }
        else .error .noDefault
      else
        bindE (binStep fuel vm (.elem eti) st) fun st2 =>
          binStep fuel vm (.cloop ti elen start) st2
  | fuel + 1, vm, .sloop ti start, st =>
    let ne := st.ds.stack.length - start
    if ne = ti.len then .ok st
    else
      bindE (binStep fuel vm (.elem (getElemOrParent ti ne)) st) fun st2 =>
        binStep fuel vm (.sloop ti start) st2


/-- `LobsterBinaryParser::Parse` on a fresh parser: parse one element from
`(data, data + size)` and pop the single resulting value. -/
def parseLobsterBinary (fuel : Nat) (vm : VM) (off : Nat) (mem : List Nat)
    (size : Nat) : Except Err Value :=
  match binStep fuel vm (.elem off) ⟨mem, 0, size, ⟨[], []⟩⟩ with
  | .error e => .error e
  | .ok st => .ok (popV st.ds).1

/-- `ParseLobsterBinaryData`: the public boundary that converts the
unwind into the (value, optional error) result pair pushed for the
caller. -/
def parseLobsterBinaryData (fuel : Nat) (vm : VM) (off : Nat) (mem : List Nat)
    (size : Nat) : Value × Option Err :=
  match parseLobsterBinary fuel vm off mem size with
  | .ok v => (v, none)
  | .error e => (.nilVal, some e)

/-! ## The schema-binary encoder (modelled) -/

/-- Width in stack slots of one logical vector element
(`IsStruct(sti.t) ? sti.len : 1`). -/
def vecWidth (vm : VM) (off : Nat) : Nat :=
  let sti := vm.getTypeInfo (vm.getTypeInfo off).subt
  if isStructT sti.t then sti.len else 1

/-- Logical element count of a flat vector slot list whose element
descriptor is at `stoff`. -/
def logCount (vm : VM) (stoff : Nat) (slots : List Value) : Nat :=
  if isStructT (vm.getTypeInfo stoff).t then slots.length / (vm.getTypeInfo stoff).len
  else slots.length

mutual

/-- Modelled from the spec: `encodeToSchemaBinary` (`ToLobsterBinary`,
which is not part of this file): signed varint for integers, 4-byte
little-endian float payloads, varint-length-prefixed strings, vectors
prefixed with their logical element count, class instances prefixed with
their slot count and serialization id, struct slots written flat, and a
zero length prefix as the sole encoding of nil. -/
def encSchema (vm : VM) : Value → List Nat
  | .vInt i => encVarS i
  | .vFloat b => enc4 b
  | .nilVal => [0]
  | .vString s => encVarU s.length ++ s
  | .vVec off slots => encVarU (slots.length / vecWidth vm off) ++ encSchemaL vm slots
  | .vObj off elems =>
    encVarU (vm.getTypeInfo off).len ++ encVarU (vm.serId off) ++ encSchemaL vm elems

/-- Concatenated schema-binary encodings of a slot list. -/
def encSchemaL (vm : VM) : List Value → List Nat
  | [] => []
  | v :: r => encSchema vm v ++ encSchemaL vm r

end

/-! ## The textual value parser (`struct ValueParser`) -/

/-- The token kinds of the lexer boundary consumed by the textual parser
(modelled from the spec: current token, advance, literal values).
Numeric literal tokens carry their value; a float literal carries its
32-bit payload pattern. -/
inductive Token where
  | tInt (i : Int)
  | tFloat (bits : Nat)
  | tStr (s : List Nat)
  | tNil
  | tMinus
  | tLB
  | tRB
  | tIdent (name : List Nat)
  | tLC
  | tRC
  | tComma
  | tLF
  | tEOF
deriving DecidableEq, Repr

/-- State of the textual parser: the remaining token stream and the
scratch value stack. -/
structure TextSt where
  toks : List Token
  ds : DStack

/-- `lex.token`: the current token, end-of-file once exhausted. -/
def curTok (st : TextSt) : Token :=
  st.toks.headD .tEOF

/-- `lex.Next()`. -/
def advance (st : TextSt) : TextSt :=
  { st with toks := st.toks.tail }

/-- `ValueParser::Expect(t)`. -/
def expectTok (t : Token) (st : TextSt) : Except Err TextSt :=
  if curTok st = t then .ok (advance st) else .error .expectFail

/-- `ValueParser::Gobble(t)`. -/
def gobble (t : Token) (st : TextSt) : TextSt :=
  if curTok st = t then advance st else st

/-- `ValueParser::ExpectType(given, needed)`. -/
def expectType (given needed : VType) : Except Err Unit :=
  if given ≠ needed ∧ needed ≠ .vAny then .error (.typeMismatch needed given) else .ok ()

/-- Float negation: `setfval(fval * -1)` flips the sign bit of the 32-bit
payload (modelled from the spec: negates in place). -/
def fneg (bits : Nat) : Nat :=
  if bits < 2147483648 then bits + 2147483648 else bits - 2147483648

/-- `stack.back().setival(stack.back().ival() * -1)`: negate the integer
on top of the stack (reading a non-integer payload as an integer would be
an unchecked union read, modelled as a fault). -/
def negTopInt (d : DStack) : Except Err DStack :=
  match d.stack.getLast? with
  | some (.vInt i) => .ok ⟨d.stack.dropLast ++ [.vInt (-i)], d.is_ref⟩
  | _ => .error .oob

/-- `stack.back().setfval(stack.back().fval() * -1)`. -/
def negTopFloat (d : DStack) : Except Err DStack :=
  match d.stack.getLast? with
  | some (.vFloat b) => .ok ⟨d.stack.dropLast ++ [.vFloat (fneg b)], d.is_ref⟩
  | _ => .error .oob

/-- Call selector for the fuel-indexed mutual recursion of the textual
parser: `ParseFactor`, `ParseElems`, the element loop inside
`ParseElems`, and the missing-element default fill loop. -/
inductive TC where
  | factor (off : Nat) (push : Bool)
  | elems (endTok : Token) (off : Nat) (numelems : Int) (push : Bool)
  | eloop (endTok : Token) (off : Nat) (numelems : Int) (push : Bool) (start : Nat)
  | fill (off : Nat) (numelems : Int) (start : Nat)

/-- `ValueParser::ParseFactor` / `ValueParser::ParseElems`, translated
case by case from the C++ switch (including the nil unwrap on a non-nil
token, the enum identifier branch, the sub-class lookup on a name
mismatch, the parse of surplus elements against `TYPE_ELEM_ANY` without
pushing, and the default fill for missing elements of a sized target). -/
def textStep : Nat → VM → TC → TextSt → Except Err TextSt
  | 0, _, _, _ => .error .fuel
  | fuel + 1, vm, .factor off push, st =>
    let ti0 := vm.getTypeInfo off
    let off1 := if ti0.t = .vNil ∧ curTok st ≠ .tNil then ti0.subt else off
    let ti := vm.getTypeInfo off1
    let vt := ti.t
    match curTok st with
    | .tInt i =>
      bindE (expectType .vInt vt) fun _ =>
        let st2 := advance st
        .ok (if push then { st2 with ds := pushV st2.ds (.vInt i) false } else st2)
    | .tFloat b =>
      bindE (expectType .vFloat vt) fun _ =>
        let st2 := advance st
        .ok (if push then { st2 with ds := pushV st2.ds (.vFloat b) false } else st2)
    | .tStr s =>
      bindE (expectType .vString vt) fun _ =>
        let st2 := advance st
        .ok (if push then { st2 with ds := pushV st2.ds (.vString s) true } else st2)
    | .tNil =>
      bindE (expectType .vNil vt) fun _ =>
        let st2 := advance st
        .ok (if push then { st2 with ds := pushV st2.ds .nilVal false } else st2)
    | .tMinus =>
      bindE (textStep fuel vm (.factor off1 push) (advance st)) fun st2 =>
        if push then
          if off1 = TYPE_ELEM_INT then
            bindE (negTopInt st2.ds) fun d2 => .ok { st2 with ds := d2 }
          else if off1 = TYPE_ELEM_FLOAT then
            bindE (negTopFloat st2.ds) fun d2 => .ok { st2 with ds := d2 }
          else .error .unaryMinus
        else .ok st2
    | .tLB =>
      bindE (expectType .vVector vt) fun _ =>
        textStep fuel vm (.elems .tRB off1 (-1) push) (advance st)
    | .tIdent sname =>
      if vt = .vInt ∧ 0 ≤ ti.enumidx then
        match vm.lookupEnum sname ti.enumidx with
        | none => .error .unknownEnum
        | some x =>
          let st2 := advance st
          .ok (if push then { st2 with ds := pushV st2.ds (.vInt x) false } else st2)
      else if isUDT vt = false ∧ vt ≠ .vAny then .error (.classRequired vt)
      else
        bindE (expectTok .tLC (advance st)) fun st2 =>
          if structName vm ti ≠ sname then
            match lookupSubClass vm sname ti with
            | none => .error .unresolvedSubclass
            | some p =>
              textStep fuel vm (.elems .tRC p.2 ((p.1).len : Int) push) st2
          else textStep fuel vm (.elems .tRC off1 (ti.len : Int) push) st2
    | _ => .error .illegalExpr
  | fuel + 1, vm, .elems endTok off numelems push, st =>
    let st1 := gobble .tLF st
    let ti := vm.getTypeInfo off
    let start := st1.ds.stack.length
    bindE
      (if curTok st1 = endTok then .ok (advance st1)
       else textStep fuel vm (.eloop endTok off numelems push start) st1) fun st2 =>
      if push = false then .ok st2
      else
        bindE
          (if 0 ≤ numelems then textStep fuel vm (.fill off numelems start) st2
           else .ok st2) fun st3 =>
          if ti.t = .vClass then
            let len := st3.ds.stack.length - start
            .ok { st3 with ds := pushV (popVN st3.ds len) (.vObj off (lastN st3.ds len)) true }
          else if ti.t = .vVector then
            let len := st3.ds.stack.length - start
            .ok { st3 with ds := pushV (popVN st3.ds len) (.vVec off (lastN st3.ds len)) true }
          else .ok st3
  | fuel + 1, vm, .eloop endTok off numelems push start, st =>
    let ne := st.ds.stack.length - start
    bindE
      (if (ne : Int) = numelems then textStep fuel vm (.factor TYPE_ELEM_ANY false) st
       else
        let ti := vm.getTypeInfo off
        let eti := if ti.t = .vVector then ti.subt else getElemOrParent ti ne
        textStep fuel vm (.factor eti push) st) fun st2 =>
      let haslf := curTok st2 = .tLF
      let st3 := if haslf then advance st2 else st2
      if curTok st3 = endTok then .ok (advance st3)
      else if haslf then textStep fuel vm (.eloop endTok off numelems push start) st3
      else
        bindE (expectTok .tComma st3) fun st4 =>
          textStep fuel vm (.eloop endTok off numelems push start) st4
  | fuel + 1, vm, .fill off numelems start, st =>
    let ti := vm.getTypeInfo off
    let ne := st.ds.stack.length - start
    if (ne : Int) < numelems then
      let r := pushDefault fuel vm (ti.elemtypes.getD ne ⟨0, 0⟩).type
        (ti.elemtypes.getD ne ⟨0, 0⟩).defval st.ds
      if r.1 then textStep fuel vm (.fill off numelems start) { st with ds := r.2 }
      else .error .noDefault
    else .ok st


/-- `ValueParser::Parse`: parse one value of the given type, tolerate one
trailing linefeed, require end of input, and pop the single resulting
value. -/
def textParse (fuel : Nat) (vm : VM) (off : Nat) (toks : List Token) : Except Err Value :=
  match textStep fuel vm (.factor off true) ⟨toks, ⟨[], []⟩⟩ with
  | .error e => .error e
  | .ok st =>
    let st2 := gobble .tLF st
    if curTok st2 = .tEOF then .ok (popV st2.ds).1 else .error .expectFail

/-- `ParseData`: the public boundary that converts the unwind into the
(value, optional error) result pair pushed for the caller. -/
def parseData (fuel : Nat) (vm : VM) (off : Nat) (toks : List Token) :
    Value × Option Err :=
  match textParse fuel vm off toks with
  | .ok v => (v, none)
  | .error e => (.nilVal, some e)

/-! ## The self-describing binary parser (`struct FlexBufferParser`) -/

/-- Modelled from the spec: a verified flex-buffer node as exposed by the
generic tree reader (get-type, as-integer, as-float, as-string,
as-vector, as-map-of-named-children). -/
inductive Flex where
  | fInt (i : Int)
  | fBool (b : Bool)
  | fFloat (bits : Nat)
  | fString (s : List Nat)
  | fNull
  | fVec (elems : List Flex)
  | fMap (entries : List (List Nat × Flex))

/-- The reserved `_type` key, as bytes. -/
def typeKey : List Nat := [95, 116, 121, 112, 101]

/-- `r.IsNull()`: whether a flex node is the null node. -/
def Flex.isNullF : Flex → Bool
  | .fNull => true
  | _ => false

/-- Flex map indexing `m[key]`: the first entry with the given key, or a
null reference when absent. -/
def mlookup (entries : List (List Nat × Flex)) (key : List Nat) : Flex :=
  match entries with
  | [] => .fNull
  | (k, v) :: rest => if k = key then v else mlookup rest key

/-- Call selector for the fuel-indexed mutual recursion of
`FlexBufferParser::ParseFactor`: one node, the vector child loop, and the
map member loop. -/
inductive FC where
  | factor (r : Flex) (off : Nat)
  | vloop (rs : List Flex) (subt : Nat)
  | mloop (entries : List (List Nat × Flex)) (off : Nat) (i : Nat) (start : Nat)

/-- `FlexBufferParser::ParseFactor` and its loops, translated case by
case from the C++ switch over the node type (including the nil unwrap on
a non-null node, the `_type`-keyed sub-class lookup, the default fill for
absent or null map members, and class assembly). -/
def flexStep : Nat → VM → FC → DStack → Except Err DStack
  | 0, _, _, _ => .error .fuel
  | fuel + 1, vm, .factor r off, d =>
    let ti0 := vm.getTypeInfo off
    let off1 := if ti0.t = .vNil ∧ r.isNullF = false then ti0.subt else off
    let ti := vm.getTypeInfo off1
    let vt := ti.t
    match r with
    | .fInt i =>
      bindE (expectType .vInt vt) fun _ => .ok (pushV d (.vInt i) false)
    | .fBool b =>
      bindE (expectType .vInt vt) fun _ => .ok (pushV d (.vInt (if b then 1 else 0)) false)
    | .fFloat bits =>
      bindE (expectType .vFloat vt) fun _ => .ok (pushV d (.vFloat bits) false)
    | .fString s =>
      bindE (expectType .vString vt) fun _ => .ok (pushV d (.vString s) true)
    | .fNull =>
      bindE (expectType .vNil vt) fun _ => .ok (pushV d .nilVal false)
    | .fVec rs =>
      bindE (expectType .vVector vt) fun _ =>
        let start := d.stack.length
        bindE (flexStep fuel vm (.vloop rs ti.subt) d) fun d2 =>
          let len2 := d2.stack.length - start
          .ok (pushV (popVN d2 len2) (.vVec off1 (lastN d2 len2)) true)
    | .fMap entries =>
      if isUDT vt = false ∧ vt ≠ .vAny then .error (.classRequired vt)
      else
        bindE
          (match mlookup entries typeKey with
           | .fString s =>
             if s ≠ structName vm ti then
               match lookupSubClass vm s ti with
               | none => .error .unresolvedSubclass
               | some p => .ok p
             else .ok (ti, off1)
           | _ => .ok (ti, off1)) fun tioff =>
          let start := d.stack.length
          bindE (flexStep fuel vm (.mloop entries tioff.2 0 start) d) fun d2 =>
            if vt = .vClass then
              let len2 := d2.stack.length - start
              .ok (pushV (popVN d2 len2) (.vObj tioff.2 (lastN d2 len2)) true)
            else .ok d2
  | fuel + 1, vm, .vloop rs subt, d =>
    match rs with
    | [] => .ok d
    | r :: rest =>
      bindE (flexStep fuel vm (.factor r subt) d) fun d2 =>
        flexStep fuel vm (.vloop rest subt) d2
  | fuel + 1, vm, .mloop entries off i start, d =>
    let ti := vm.getTypeInfo off
    let ne := d.stack.length - start
    if ne = ti.len then .ok d
    else
      let fname := vm.fieldNames ti.structidx i
      let eti := getElemOrParent ti ne
      match mlookup entries fname with
      | .fNull =>
        let r := pushDefault fuel vm eti (ti.elemtypes.getD ne ⟨0, 0⟩).defval d
        if r.1 then flexStep fuel vm (.mloop entries off (i + 1) start) r.2
        else .error .noDefault
      | e =>
        bindE (flexStep fuel vm (.factor e eti) d) fun d2 =>
          flexStep fuel vm (.mloop entries off (i + 1) start) d2


/-- `FlexBufferParser::Parse`: parse the root node and pop the single
resulting value. -/
def parseFlex (fuel : Nat) (vm : VM) (off : Nat) (r : Flex) : Except Err Value :=
  match flexStep fuel vm (.factor r off) ⟨[], []⟩ with
  | .error e => .error e
  | .ok d => .ok (popV d).1

/-- `ParseFlexData`: the public boundary returning the (value, optional
error) result pair. -/
def parseFlexData (fuel : Nat) (vm : VM) (off : Nat) (r : Flex) :
    Value × Option Err :=
  match parseFlex fuel vm off r with
  | .ok v => (v, none)
  | .error e => (.nilVal, some e)

/-! ## The textual printer and the flex encoder (modelled) -/

/-- Call selector for the textual printer: one value, a comma-separated
value list, or a vector slot list (grouped into struct literals when the
element type is a struct). -/
inductive PE where
  | one (v : Value)
  | commaList (vs : List Value)
  | chunks (stoff : Nat) (slots : List Value)

/-- Modelled from the spec: the default textual form used to print a
value (section 6 grammar), the round-trip partner of the textual parser.
Numeric literals are printed as single literal tokens; vector elements of
struct element type print as `name { members }` groups. -/
def printStep : Nat → VM → PE → List Token
  | 0, _, _ => []
  | fuel + 1, vm, .one v =>
    match v with
    | .vInt i => [.tInt i]
    | .vFloat b => [.tFloat b]
    | .nilVal => [.tNil]
    | .vString s => [.tStr s]
    | .vVec off slots =>
      .tLB :: (printStep fuel vm (.chunks (vm.getTypeInfo off).subt slots) ++ [.tRB])
    | .vObj off elems =>
      let ti := vm.getTypeInfo off
      .tIdent (structName vm ti) :: .tLC :: (printStep fuel vm (.commaList elems) ++ [.tRC])
  | fuel + 1, vm, .commaList vs =>
    match vs with
    | [] => []
    | [v] => printStep fuel vm (.one v)
    | v :: rest => printStep fuel vm (.one v) ++ .tComma :: printStep fuel vm (.commaList rest)
  | fuel + 1, vm, .chunks stoff slots =>
    let sti := vm.getTypeInfo stoff
    if isStructT sti.t then
      match slots with
      | [] => []
      | _ =>
        let chunk := slots.take sti.len
        let rest := slots.drop sti.len
        let elemToks :=
          Token.tIdent (structName vm sti) :: .tLC :: (printStep fuel vm (.commaList chunk) ++ [.tRC])
        if rest.isEmpty then elemToks
        else elemToks ++ .tComma :: printStep fuel vm (.chunks stoff rest)
    else printStep fuel vm (.commaList slots)

/-- `print(v)` at the token level. -/
def printVal (fuel : Nat) (vm : VM) (v : Value) : List Token :=
  printStep fuel vm (.one v)

/-- Result alternatives of the flex encoder recursion. -/
inductive FRes where
  | r1 (r : Flex)
  | rl (rs : List Flex)
  | rf (entries : List (List Nat × Flex))

/-- Projection of a single-node result. -/
def FRes.get1 : FRes → Flex
  | .r1 r => r
  | _ => .fNull

/-- Projection of a node-list result. -/
def FRes.getl : FRes → List Flex
  | .rl rs => rs
  | _ => []

/-- Projection of a map-entry-list result. -/
def FRes.getf : FRes → List (List Nat × Flex)
  | .rf es => es
  | _ => []

/-- Call selector for the flex encoder: one value, a vector slot list, or
the named-field entries of an aggregate. -/
inductive FE where
  | one (v : Value)
  | vecSlots (stoff : Nat) (slots : List Value)
  | fields (sidx : Nat) (i : Nat) (vs : List Value)

/-- Modelled from the spec: `encodeToSelfDescribingBinary`
(`ToFlexBuffer`, which is not part of this file) at the tree level:
scalars to tagged nodes, strings to string nodes, nil to the null node,
vectors to arrays (struct elements as named-field maps), class instances
to maps carrying the reserved `_type` key and one named entry per member
in declaration order. -/
def flexOfStep : Nat → VM → FE → FRes
  | 0, _, .one _ => .r1 .fNull
  | 0, _, .vecSlots _ _ => .rl []
  | 0, _, .fields _ _ _ => .rf []
  | fuel + 1, vm, .one v =>
    match v with
    | .vInt i => .r1 (.fInt i)
    | .vFloat b => .r1 (.fFloat b)
    | .nilVal => .r1 .fNull
    | .vString s => .r1 (.fString s)
    | .vVec off slots =>
      .r1 (.fVec (flexOfStep fuel vm (.vecSlots (vm.getTypeInfo off).subt slots)).getl)
    | .vObj off elems =>
      let ti := vm.getTypeInfo off
      .r1 (.fMap ((typeKey, .fString (structName vm ti)) ::
        (flexOfStep fuel vm (.fields ti.structidx 0 elems)).getf))
  | fuel + 1, vm, .vecSlots stoff slots =>
    let sti := vm.getTypeInfo stoff
    if isStructT sti.t then
      match slots with
      | [] => .rl []
      | _ =>
        let chunk := slots.take sti.len
        let rest := slots.drop sti.len
        let m : Flex := .fMap ((typeKey, .fString (structName vm sti)) ::
          (flexOfStep fuel vm (.fields sti.structidx 0 chunk)).getf)
        .rl (m :: (flexOfStep fuel vm (.vecSlots stoff rest)).getl)
    else
      match slots with
      | [] => .rl []
      | v :: rest =>
        .rl ((flexOfStep fuel vm (.one v)).get1 ::
          (flexOfStep fuel vm (.vecSlots stoff rest)).getl)
  | fuel + 1, vm, .fields sidx i vs =>
    match vs with
    | [] => .rf []
    | v :: rest =>
      .rf ((vm.fieldNames sidx i, (flexOfStep fuel vm (.one v)).get1) ::
        (flexOfStep fuel vm (.fields sidx (i + 1) rest)).getf)

/-- `encodeToSelfDescribingBinary(v)` at the tree level. -/
def flexOf (fuel : Nat) (vm : VM) (v : Value) : Flex :=
  (flexOfStep fuel vm (.one v)).get1

/-! ## Typing of runtime values against the descriptor table -/

mutual

/-- `HasTy vm off v`: the value `v` inhabits the serializable type at
offset `off`.  Class instances carry exactly the descriptor they were
built from; a value inhabits a nilable type when it is nil or inhabits
the wrapped type. -/
inductive HasTy : VM → Nat → Value → Prop where
  | int {vm off i} : (vm.getTypeInfo off).t = .vInt → HasTy vm off (.vInt i)
  | float {vm off bits} : (vm.getTypeInfo off).t = .vFloat → bits < 4294967296 →
      HasTy vm off (.vFloat bits)
  | str {vm off s} : (vm.getTypeInfo off).t = .vString → (∀ b ∈ s, b < 256) →
      HasTy vm off (.vString s)
  | nilv {vm off} : (vm.getTypeInfo off).t = .vNil → HasTy vm off .nilVal
  | nilSome {vm off v} : (vm.getTypeInfo off).t = .vNil →
      HasTy vm (vm.getTypeInfo off).subt v → HasTy vm off v
  | vec {vm off slots} : (vm.getTypeInfo off).t = .vVector →
      VecSlots vm (vm.getTypeInfo off).subt slots → HasTy vm off (.vVec off slots)
  | obj {vm off elems} : (vm.getTypeInfo off).t = .vClass →
      ElemsTy vm (vm.getTypeInfo off).elemtypes elems → HasTy vm off (.vObj off elems)

/-- Typing of the flat slot list of a vector whose element descriptor is
at `stoff`: scalar-width elements slot by slot, struct elements chunk by
chunk. -/
inductive VecSlots : VM → Nat → List Value → Prop where
  | nil {vm stoff} : VecSlots vm stoff []
  | consScalar {vm stoff v rest} : isStructT (vm.getTypeInfo stoff).t = false →
      HasTy vm stoff v → VecSlots vm stoff rest → VecSlots vm stoff (v :: rest)
  | consChunk {vm stoff chunk rest} : isStructT (vm.getTypeInfo stoff).t = true →
      ElemsTy vm (vm.getTypeInfo stoff).elemtypes chunk → VecSlots vm stoff rest →
      VecSlots vm stoff (chunk ++ rest)

/-- Typing of aggregate member slots against the member descriptor
list. -/
inductive ElemsTy : VM → List Elem → List Value → Prop where
  | nil {vm} : ElemsTy vm [] []
  | cons {vm e es v vs} : HasTy vm e.type v → ElemsTy vm es vs →
      ElemsTy vm (e :: es) (v :: vs)

end

/-- Whether the descriptor at `off` is a nilable wrapper. -/
def nilable (vm : VM) (off : Nat) : Prop :=
  (vm.getTypeInfo off).t = .vNil

mutual

/-- `SOK vm off v`: side condition for the schema-binary round trip.  In
that format a zero length prefix at a nilable position decodes to nil, so
an empty string or empty vector must not occupy a nilable position
anywhere inside the value. -/
inductive SOK : VM → Nat → Value → Prop where
  | int {vm off i} : SOK vm off (.vInt i)
  | float {vm off b} : SOK vm off (.vFloat b)
  | nilv {vm off} : SOK vm off .nilVal
  | str {vm off s} : (nilable vm off → s ≠ []) → SOK vm off (.vString s)
  | vec {vm off voff slots} : (nilable vm off → slots ≠ []) →
      SOKSlots vm (vm.getTypeInfo voff).subt slots → SOK vm off (.vVec voff slots)
  | obj {vm off voff elems} : SOKElems vm (vm.getTypeInfo voff).elemtypes elems →
      SOK vm off (.vObj voff elems)

/-- Schema side condition over a vector slot list. -/
inductive SOKSlots : VM → Nat → List Value → Prop where
  | nil {vm stoff} : SOKSlots vm stoff []
  | consScalar {vm stoff v rest} : isStructT (vm.getTypeInfo stoff).t = false →
      SOK vm stoff v → SOKSlots vm stoff rest → SOKSlots vm stoff (v :: rest)
  | consChunk {vm stoff chunk rest} : isStructT (vm.getTypeInfo stoff).t = true →
      SOKElems vm (vm.getTypeInfo stoff).elemtypes chunk → SOKSlots vm stoff rest →
      SOKSlots vm stoff (chunk ++ rest)

/-- Schema side condition over aggregate member slots. -/
inductive SOKElems : VM → List Elem → List Value → Prop where
  | nil {vm} : SOKElems vm [] []
  | cons {vm e es v vs} : SOK vm e.type v → SOKElems vm es vs →
      SOKElems vm (e :: es) (v :: vs)

end

mutual

/-- Recursion-depth bound of a value, used as the fuel lower bound of the
round-trip theorems. -/
def fuelV : Value → Nat
  | .vInt _ => 2
  | .vFloat _ => 2
  | .nilVal => 2
  | .vString _ => 2
  | .vVec _ slots => 4 + fuelSlots slots
  | .vObj _ elems => 4 + fuelSlots elems

/-- Recursion-depth bound of a slot list. -/
def fuelSlots : List Value → Nat
  | [] => 16
  | v :: r => 16 + fuelV v + fuelSlots r

end

/-- Push a list of values, each with its owning-reference flag. -/
def pushVs (d : DStack) (vs : List Value) : DStack :=
  ⟨d.stack ++ vs, d.is_ref ++ vs.map isRefV⟩

/-- Round-trip property of one schema-binary element parse: from any
cursor position, stack and surrounding bytes, parsing the encoding of `v`
at the type `v` inhabits consumes exactly that encoding and pushes
exactly `v`. -/
def BinElemP (vm : VM) (v : Value) (off : Nat) : Prop :=
  ∀ (fuel : Nat) (pre post : List Nat) (endp : Nat) (d : DStack),
    fuelV v < fuel →
    pre.length + (encSchema vm v).length ≤ endp →
    endp ≤ pre.length + ((encSchema vm v).length + post.length) →
    binStep fuel vm (.elem off) ⟨pre ++ (encSchema vm v ++ post), pre.length, endp, d⟩ =
      .ok ⟨pre ++ (encSchema vm v ++ post), pre.length + (encSchema vm v).length, endp,
        pushV d v (isRefV v)⟩

/-- Round-trip property of one textual-format parse: parsing the token
stream the printer produced for `v`, at the type `v` inhabits, consumes
exactly those tokens and pushes exactly `v`. -/
def TextP (vm : VM) (v : Value) (off : Nat) : Prop :=
  ∀ (pf fuel : Nat) (rest : List Token) (d : DStack),
    fuelV v < pf → fuelV v < fuel →
    textStep fuel vm (.factor off true) ⟨printStep pf vm (.one v) ++ rest, d⟩ =
      .ok ⟨rest, pushV d v (isRefV v)⟩

/-- Round-trip property of one self-describing-format parse: parsing the
flex node the encoder produced for `v`, at the type `v` inhabits, pushes
exactly `v`. -/
def FlexP (vm : VM) (v : Value) (off : Nat) : Prop :=
  ∀ (pf fuel : Nat) (d : DStack),
    fuelV v < pf → fuelV v < fuel →
    flexStep fuel vm (.factor (flexOfStep pf vm (.one v)).get1 off) d =
      .ok (pushV d v (isRefV v))

/-- Well-formedness of the VM type table, enumerating the coherence
facts the runtime guarantees for serializable types: offset 0 is the
fully open type; aggregates have as many member descriptors as their
slot count, at least one member, a slot count within the 32-bit range,
and no struct-typed member slot; nilable wrappers wrap a string, vector
or class type (the serializable nilables); serialization ids round-trip
through `GetSubClassFromSerID`; field names of an aggregate are distinct
and never the reserved `_type` key. -/
structure WF (vm : VM) : Prop where
  any0 : (vm.getTypeInfo TYPE_ELEM_ANY).t = .vAny
  aggLen : ∀ off < vm.types.length, isUDT (vm.getTypeInfo off).t = true →
    (vm.getTypeInfo off).elemtypes.length = (vm.getTypeInfo off).len ∧
    1 ≤ (vm.getTypeInfo off).len ∧ (vm.getTypeInfo off).len < 2147483648
  aggFlat : ∀ off < vm.types.length, isUDT (vm.getTypeInfo off).t = true →
    ∀ e ∈ (vm.getTypeInfo off).elemtypes, isStructT (vm.getTypeInfo e.type).t = false
  nilSub : ∀ off < vm.types.length, (vm.getTypeInfo off).t = .vNil →
    (vm.getTypeInfo (vm.getTypeInfo off).subt).t = .vString ∨
    (vm.getTypeInfo (vm.getTypeInfo off).subt).t = .vVector ∨
    (vm.getTypeInfo (vm.getTypeInfo off).subt).t = .vClass
  ser : ∀ off < vm.types.length, (vm.getTypeInfo off).t = .vClass →
    vm.serId off < 4294967296 ∧ vm.subClassFromSerID off (vm.serId off) = (off : Int)
  fieldsNodup : ∀ off < vm.types.length, isUDT (vm.getTypeInfo off).t = true →
    ((List.range (vm.getTypeInfo off).len).map
      (vm.fieldNames (vm.getTypeInfo off).structidx)).Nodup
  fieldsNotType : ∀ off < vm.types.length, isUDT (vm.getTypeInfo off).t = true →
    ∀ i < (vm.getTypeInfo off).len,
      vm.fieldNames (vm.getTypeInfo off).structidx i ≠ typeKey

/-! ## A concrete example VM for witnesses and counterexamples -/

/-- A small concrete type table exercising every descriptor kind: 0 the
open type, 1 int, 2 float, 3 string, 4 nilable string, 5 vector of int,
6 class `P {x:int = 7, s:string?}`, 7 nilable `P`, 8 struct
`S {a:int, b:int}`, 9 vector of `S`, 10 nilable vector of int, 11 class
`Q {c:string}` (whose member has no synthesizable default), 12 a
vector-of-int descriptor carrying a declared element count of 3, 13 class
`C {x:int = 1, y:int = 2, z:int = 3}`. -/
def egTypes : List TypeInfo :=
  [⟨.vAny, 0, 0, [], 0, -1⟩,
   ⟨.vInt, 0, 0, [], 0, -1⟩,
   ⟨.vFloat, 0, 0, [], 0, -1⟩,
   ⟨.vString, 0, 0, [], 0, -1⟩,
   ⟨.vNil, 3, 0, [], 0, -1⟩,
   ⟨.vVector, 1, 0, [], 0, -1⟩,
   ⟨.vClass, 0, 2, [⟨1, 7⟩, ⟨4, 0⟩], 0, -1⟩,
   ⟨.vNil, 6, 0, [], 0, -1⟩,
   ⟨.vStructS, 0, 2, [⟨1, 0⟩, ⟨1, 0⟩], 1, -1⟩,
   ⟨.vVector, 8, 0, [], 0, -1⟩,
   ⟨.vNil, 5, 0, [], 0, -1⟩,
   ⟨.vClass, 0, 1, [⟨3, 0⟩], 2, -1⟩,
   ⟨.vVector, 1, 3, [⟨1, 0⟩, ⟨1, 0⟩, ⟨1, 0⟩], 3, -1⟩,
   ⟨.vClass, 0, 3, [⟨1, 1⟩, ⟨1, 2⟩, ⟨1, 3⟩], 4, -1⟩]

/-- The example VM over `egTypes`.  Type names are one byte per
structural index; field names are two bytes (so never the five-byte
`_type` key) and distinct per index; serialization ids are
`100 + off` and resolve back to `off`. -/
def egVM : VM where
  types := egTypes
  names := fun sidx => [80 + sidx]
  fieldNames := fun sidx i => [100 + sidx, 110 + i]
  udtLookup := fun s =>
    if s = [68] then [⟨1, 9⟩, ⟨0, -3⟩, ⟨0, 6⟩, ⟨0, 11⟩] else []
  subClassFromSerID := fun off sid => if sid = 100 + off then (off : Int) else -1
  serId := fun off => 100 + off
  lookupEnum := fun _ _ => none

/-- Whether a value is a single-token scalar literal of the textual
format (integer, float, string or nil). -/
def scalarV : Value → Bool
  | .vInt _ => true
  | .vFloat _ => true
  | .vString _ => true
  | .nilVal => true
  | _ => false

mutual

/-- `DefaultOf vm off dv v`: the value `PushDefault(off, dv)` synthesizes
and pushes for a type with a representable default (one stack slot):
the declared integer default, its float reinterpretation, nil, the empty
vector, or a class instance of recursively synthesized member
defaults. -/
inductive DefaultOf : VM → Nat → Int → Value → Prop where
  | int {vm off dv} : (vm.getTypeInfo off).t = .vInt → DefaultOf vm off dv (.vInt dv)
  | float {vm off dv} : (vm.getTypeInfo off).t = .vFloat →
      DefaultOf vm off dv (.vFloat (int2float dv))
  | nilv {vm off dv} : (vm.getTypeInfo off).t = .vNil → DefaultOf vm off dv .nilVal
  | vec {vm off dv} : (vm.getTypeInfo off).t = .vVector → DefaultOf vm off dv (.vVec off [])
  | obj {vm off dv dvs} : (vm.getTypeInfo off).t = .vClass →
      DefaultsElems vm (vm.getTypeInfo off).elemtypes dvs →
      dvs.length = (vm.getTypeInfo off).len →
      DefaultOf vm off dv (.vObj off dvs)

/-- The member-wise defaults of an aggregate member list, in declaration
order. -/
inductive DefaultsElems : VM → List Elem → List Value → Prop where
  | nil {vm} : DefaultsElems vm [] []
  | cons {vm e es v vs} : DefaultOf vm e.type e.defval v → DefaultsElems vm es vs →
      DefaultsElems vm (e :: es) (v :: vs)

end

/-! # Theorems -/

/-! ## Basic facts about the model -/

theorem inRange {vm : VM} {off : Nat} (h : (vm.getTypeInfo off).t ≠ .vAny) :
    off < vm.types.length := by
  by_contra hc
  have hd : vm.getTypeInfo off = ⟨.vAny, 0, 0, [], 0, -1⟩ :=
    List.getD_eq_default _ _ (by omega)
  exact h (by rw [hd])

/-! ## Varint codec lemmas -/

theorem encVarUGo_eq : ∀ (n f g : Nat), n < f → n < g → encVarUGo f n = encVarUGo g n := by
  intro n
  induction n using Nat.strong_induction_on with
  | _ n IH =>
    intro f g hf hg
    cases f with
    | zero => omega
    | succ f =>
      cases g with
      | zero => omega
      | succ g =>
        simp only [encVarUGo]
        split
        · rfl
        · rw [IH (n / 128) (by omega) f g (by omega) (by omega)]

theorem encVarU_unfold (n : Nat) :
    encVarU n = if n < 128 then [n] else (n % 128 + 128) :: encVarU (n / 128) := by
  show encVarUGo (n + 1) n = _
  simp only [encVarUGo]
  split
  · rfl
  · rw [encVarUGo_eq (n / 128) n (n / 128 + 1) (by omega) (by omega)]
    rfl

theorem encVarU_ne_nil (n : Nat) : encVarU n ≠ [] := by
  rw [encVarU_unfold]
  split <;> simp

theorem encVarU_length_pos (n : Nat) : 1 ≤ (encVarU n).length := by
  have := encVarU_ne_nil n
  cases h : encVarU n with
  | nil => exact absurd h this
  | cons a l => simp

theorem decVarUGo_enc : ∀ (n : Nat) (pre post : List Nat) (endp shift acc fuel : Nat),
    pre.length + (encVarU n).length ≤ endp →
    endp ≤ pre.length + (encVarU n).length + post.length →
    (encVarU n).length ≤ fuel →
    decVarUGo fuel (pre ++ (encVarU n ++ post)) endp pre.length shift acc =
      .ok (acc + n * 2 ^ shift, pre.length + (encVarU n).length) := by
  intro n
  induction n using Nat.strong_induction_on with
  | _ n IH =>
    intro pre post endp shift acc fuel h1 h2 hf
    rw [encVarU_unfold n] at h1 h2 hf ⊢
    by_cases hn : n < 128
    · simp only [hn, if_true, List.length_cons, List.length_nil] at h1 h2 hf ⊢
      cases fuel with
      | zero => omega
      | succ f =>
        have hlt : pre.length < endp := by omega
        have hmem : pre.length < (pre ++ ([n] ++ post)).length := by
          simp only [List.length_append, List.length_cons, List.length_nil]; omega
        have hget : (pre ++ ([n] ++ post)).getD pre.length 0 = n := by
          rw [List.getD_append_right _ _ _ _ (le_refl _)]
          simp
        simp only [decVarUGo, hlt, if_true, hmem, if_true, hget, hn, if_true]
    · simp only [hn, if_false, List.length_cons] at h1 h2 hf ⊢
      cases fuel with
      | zero => omega
      | succ f =>
        have hlt : pre.length < endp := by omega
        have hmem : pre.length < (pre ++ ((n % 128 + 128) :: encVarU (n / 128) ++ post)).length := by
          simp only [List.length_append, List.length_cons]; omega
        have hget : (pre ++ ((n % 128 + 128) :: encVarU (n / 128) ++ post)).getD pre.length 0 =
            n % 128 + 128 := by
          rw [List.getD_append_right _ _ _ _ (le_refl _)]
          simp
        have hub : ¬ (n % 128 + 128 < 128) := by omega
        simp only [decVarUGo, hlt, if_true, hmem, if_true, hget, hub, if_false]
        have hre : pre ++ ((n % 128 + 128) :: encVarU (n / 128) ++ post) =
            (pre ++ [n % 128 + 128]) ++ (encVarU (n / 128) ++ post) := by
          simp
        rw [hre]
        have hpl : pre.length + 1 = (pre ++ [n % 128 + 128]).length := by simp
        rw [hpl]
        have hdiv : n / 128 < n := by omega
        rw [IH (n / 128) hdiv (pre ++ [n % 128 + 128]) post endp (shift + 7)
          (acc + (n % 128 + 128) % 128 * 2 ^ shift) f
          (by simp only [List.length_append, List.length_cons, List.length_nil]; omega)
          (by simp only [List.length_append, List.length_cons, List.length_nil]; omega)
          (by omega)]
        have hm : (n % 128 + 128) % 128 = n % 128 := by omega
        have key : n % 128 * 2 ^ shift + n / 128 * 2 ^ (shift + 7) = n * 2 ^ shift := by
          rw [pow_add]
          have h7 : (2 : Nat) ^ 7 = 128 := rfl
          rw [h7]
          conv_rhs => rw [← Nat.div_add_mod n 128]
          ring
        congr 2
        · rw [hm, Nat.add_assoc, key]
        · simp only [List.length_append, List.length_cons, List.length_nil]; omega

theorem decVarU_enc (n : Nat) (pre post : List Nat) (endp : Nat)
    (h1 : pre.length + (encVarU n).length ≤ endp)
    (h2 : endp ≤ pre.length + (encVarU n).length + post.length) :
    decVarU (pre ++ (encVarU n ++ post)) endp pre.length =
      .ok (n, pre.length + (encVarU n).length) := by
  unfold decVarU
  rw [decVarUGo_enc n pre post endp 0 0 (endp + 1 - pre.length) h1 h2 (by omega)]
  simp

theorem unzig_zig (i : Int) : unzig (zig i) = i := by
  unfold zig unzig
  by_cases h : 0 ≤ i
  · simp only [h, if_true]
    have h2 : (2 * i).toNat % 2 = 0 := by omega
    simp only [h2, if_true]
    omega
  · simp only [h, if_false]
    have h2 : (-(2 * i) - 1).toNat % 2 = 1 := by omega
    simp only [h2]
    norm_num
    omega

theorem decVarS_enc (i : Int) (pre post : List Nat) (endp : Nat)
    (h1 : pre.length + (encVarS i).length ≤ endp)
    (h2 : endp ≤ pre.length + (encVarS i).length + post.length) :
    decVarS (pre ++ (encVarS i ++ post)) endp pre.length =
      .ok (i, pre.length + (encVarS i).length) := by
  unfold decVarS encVarS
  unfold encVarS at h1 h2
  rw [decVarU_enc (zig i) pre post endp h1 h2]
  simp [unzig_zig]

/-! ## Unfolding lemmas for the step functions -/

theorem bindE_ok {α β : Type} (a : α) (fn : α → Except Err β) :
    bindE (.ok a) fn = fn a := rfl

theorem bindE_error {α β : Type} (e : Err) (fn : α → Except Err β) :
    bindE (.error e) fn = .error e := rfl

theorem binStep_elem (fuel : Nat) (vm : VM) (off off1 : Nat) (mem : List Nat)
    (pos endp : Nat) (d : DStack)
    (hoff1 : off1 = if (vm.getTypeInfo off).t = .vNil then (vm.getTypeInfo off).subt else off) :
    binStep (fuel + 1) vm (.elem off) ⟨mem, pos, endp, d⟩ =
      (if endp = pos then .error .truncated
      else
        match (vm.getTypeInfo off1).t with
        | .vInt =>
          bindE (decVarS mem endp pos) fun ip =>
            .ok ⟨mem, ip.2, endp, pushV d (.vInt ip.1) false⟩
        | .vFloat =>
          if endp < pos + 4 then .error .truncated
          else if mem.length < pos + 4 then .error .oob
          else
            .ok ⟨mem, pos + 4, endp,
              pushV d (.vFloat (mem.getD pos 0 + 256 * mem.getD (pos + 1) 0 +
                65536 * mem.getD (pos + 2) 0 + 16777216 * mem.getD (pos + 3) 0)) false⟩
        | .vString =>
          bindE (decVarU mem endp pos) fun lp =>
            if lp.1 = 0 ∧ (vm.getTypeInfo off).t = .vNil then
              .ok ⟨mem, lp.2, endp, pushV d .nilVal false⟩
            else if mem.length < lp.2 + lp.1 then .error .oob
            else
              .ok ⟨mem, lp.2 + lp.1, endp, pushV d (.vString ((mem.drop lp.2).take lp.1)) true⟩
        | .vVector =>
          bindE (decVarU mem endp pos) fun lp =>
            if lp.1 = 0 ∧ (vm.getTypeInfo off).t = .vNil then
              .ok ⟨mem, lp.2, endp, pushV d .nilVal false⟩
            else
              bindE (binStep fuel vm (.vloop lp.1 (vm.getTypeInfo off1).subt) ⟨mem, lp.2, endp, d⟩)
                fun st2 =>
                .ok { st2 with ds := pushV (popVN st2.ds (st2.ds.stack.length - d.stack.length)) (.vVec off1 (lastN st2.ds (st2.ds.stack.length - d.stack.length))) true }
        | .vClass =>
          bindE (decVarU mem endp pos) fun np =>
            if i32 np.1 = 0 ∧ (vm.getTypeInfo off).t = .vNil then
              .ok ⟨mem, np.2, endp, pushV d .nilVal false⟩
            else
              bindE (decVarU mem endp np.2) fun sp =>
                if vm.subClassFromSerID off1 (sp.1 % 4294967296) < 0 then .error .unresolvedSerId
                else
                  bindE (binStep fuel vm
                      (.cloop (vm.getTypeInfo (vm.subClassFromSerID off1 (sp.1 % 4294967296)).toNat)
                        (i32 np.1) d.stack.length)
                      ⟨mem, sp.2, endp, d⟩)
                    fun st2 =>
                    if i32 np.1 > ((st2.ds.stack.length - d.stack.length : Nat) : Int) then
                      .error .extraFields
                    else
                      .ok { st2 with ds := pushV (popVN st2.ds (st2.ds.stack.length - d.stack.length)) (.vObj (vm.subClassFromSerID off1 (sp.1 % 4294967296)).toNat (lastN st2.ds (st2.ds.stack.length - d.stack.length))) true }
        | .vStructS | .vStructR =>
          binStep fuel vm (.sloop (vm.getTypeInfo off1) d.stack.length) ⟨mem, pos, endp, d⟩
        | _ => .error .cantConvert) := by
  subst hoff1
  rfl

theorem binStep_vloop (fuel : Nat) (vm : VM) (cnt subt : Nat) (st : BinSt) :
    binStep (fuel + 1) vm (.vloop cnt subt) st =
      match cnt with
      | 0 => .ok st
      | c + 1 =>
        bindE (binStep fuel vm (.elem subt) st) fun st2 =>
          binStep fuel vm (.vloop c subt) st2 := rfl

theorem binStep_cloop (fuel : Nat) (vm : VM) (ti : TypeInfo) (elen : Int) (start : Nat)
    (mem : List Nat) (pos endp : Nat) (d : DStack) :
    binStep (fuel + 1) vm (.cloop ti elen start) ⟨mem, pos, endp, d⟩ =
      (let ne := d.stack.length - start
      if ne = ti.len then .ok ⟨mem, pos, endp, d⟩
      else
        let eti := getElemOrParent ti ne
        if elen ≤ (ne : Int) then
          let r := pushDefault fuel vm eti (ti.elemtypes.getD ne ⟨0, 0⟩).defval d
          if r.1 then binStep fuel vm (.cloop ti elen start) ⟨mem, pos, endp, r.2⟩
          else .error .noDefault
        else
          bindE (binStep fuel vm (.elem eti) ⟨mem, pos, endp, d⟩) fun st2 =>
            binStep fuel vm (.cloop ti elen start) st2) := rfl

theorem binStep_sloop (fuel : Nat) (vm : VM) (ti : TypeInfo) (start : Nat)
    (mem : List Nat) (pos endp : Nat) (d : DStack) :
    binStep (fuel + 1) vm (.sloop ti start) ⟨mem, pos, endp, d⟩ =
      if d.stack.length - start = ti.len then .ok ⟨mem, pos, endp, d⟩
      else
        bindE (binStep fuel vm (.elem (getElemOrParent ti (d.stack.length - start)))
            ⟨mem, pos, endp, d⟩)
          fun st2 => binStep fuel vm (.sloop ti start) st2 := rfl

/-! ## List and stack helper lemmas -/

theorem getD_of_drop {α : Type} : ∀ (l : List α) (n : Nat) (x : α) (xs : List α) (dflt : α),
    l.drop n = x :: xs → l.getD n dflt = x := by
  intro l
  induction l with
  | nil => intro n x xs dflt h; rw [List.drop_nil] at h; cases h
  | cons a l ih =>
    intro n x xs dflt h
    cases n with
    | zero =>
      simp only [List.drop] at h
      cases h
      rfl
    | succ n =>
      simp only [List.drop] at h
      simpa using ih n x xs dflt h

theorem getD_pre (pre l post : List Nat) (i : Nat) (h : i < l.length) :
    (pre ++ (l ++ post)).getD (pre.length + i) 0 = l.getD i 0 := by
  rw [← List.append_assoc]
  rw [List.getD_append _ _ _ _ (by simp only [List.length_append]; omega)]
  rw [List.getD_append_right _ _ _ _ (by omega)]
  congr 1
  omega

theorem drop_app_len {α : Type} (s t : List α) :
    (s ++ t).drop ((s ++ t).length - t.length) = t := by
  have : (s ++ t).length - t.length = s.length := by simp
  rw [this, List.drop_left]

theorem take_app_len {α : Type} (s t : List α) :
    (s ++ t).take ((s ++ t).length - t.length) = s := by
  have : (s ++ t).length - t.length = s.length := by simp
  rw [this, List.take_left]

theorem elemsTy_length {vm : VM} : ∀ {es : List Elem} {vs : List Value},
    ElemsTy vm es vs → vs.length = es.length := by
  intro es
  induction es with
  | nil => intro vs h; cases h; rfl
  | cons e es ih =>
    intro vs h
    cases h with
    | cons h1 h2 => simpa using ih h2

/-! ## Shape of the schema-binary encoding -/

theorem encSchemaL_append (vm : VM) : ∀ (a b : List Value),
    encSchemaL vm (a ++ b) = encSchemaL vm a ++ encSchemaL vm b := by
  intro a b
  induction a with
  | nil => simp [encSchemaL]
  | cons v r ih => simp [encSchemaL, ih]

theorem encSchema_length_pos (vm : VM) (v : Value) : 1 ≤ (encSchema vm v).length := by
  cases v with
  | vInt i => simpa [encSchema, encVarS] using encVarU_length_pos (zig i)
  | vFloat b => simp [encSchema, enc4]
  | nilVal => simp [encSchema]
  | vString s =>
    simp only [encSchema, List.length_append]
    have := encVarU_length_pos s.length
    omega
  | vVec off slots =>
    simp only [encSchema, List.length_append]
    have := encVarU_length_pos (slots.length / vecWidth vm off)
    omega
  | vObj off elems =>
    simp only [encSchema, List.length_append]
    have := encVarU_length_pos (vm.getTypeInfo off).len
    omega

theorem encSchemaL_cons_length_pos (vm : VM) (v : Value) (r : List Value) :
    1 ≤ (encSchemaL vm (v :: r)).length := by
  simp only [encSchemaL, List.length_append]
  have := encSchema_length_pos vm v
  omega

theorem fuelSlots_append : ∀ (a b : List Value),
    fuelSlots (a ++ b) + 16 = fuelSlots a + fuelSlots b := by
  intro a b
  induction a with
  | nil =>
    show fuelSlots b + 16 = fuelSlots [] + fuelSlots b
    simp only [fuelSlots]
    omega
  | cons v r ih =>
    show fuelSlots (v :: (r ++ b)) + 16 = fuelSlots (v :: r) + fuelSlots b
    simp only [fuelSlots]
    omega

theorem fuelSlots_ge (vs : List Value) : 16 ≤ fuelSlots vs := by
  cases vs <;> simp only [fuelSlots] <;> omega

theorem fuelV_ge (v : Value) : 2 ≤ fuelV v := by
  cases v <;> simp only [fuelV] <;> omega

theorem fuelSlots_cons_ge (v : Value) (r : List Value) : 34 ≤ fuelSlots (v :: r) := by
  have h1 := fuelV_ge v
  have h2 := fuelSlots_ge r
  simp only [fuelSlots]
  omega

theorem i32_small {n : Nat} (h : n < 2147483648) : i32 n = (n : Int) := by
  unfold i32
  have h1 : n % 4294967296 = n := Nat.mod_eq_of_lt (by omega)
  simp [h1, h]

theorem vecSlots_dvd {vm : VM} {stoff : Nat}
    (hLen : (vm.getTypeInfo stoff).elemtypes.length = (vm.getTypeInfo stoff).len)
    (hPos : 1 ≤ (vm.getTypeInfo stoff).len) :
    ∀ (n : Nat) (slots : List Value), slots.length ≤ n → VecSlots vm stoff slots →
      isStructT (vm.getTypeInfo stoff).t = true →
      (vm.getTypeInfo stoff).len ∣ slots.length := by
  intro n
  induction n with
  | zero =>
    intro slots hn h hst
    have : slots = [] := List.eq_nil_of_length_eq_zero (by omega)
    simp [this]
  | succ n ih =>
    intro slots hn h hst
    cases h with
    | nil => simp
    | consScalar hsc _ _ => rw [hst] at hsc; cases hsc
    | consChunk hsc hch hrest =>
      rename_i chunk rest
      have hcl : chunk.length = (vm.getTypeInfo stoff).len := by
        rw [elemsTy_length hch, hLen]
      have hrl : rest.length ≤ n := by
        simp only [List.length_append] at hn
        omega
      have hdr := ih rest hrl hrest hst
      simp only [List.length_append, hcl]
      exact Nat.dvd_add (Dvd.intro 1 (by omega)) hdr

/-! ## Schema-binary round trip: the member and element loops -/

theorem binSloopRT (vm : VM) (N : Nat)
    (EP : ∀ v2 off2, fuelV v2 < N → HasTy vm off2 v2 → SOK vm off2 v2 → BinElemP vm v2 off2) :
    ∀ (restEs : List Elem) (restVs : List Value),
      ElemsTy vm restEs restVs → SOKElems vm restEs restVs → fuelSlots restVs ≤ N →
      ∀ (ti : TypeInfo) (start : Nat) (d : DStack) (fuel : Nat) (pre post : List Nat) (endp : Nat),
        ti.elemtypes.length = ti.len →
        restEs.length ≤ ti.len →
        ti.elemtypes.drop (ti.len - restEs.length) = restEs →
        d.stack.length = start + (ti.len - restEs.length) →
        fuelSlots restVs < fuel + 12 →
        pre.length + (encSchemaL vm restVs).length ≤ endp →
        endp ≤ pre.length + ((encSchemaL vm restVs).length + post.length) →
        binStep fuel vm (.sloop ti start) ⟨pre ++ (encSchemaL vm restVs ++ post), pre.length, endp, d⟩ =
          .ok ⟨pre ++ (encSchemaL vm restVs ++ post), pre.length + (encSchemaL vm restVs).length,
            endp, pushVs d restVs⟩ := by
  intro restEs
  induction restEs with
  | nil =>
    intro restVs hty hsok hN ti start d fuel pre post endp hLen hle hdrop hstk hfuel h1 h2
    cases hty
    cases fuel with
    | zero => simp only [fuelSlots] at hfuel; omega
    | succ f =>
      rw [binStep_sloop]
      rw [if_pos (by simp only [List.length_nil] at hstk; omega)]
      simp [encSchemaL, pushVs]
  | cons e es ih =>
    intro restVs hty hsok hN ti start d fuel pre post endp hLen hle hdrop hstk hfuel h1 h2
    cases hty with
    | cons hv hvs =>
      rename_i v vs
      cases hsok with
      | cons hsv hsvs =>
        cases fuel with
        | zero => simp only [fuelSlots] at hfuel; omega
        | succ f =>
          simp only [fuelSlots] at hN hfuel
          simp only [List.length_cons] at hstk hle hdrop
          have hne : d.stack.length - start = ti.len - (es.length + 1) := by omega
          have hgetD : ti.elemtypes.getD (d.stack.length - start) ⟨0, 0⟩ = e := by
            apply getD_of_drop ti.elemtypes (d.stack.length - start) e es
            rw [hne]
            exact hdrop
          have hencL : encSchemaL vm (v :: vs) = encSchema vm v ++ encSchemaL vm vs := by
            simp [encSchemaL]
          rw [hencL] at h1 h2 ⊢
          simp only [List.length_append] at h1 h2
          rw [binStep_sloop]
          rw [if_neg (by omega)]
          unfold getElemOrParent
          rw [hgetD]
          rw [show pre ++ ((encSchema vm v ++ encSchemaL vm vs) ++ post) =
            pre ++ (encSchema vm v ++ (encSchemaL vm vs ++ post)) by simp]
          rw [EP v e.type (by omega) hv hsv f pre (encSchemaL vm vs ++ post) endp d (by omega)
            (by omega) (by simp only [List.length_append]; omega)]
          rw [bindE_ok]
          rw [show pre ++ (encSchema vm v ++ (encSchemaL vm vs ++ post)) =
            (pre ++ encSchema vm v) ++ (encSchemaL vm vs ++ post) by simp]
          rw [show pre.length + (encSchema vm v).length = (pre ++ encSchema vm v).length by simp]
          rw [ih vs hvs hsvs (by omega) ti start (pushV d v (isRefV v)) f
            (pre ++ encSchema vm v) post endp hLen (by omega)
            (by rw [show ti.len - es.length = (ti.len - (es.length + 1)) + 1 by omega]
                rw [← List.drop_drop, hdrop]
                rfl)
            (by simp only [pushV, List.length_append, List.length_cons, List.length_nil]; omega)
            (by omega)
            (by simp only [List.length_append]; omega)
            (by simp only [List.length_append]; omega)]
          simp only [Except.ok.injEq, BinSt.mk.injEq, pushVs, pushV, List.append_assoc,
            List.length_append, List.map_cons, List.cons_append, List.nil_append, List.map]
          refine ⟨trivial, by omega, trivial, trivial⟩

theorem binCloopRT (vm : VM) (N : Nat)
    (EP : ∀ v2 off2, fuelV v2 < N → HasTy vm off2 v2 → SOK vm off2 v2 → BinElemP vm v2 off2) :
    ∀ (restEs : List Elem) (restVs : List Value),
      ElemsTy vm restEs restVs → SOKElems vm restEs restVs → fuelSlots restVs ≤ N →
      ∀ (ti : TypeInfo) (elen : Int) (start : Nat) (d : DStack) (fuel : Nat)
        (pre post : List Nat) (endp : Nat),
        (ti.len : Int) ≤ elen →
        ti.elemtypes.length = ti.len →
        restEs.length ≤ ti.len →
        ti.elemtypes.drop (ti.len - restEs.length) = restEs →
        d.stack.length = start + (ti.len - restEs.length) →
        fuelSlots restVs < fuel + 12 →
        pre.length + (encSchemaL vm restVs).length ≤ endp →
        endp ≤ pre.length + ((encSchemaL vm restVs).length + post.length) →
        binStep fuel vm (.cloop ti elen start)
            ⟨pre ++ (encSchemaL vm restVs ++ post), pre.length, endp, d⟩ =
          .ok ⟨pre ++ (encSchemaL vm restVs ++ post), pre.length + (encSchemaL vm restVs).length,
            endp, pushVs d restVs⟩ := by
  intro restEs
  induction restEs with
  | nil =>
    intro restVs hty hsok hN ti elen start d fuel pre post endp helen hLen hle hdrop hstk
      hfuel h1 h2
    cases hty
    cases fuel with
    | zero => simp only [fuelSlots] at hfuel; omega
    | succ f =>
      rw [binStep_cloop]
      simp only []
      rw [if_pos (by simp only [List.length_nil] at hstk; omega)]
      simp [encSchemaL, pushVs]
  | cons e es ih =>
    intro restVs hty hsok hN ti elen start d fuel pre post endp helen hLen hle hdrop hstk
      hfuel h1 h2
    cases hty with
    | cons hv hvs =>
      rename_i v vs
      cases hsok with
      | cons hsv hsvs =>
        cases fuel with
        | zero => simp only [fuelSlots] at hfuel; omega
        | succ f =>
          simp only [fuelSlots] at hN hfuel
          simp only [List.length_cons] at hstk hle hdrop
          have hne : d.stack.length - start = ti.len - (es.length + 1) := by omega
          have hgetD : ti.elemtypes.getD (d.stack.length - start) ⟨0, 0⟩ = e := by
            apply getD_of_drop ti.elemtypes (d.stack.length - start) e es
            rw [hne]
            exact hdrop
          have hencL : encSchemaL vm (v :: vs) = encSchema vm v ++ encSchemaL vm vs := by
            simp [encSchemaL]
          rw [hencL] at h1 h2 ⊢
          simp only [List.length_append] at h1 h2
          rw [binStep_cloop]
          simp only []
          rw [if_neg (by omega)]
          rw [if_neg (by omega)]
          unfold getElemOrParent
          rw [hgetD]
          rw [show pre ++ ((encSchema vm v ++ encSchemaL vm vs) ++ post) =
            pre ++ (encSchema vm v ++ (encSchemaL vm vs ++ post)) by simp]
          rw [EP v e.type (by omega) hv hsv f pre (encSchemaL vm vs ++ post) endp d (by omega)
            (by omega) (by simp only [List.length_append]; omega)]
          rw [bindE_ok]
          rw [show pre ++ (encSchema vm v ++ (encSchemaL vm vs ++ post)) =
            (pre ++ encSchema vm v) ++ (encSchemaL vm vs ++ post) by simp]
          rw [show pre.length + (encSchema vm v).length = (pre ++ encSchema vm v).length by simp]
          rw [ih vs hvs hsvs (by omega) ti elen start (pushV d v (isRefV v)) f
            (pre ++ encSchema vm v) post endp helen hLen (by omega)
            (by rw [show ti.len - es.length = (ti.len - (es.length + 1)) + 1 by omega]
                rw [← List.drop_drop, hdrop]
                rfl)
            (by simp only [pushV, List.length_append, List.length_cons, List.length_nil]; omega)
            (by omega)
            (by simp only [List.length_append]; omega)
            (by simp only [List.length_append]; omega)]
          simp only [Except.ok.injEq, BinSt.mk.injEq, pushVs, pushV, List.append_assoc,
            List.length_append, List.map_cons, List.cons_append, List.nil_append, List.map]
          refine ⟨trivial, by omega, trivial, trivial⟩

theorem sokElems_length {vm : VM} : ∀ {es : List Elem} {vs : List Value},
    SOKElems vm es vs → vs.length = es.length := by
  intro es
  induction es with
  | nil => intro vs h; cases h; rfl
  | cons e es ih =>
    intro vs h
    cases h with
    | cons h1 h2 => simpa using ih h2

theorem isStructT_iff {t : VType} : isStructT t = true ↔ t = .vStructS ∨ t = .vStructR := by
  cases t <;> simp [isStructT]

theorem sokSlots_scalar_inv {vm : VM} {stoff : Nat} {v : Value} {rest : List Value}
    (hsc : isStructT (vm.getTypeInfo stoff).t = false)
    (h : SOKSlots vm stoff (v :: rest)) : SOK vm stoff v ∧ SOKSlots vm stoff rest := by
  generalize hq : v :: rest = sl at h
  cases h with
  | nil => cases hq
  | consScalar h1 h2 h3 =>
    cases hq
    exact ⟨h2, h3⟩
  | consChunk h1 h2 h3 => rw [hsc] at h1; cases h1

theorem sokSlots_chunk_inv {vm : VM} {stoff : Nat} {chunk rest : List Value}
    (hst : isStructT (vm.getTypeInfo stoff).t = true)
    (hcl : chunk.length = (vm.getTypeInfo stoff).elemtypes.length)
    (hpos : 1 ≤ chunk.length)
    (h : SOKSlots vm stoff (chunk ++ rest)) :
    SOKElems vm (vm.getTypeInfo stoff).elemtypes chunk ∧ SOKSlots vm stoff rest := by
  generalize hq : chunk ++ rest = sl at h
  cases h with
  | nil =>
    have := congrArg List.length hq
    simp only [List.length_append, List.length_nil] at this
    omega
  | consScalar h1 h2 h3 => rw [hst] at h1; cases h1
  | consChunk h1 h2 h3 =>
    rename_i chunk2 rest2
    have hcl2 : chunk2.length = chunk.length := by
      rw [sokElems_length h2, hcl]
    obtain ⟨hc, hr⟩ := List.append_inj hq.symm (by omega)
    subst hc
    subst hr
    exact ⟨h2, h3⟩

theorem logCount_nil (vm : VM) (stoff : Nat) : logCount vm stoff [] = 0 := by
  unfold logCount
  split <;> simp

theorem binVloopRT (vm : VM) (hwf : WF vm) (N : Nat)
    (EP : ∀ v2 off2, fuelV v2 < N → HasTy vm off2 v2 → SOK vm off2 v2 → BinElemP vm v2 off2) :
    ∀ (n : Nat) (slots : List Value) (stoff : Nat), slots.length ≤ n →
      VecSlots vm stoff slots → SOKSlots vm stoff slots → fuelSlots slots ≤ N →
      ∀ (fuel : Nat) (pre post : List Nat) (endp : Nat) (d : DStack),
        fuelSlots slots < fuel + 8 →
        pre.length + (encSchemaL vm slots).length ≤ endp →
        endp ≤ pre.length + ((encSchemaL vm slots).length + post.length) →
        binStep fuel vm (.vloop (logCount vm stoff slots) stoff)
            ⟨pre ++ (encSchemaL vm slots ++ post), pre.length, endp, d⟩ =
          .ok ⟨pre ++ (encSchemaL vm slots ++ post), pre.length + (encSchemaL vm slots).length,
            endp, pushVs d slots⟩ := by
  intro n
  induction n with
  | zero =>
    intro slots stoff hn hvs hsok hN fuel pre post endp d hfuel h1 h2
    have hsl : slots = [] := List.eq_nil_of_length_eq_zero (by omega)
    subst hsl
    cases fuel with
    | zero => simp only [fuelSlots] at hfuel; omega
    | succ f =>
      rw [binStep_vloop, logCount_nil]
      simp [encSchemaL, pushVs]
  | succ n ihn =>
    intro slots stoff hn hvs hsok hN fuel pre post endp d hfuel h1 h2
    cases hvs with
    | nil =>
      cases fuel with
      | zero => simp only [fuelSlots] at hfuel; omega
      | succ f =>
        rw [binStep_vloop, logCount_nil]
        simp [encSchemaL, pushVs]
    | consScalar hsc hv hrest =>
      rename_i v rest
      obtain ⟨hsv, hsrest⟩ := sokSlots_scalar_inv hsc hsok
      cases fuel with
      | zero => simp only [fuelSlots] at hfuel; omega
      | succ f =>
        simp only [fuelSlots] at hN hfuel
        have hlc : logCount vm stoff (v :: rest) = logCount vm stoff rest + 1 := by
          unfold logCount
          rw [if_neg (by simp [hsc]), if_neg (by simp [hsc])]
          simp
        have hencL : encSchemaL vm (v :: rest) = encSchema vm v ++ encSchemaL vm rest := by
          simp [encSchemaL]
        rw [hencL] at h1 h2 ⊢
        simp only [List.length_append] at h1 h2
        rw [binStep_vloop, hlc]
        simp only []
        rw [show pre ++ ((encSchema vm v ++ encSchemaL vm rest) ++ post) =
          pre ++ (encSchema vm v ++ (encSchemaL vm rest ++ post)) by simp]
        rw [EP v stoff (by omega) hv hsv f pre (encSchemaL vm rest ++ post) endp d (by omega)
          (by omega) (by simp only [List.length_append]; omega)]
        rw [bindE_ok]
        rw [show pre ++ (encSchema vm v ++ (encSchemaL vm rest ++ post)) =
          (pre ++ encSchema vm v) ++ (encSchemaL vm rest ++ post) by simp]
        rw [show pre.length + (encSchema vm v).length = (pre ++ encSchema vm v).length by simp]
        rw [ihn rest stoff (by simp only [List.length_cons] at hn; omega) hrest hsrest (by omega) f
          (pre ++ encSchema vm v) post endp (pushV d v (isRefV v)) (by omega)
          (by simp only [List.length_append]; omega)
          (by simp only [List.length_append]; omega)]
        simp only [Except.ok.injEq, BinSt.mk.injEq, pushVs, pushV, List.append_assoc,
          List.length_append, List.map_cons, List.cons_append, List.nil_append, List.map]
        refine ⟨trivial, by omega, trivial, trivial⟩
    | consChunk hst hch hrest =>
      rename_i chunk rest
      have hUDT : isUDT (vm.getTypeInfo stoff).t = true := by
        unfold isUDT
        rw [hst]
        rfl
      have hAny : (vm.getTypeInfo stoff).t ≠ .vAny := by
        rcases isStructT_iff.mp hst with h | h <;> rw [h] <;> intro hc <;> cases hc
      obtain ⟨hLen, hPos, _⟩ := hwf.aggLen stoff (inRange hAny) hUDT
      have hcl : chunk.length = (vm.getTypeInfo stoff).len := by
        rw [elemsTy_length hch, hLen]
      have hdvd : (vm.getTypeInfo stoff).len ∣ rest.length :=
        vecSlots_dvd hLen hPos rest.length rest (le_refl _) hrest hst
      obtain ⟨hsch, hsrest⟩ := sokSlots_chunk_inv hst (by omega) (by omega) hsok
      cases fuel with
      | zero => have := fuelSlots_ge (chunk ++ rest); omega
      | succ f =>
        have hfsa := fuelSlots_append chunk rest
        have hgc := fuelSlots_ge chunk
        have hgr := fuelSlots_ge rest
        have h34 : 34 ≤ fuelSlots chunk := by
          cases chunk with
          | nil => simp only [List.length_nil] at hcl; omega
          | cons cv cr => exact fuelSlots_cons_ge cv cr
        have hlc : logCount vm stoff (chunk ++ rest) = logCount vm stoff rest + 1 := by
          unfold logCount
          rw [if_pos (by simp [hst]), if_pos (by simp [hst])]
          simp only [List.length_append, hcl]
          obtain ⟨k, hk⟩ := hdvd
          rw [hk]
          rw [Nat.add_comm ((vm.getTypeInfo stoff).len) _]
          rw [Nat.add_div_right _ (by omega), Nat.mul_div_cancel_left _ (by omega)]
        have hencL : encSchemaL vm (chunk ++ rest) =
            encSchemaL vm chunk ++ encSchemaL vm rest := encSchemaL_append vm chunk rest
        rw [hencL] at h1 h2 ⊢
        simp only [List.length_append] at h1 h2
        have hchne : 1 ≤ (encSchemaL vm chunk).length := by
          cases chunk with
          | nil => simp at hcl; omega
          | cons cv cr => exact encSchemaL_cons_length_pos vm cv cr
        rw [binStep_vloop, hlc]
        simp only []
        rw [show pre ++ ((encSchemaL vm chunk ++ encSchemaL vm rest) ++ post) =
          pre ++ (encSchemaL vm chunk ++ (encSchemaL vm rest ++ post)) by simp]
        cases f with
        | zero =>
          have h4 := fuelSlots_ge (chunk ++ rest)
          omega
        | succ f2 =>
          rw [binStep_elem f2 vm stoff stoff _ _ _ _ (by
            rw [if_neg (by rcases isStructT_iff.mp hst with hq | hq <;> rw [hq] <;> simp)])]
          rw [if_neg (show ¬(endp = pre.length) by omega)]
          have hmt : (vm.getTypeInfo stoff).t = .vStructS ∨ (vm.getTypeInfo stoff).t = .vStructR :=
            isStructT_iff.mp hst
          rcases hmt with hq | hq <;>
            (rw [hq]
             cases f2 with
             | zero => omega
             | succ f3 =>
               rw [binSloopRT vm N EP (vm.getTypeInfo stoff).elemtypes chunk hch hsch (by omega)
                 (vm.getTypeInfo stoff) d.stack.length d (f3 + 1) pre
                 (encSchemaL vm rest ++ post) endp hLen (by omega)
                 (by rw [hLen]; simp) (by omega) (by omega)
                 (by omega) (by simp only [List.length_append]; omega)]
               rw [bindE_ok]
               rw [show pre ++ (encSchemaL vm chunk ++ (encSchemaL vm rest ++ post)) =
                 (pre ++ encSchemaL vm chunk) ++ (encSchemaL vm rest ++ post) by simp]
               rw [show pre.length + (encSchemaL vm chunk).length =
                 (pre ++ encSchemaL vm chunk).length by simp]
               rw [ihn rest stoff (by simp only [List.length_append] at hn; omega) hrest hsrest
                 (by omega) (f3 + 1 + 1) (pre ++ encSchemaL vm chunk) post endp (pushVs d chunk)
                 (by omega)
                 (by simp only [List.length_append]; omega)
                 (by simp only [List.length_append]; omega)]
               simp only [Except.ok.injEq, BinSt.mk.injEq, pushVs, List.append_assoc,
                 List.length_append, List.map_append]
               refine ⟨trivial, by omega, trivial, trivial⟩)

/-! ## Stack bookkeeping helper lemmas -/

theorem pushVs_stack_length (d : DStack) (vs : List Value) :
    (pushVs d vs).stack.length = d.stack.length + vs.length := by
  simp [pushVs]

theorem lastN_pushVs (d : DStack) (vs : List Value) :
    lastN (pushVs d vs) vs.length = vs := by
  unfold lastN pushVs
  simp only []
  exact drop_app_len d.stack vs

theorem popVN_pushVs (d : DStack) (vs : List Value) :
    popVN (pushVs d vs) vs.length = d := by
  unfold popVN pushVs
  simp only []
  have h1 := take_app_len d.stack vs
  have h2 : (d.is_ref ++ vs.map isRefV).take ((d.is_ref ++ vs.map isRefV).length - vs.length) =
      d.is_ref := by
    have := take_app_len d.is_ref (vs.map isRefV)
    simpa using this
  rw [h1, h2]

theorem pushVs_single (d : DStack) (v : Value) : pushVs d [v] = pushV d v (isRefV v) := by
  simp [pushVs, pushV]

/-! ## Schema-binary round trip: single elements -/

theorem binRT_int (vm : VM) (off off1 : Nat) (i : Int)
    (hoff1 : off1 = if (vm.getTypeInfo off).t = .vNil then (vm.getTypeInfo off).subt else off)
    (ht : (vm.getTypeInfo off1).t = .vInt) :
    BinElemP vm (.vInt i) off := by
  intro fuel pre post endp d hfuel h1 h2
  simp only [encSchema] at h1 h2 ⊢
  simp only [fuelV] at hfuel
  cases fuel with
  | zero => omega
  | succ f =>
    rw [binStep_elem f vm off off1 _ _ _ _ hoff1]
    rw [if_neg (by have := encVarU_length_pos (zig i); simp only [encVarS] at h1; omega)]
    rw [ht]
    rw [decVarS_enc i pre post endp h1 (by omega)]
    simp only [bindE_ok]
    rfl

theorem binRT_float (vm : VM) (off off1 : Nat) (bits : Nat)
    (hoff1 : off1 = if (vm.getTypeInfo off).t = .vNil then (vm.getTypeInfo off).subt else off)
    (ht : (vm.getTypeInfo off1).t = .vFloat) (hb : bits < 4294967296) :
    BinElemP vm (.vFloat bits) off := by
  intro fuel pre post endp d hfuel h1 h2
  simp only [encSchema] at h1 h2 ⊢
  simp only [fuelV] at hfuel
  have hlen : (enc4 bits).length = 4 := by simp [enc4]
  rw [hlen] at h1 h2
  cases fuel with
  | zero => omega
  | succ f =>
    rw [binStep_elem f vm off off1 _ _ _ _ hoff1]
    rw [if_neg (by omega)]
    rw [ht]
    rw [if_neg (by omega)]
    rw [if_neg (by simp only [List.length_append, hlen]; omega)]
    have g0 : (pre ++ (enc4 bits ++ post)).getD pre.length 0 = bits % 256 := by
      have h := getD_pre pre (enc4 bits) post 0 (by rw [hlen]; omega)
      simp only [Nat.add_zero] at h
      rw [h]
      simp [enc4]
    have g1 : (pre ++ (enc4 bits ++ post)).getD (pre.length + 1) 0 = bits / 256 % 256 := by
      rw [getD_pre pre (enc4 bits) post 1 (by rw [hlen]; omega)]
      simp [enc4]
    have g2 : (pre ++ (enc4 bits ++ post)).getD (pre.length + 2) 0 = bits / 65536 % 256 := by
      rw [getD_pre pre (enc4 bits) post 2 (by rw [hlen]; omega)]
      simp [enc4]
    have g3 : (pre ++ (enc4 bits ++ post)).getD (pre.length + 3) 0 = bits / 16777216 % 256 := by
      rw [getD_pre pre (enc4 bits) post 3 (by rw [hlen]; omega)]
      simp [enc4]
    rw [g0, g1, g2, g3]
    have hbits : bits % 256 + 256 * (bits / 256 % 256) + 65536 * (bits / 65536 % 256) +
        16777216 * (bits / 16777216 % 256) = bits := by omega
    rw [hbits, hlen]
    rfl

theorem binRT_string (vm : VM) (off off1 : Nat) (s : List Nat)
    (hoff1 : off1 = if (vm.getTypeInfo off).t = .vNil then (vm.getTypeInfo off).subt else off)
    (ht : (vm.getTypeInfo off1).t = .vString)
    (hcond : (vm.getTypeInfo off).t = .vNil → s ≠ []) :
    BinElemP vm (.vString s) off := by
  intro fuel pre post endp d hfuel h1 h2
  simp only [encSchema, List.length_append] at h1 h2 ⊢
  simp only [fuelV] at hfuel
  cases fuel with
  | zero => omega
  | succ f =>
    rw [binStep_elem f vm off off1 _ _ _ _ hoff1]
    rw [if_neg (by have := encVarU_length_pos s.length; omega)]
    rw [ht]
    rw [show pre ++ ((encVarU s.length ++ s) ++ post) =
      pre ++ (encVarU s.length ++ (s ++ post)) by simp]
    rw [decVarU_enc s.length pre (s ++ post) endp (by omega)
      (by simp only [List.length_append]; omega)]
    simp only [bindE_ok]
    rw [if_neg (by
      intro hc
      exact (hcond hc.2) (List.eq_nil_of_length_eq_zero hc.1))]
    rw [if_neg (by simp only [List.length_append]; omega)]
    have hdp : (pre ++ (encVarU s.length ++ (s ++ post))).drop
        (pre.length + (encVarU s.length).length) = s ++ post := by
      rw [show pre ++ (encVarU s.length ++ (s ++ post)) =
        (pre ++ encVarU s.length) ++ (s ++ post) by simp]
      rw [show pre.length + (encVarU s.length).length = (pre ++ encVarU s.length).length by simp]
      exact List.drop_left _ _
    rw [hdp, List.take_left]
    simp only [Except.ok.injEq, BinSt.mk.injEq]
    refine ⟨trivial, by omega, trivial, rfl⟩

theorem binRT_nil (vm : VM) (hwf : WF vm) (off : Nat)
    (ht : (vm.getTypeInfo off).t = .vNil) :
    BinElemP vm .nilVal off := by
  intro fuel pre post endp d hfuel h1 h2
  simp only [encSchema, List.length_cons, List.length_nil] at h1 h2 ⊢
  simp only [fuelV] at hfuel
  cases fuel with
  | zero => omega
  | succ f =>
    rw [binStep_elem f vm off (vm.getTypeInfo off).subt _ _ _ _ (by rw [if_pos ht])]
    rw [if_neg (by omega)]
    rw [show ([0] : List Nat) = encVarU 0 from rfl]
    have hlen0 : (encVarU 0).length = 1 := rfl
    have hdec := decVarU_enc 0 pre post endp (by omega) (by omega)
    rcases hwf.nilSub off (inRange (by rw [ht]; intro hc; cases hc)) ht with hq | hq | hq
    · rw [hq, hdec]
      simp only [bindE_ok]
      rw [if_pos ⟨trivial, ht⟩]
      rfl
    · rw [hq, hdec]
      simp only [bindE_ok]
      rw [if_pos ⟨trivial, ht⟩]
      rfl
    · rw [hq, hdec]
      simp only [bindE_ok]
      rw [if_pos ⟨by decide, ht⟩]
      rfl

theorem logCount_pos (vm : VM) (hwf : WF vm) (stoff : Nat) (slots : List Value)
    (h : VecSlots vm stoff slots) (hne : slots ≠ []) : 1 ≤ logCount vm stoff slots := by
  cases h with
  | nil => exact absurd rfl hne
  | consScalar hsc _ _ =>
    unfold logCount
    rw [if_neg (by simp [hsc])]
    simp
  | consChunk hst hch hrest =>
    rename_i chunk rest
    have hUDT : isUDT (vm.getTypeInfo stoff).t = true := by
      unfold isUDT
      rw [hst]
      rfl
    have hAny : (vm.getTypeInfo stoff).t ≠ .vAny := by
      rcases isStructT_iff.mp hst with h | h <;> rw [h] <;> intro hc <;> cases hc
    obtain ⟨hLen, hPos, _⟩ := hwf.aggLen stoff (inRange hAny) hUDT
    have hcl : chunk.length = (vm.getTypeInfo stoff).len := by
      rw [elemsTy_length hch, hLen]
    unfold logCount
    rw [if_pos (by simp [hst])]
    rw [Nat.one_le_div_iff (by omega)]
    simp only [List.length_append]
    omega

theorem binRT_vec (vm : VM) (hwf : WF vm) (N : Nat)
    (EP : ∀ v2 off2, fuelV v2 < N → HasTy vm off2 v2 → SOK vm off2 v2 → BinElemP vm v2 off2)
    (off off1 : Nat) (slots : List Value)
    (hoff1 : off1 = if (vm.getTypeInfo off).t = .vNil then (vm.getTypeInfo off).subt else off)
    (ht : (vm.getTypeInfo off1).t = .vVector)
    (hslots : VecSlots vm (vm.getTypeInfo off1).subt slots)
    (hsok : SOKSlots vm (vm.getTypeInfo off1).subt slots)
    (hcond : (vm.getTypeInfo off).t = .vNil → slots ≠ [])
    (hN : fuelSlots slots ≤ N) :
    BinElemP vm (.vVec off1 slots) off := by
  intro fuel pre post endp d hfuel h1 h2
  simp only [encSchema, List.length_append] at h1 h2 ⊢
  simp only [fuelV] at hfuel
  have hcnt : slots.length / vecWidth vm off1 = logCount vm (vm.getTypeInfo off1).subt slots := by
    unfold vecWidth logCount
    by_cases hc : isStructT (vm.getTypeInfo (vm.getTypeInfo off1).subt).t = true
    · simp [hc]
    · simp only [Bool.not_eq_true] at hc
      simp [hc, Nat.div_one]
  cases fuel with
  | zero => omega
  | succ f =>
    rw [binStep_elem f vm off off1 _ _ _ _ hoff1]
    rw [if_neg (by
      have := encVarU_length_pos (slots.length / vecWidth vm off1)
      omega)]
    rw [ht]
    rw [show pre ++ ((encVarU (slots.length / vecWidth vm off1) ++ encSchemaL vm slots) ++ post) =
      pre ++ (encVarU (slots.length / vecWidth vm off1) ++ (encSchemaL vm slots ++ post)) by simp]
    rw [decVarU_enc (slots.length / vecWidth vm off1) pre (encSchemaL vm slots ++ post) endp
      (by omega) (by simp only [List.length_append]; omega)]
    simp only [bindE_ok]
    rw [if_neg (by
      intro hc
      have hne := hcond hc.2
      have hlp := logCount_pos vm hwf _ slots hslots hne
      rw [hcnt] at hc
      omega)]
    rw [show pre ++ (encVarU (slots.length / vecWidth vm off1) ++ (encSchemaL vm slots ++ post)) =
      (pre ++ encVarU (slots.length / vecWidth vm off1)) ++ (encSchemaL vm slots ++ post) by simp]
    rw [show pre.length + (encVarU (slots.length / vecWidth vm off1)).length =
      (pre ++ encVarU (slots.length / vecWidth vm off1)).length by simp]
    rw [hcnt]
    rw [hcnt] at h1 h2
    rw [binVloopRT vm hwf N EP slots.length slots (vm.getTypeInfo off1).subt (le_refl _)
      hslots hsok hN f (pre ++ encVarU (logCount vm (vm.getTypeInfo off1).subt slots)) post endp d
      (by omega)
      (by simp only [List.length_append]; omega)
      (by simp only [List.length_append]; omega)]
    simp only [bindE_ok]
    have hl2 : (pushVs d slots).stack.length - d.stack.length = slots.length := by
      rw [pushVs_stack_length]
      omega
    rw [hl2, lastN_pushVs, popVN_pushVs]
    simp only [Except.ok.injEq, BinSt.mk.injEq]
    refine ⟨by simp, by simp only [List.length_append]; omega, trivial, rfl⟩

theorem binRT_obj (vm : VM) (hwf : WF vm) (N : Nat)
    (EP : ∀ v2 off2, fuelV v2 < N → HasTy vm off2 v2 → SOK vm off2 v2 → BinElemP vm v2 off2)
    (off off1 : Nat) (elems : List Value)
    (hoff1 : off1 = if (vm.getTypeInfo off).t = .vNil then (vm.getTypeInfo off).subt else off)
    (ht : (vm.getTypeInfo off1).t = .vClass)
    (helems : ElemsTy vm (vm.getTypeInfo off1).elemtypes elems)
    (hsok : SOKElems vm (vm.getTypeInfo off1).elemtypes elems)
    (hN : fuelSlots elems ≤ N) :
    BinElemP vm (.vObj off1 elems) off := by
  intro fuel pre post endp d hfuel h1 h2
  have hAny : (vm.getTypeInfo off1).t ≠ .vAny := by rw [ht]; intro hc; cases hc
  have hUDT : isUDT (vm.getTypeInfo off1).t = true := by
    unfold isUDT isStructT
    rw [ht]
    rfl
  obtain ⟨hLen, hPos, hLt⟩ := hwf.aggLen off1 (inRange hAny) hUDT
  obtain ⟨hsid, hres⟩ := hwf.ser off1 (inRange hAny) ht
  have hel : elems.length = (vm.getTypeInfo off1).len := by
    rw [elemsTy_length helems, hLen]
  simp only [encSchema, List.length_append] at h1 h2 ⊢
  simp only [fuelV] at hfuel
  cases fuel with
  | zero => omega
  | succ f =>
    rw [binStep_elem f vm off off1 _ _ _ _ hoff1]
    rw [if_neg (by
      have := encVarU_length_pos (vm.getTypeInfo off1).len
      omega)]
    rw [ht]
    rw [show pre ++ (((encVarU (vm.getTypeInfo off1).len ++ encVarU (vm.serId off1)) ++
        encSchemaL vm elems) ++ post) =
      pre ++ (encVarU (vm.getTypeInfo off1).len ++
        (encVarU (vm.serId off1) ++ (encSchemaL vm elems ++ post))) from by simp]
    rw [decVarU_enc (vm.getTypeInfo off1).len pre
      (encVarU (vm.serId off1) ++ (encSchemaL vm elems ++ post)) endp
      (by omega) (by simp only [List.length_append]; omega)]
    simp only [bindE_ok]
    rw [i32_small hLt]
    rw [if_neg (by
      intro hc
      have := hc.1
      omega)]
    rw [show pre ++ (encVarU (vm.getTypeInfo off1).len ++
        (encVarU (vm.serId off1) ++ (encSchemaL vm elems ++ post))) =
      (pre ++ encVarU (vm.getTypeInfo off1).len) ++
        (encVarU (vm.serId off1) ++ (encSchemaL vm elems ++ post)) by simp]
    rw [show pre.length + (encVarU (vm.getTypeInfo off1).len).length =
      (pre ++ encVarU (vm.getTypeInfo off1).len).length by simp]
    rw [decVarU_enc (vm.serId off1) (pre ++ encVarU (vm.getTypeInfo off1).len)
      (encSchemaL vm elems ++ post) endp
      (by simp only [List.length_append]; omega)
      (by simp only [List.length_append]; omega)]
    simp only [bindE_ok]
    rw [Nat.mod_eq_of_lt hsid, hres]
    rw [if_neg (by omega)]
    rw [show ((off1 : Int)).toNat = off1 from by simp]
    rw [show (pre ++ encVarU (vm.getTypeInfo off1).len) ++
        (encVarU (vm.serId off1) ++ (encSchemaL vm elems ++ post)) =
      ((pre ++ encVarU (vm.getTypeInfo off1).len) ++ encVarU (vm.serId off1)) ++
        (encSchemaL vm elems ++ post) by simp]
    rw [show (pre ++ encVarU (vm.getTypeInfo off1).len).length +
        (encVarU (vm.serId off1)).length =
      ((pre ++ encVarU (vm.getTypeInfo off1).len) ++ encVarU (vm.serId off1)).length by
        simp only [List.length_append]]
    rw [binCloopRT vm N EP (vm.getTypeInfo off1).elemtypes elems helems hsok (by omega)
      (vm.getTypeInfo off1) (((vm.getTypeInfo off1).len : Nat) : Int) d.stack.length d f
      ((pre ++ encVarU (vm.getTypeInfo off1).len) ++ encVarU (vm.serId off1)) post endp
      (le_refl _) hLen (by omega) (by rw [hLen]; simp) (by omega) (by omega)
      (by simp only [List.length_append]; omega)
      (by simp only [List.length_append]; omega)]
    simp only [bindE_ok]
    have hl2 : (pushVs d elems).stack.length - d.stack.length = elems.length := by
      rw [pushVs_stack_length]
      omega
    rw [hl2]
    rw [if_neg (by rw [hel]; omega)]
    rw [lastN_pushVs, popVN_pushVs]
    simp only [Except.ok.injEq, BinSt.mk.injEq]
    refine ⟨by simp, by simp only [List.length_append]; omega, trivial, rfl⟩
/-- Schema-binary round trip for a single element: parsing the bytes the
schema encoder produced for a well-typed value (satisfying the no-empty-
at-nilable side condition) at the matching descriptor succeeds, consumes
exactly the encoding, and pushes exactly that value. -/
theorem binElemRT (vm : VM) (hwf : WF vm) :
    ∀ (N : Nat) (v : Value) (off : Nat), fuelV v ≤ N →
      HasTy vm off v → SOK vm off v → BinElemP vm v off := by
  intro N
  induction N using Nat.strong_induction_on with
  | _ N IH =>
    intro v off hN hty hsok
    have EP : ∀ v2 off2, fuelV v2 < N → HasTy vm off2 v2 → SOK vm off2 v2 →
        BinElemP vm v2 off2 := fun v2 off2 h2 ht2 hs2 =>
      IH (fuelV v2) h2 v2 off2 (le_refl _) ht2 hs2
    cases hty with
    | int ht =>
      exact binRT_int vm off off _ (by rw [if_neg (by rw [ht]; intro hc; cases hc)]) ht
    | float ht hb =>
      exact binRT_float vm off off _ (by rw [if_neg (by rw [ht]; intro hc; cases hc)]) ht hb
    | str ht hbs =>
      cases hsok with
      | str hc =>
        exact binRT_string vm off off _
          (by rw [if_neg (by rw [ht]; intro hc2; cases hc2)]) ht hc
    | nilv ht =>
      exact binRT_nil vm hwf off ht
    | vec ht hslots =>
      cases hsok with
      | vec hc hs =>
        simp only [fuelV] at hN
        exact binRT_vec vm hwf N EP off off _
          (by rw [if_neg (by rw [ht]; intro hc2; cases hc2)]) ht hslots hs hc (by omega)
    | obj ht helems =>
      cases hsok with
      | obj hs =>
        simp only [fuelV] at hN
        exact binRT_obj vm hwf N EP off off _
          (by rw [if_neg (by rw [ht]; intro hc2; cases hc2)]) ht helems hs (by omega)
    | nilSome ht inner =>
      have hsubt := hwf.nilSub off (inRange (by rw [ht]; intro hc; cases hc)) ht
      cases inner with
      | int ht2 => rcases hsubt with h | h | h <;> rw [ht2] at h <;> cases h
      | float ht2 hb => rcases hsubt with h | h | h <;> rw [ht2] at h <;> cases h
      | nilv ht2 => rcases hsubt with h | h | h <;> rw [ht2] at h <;> cases h
      | nilSome ht2 inner2 => rcases hsubt with h | h | h <;> rw [ht2] at h <;> cases h
      | str ht2 hbs =>
        cases hsok with
        | str hc =>
          exact binRT_string vm off (vm.getTypeInfo off).subt _ (by rw [if_pos ht]) ht2 hc
      | vec ht2 hslots =>
        cases hsok with
        | vec hc hs =>
          simp only [fuelV] at hN
          exact binRT_vec vm hwf N EP off (vm.getTypeInfo off).subt _
            (by rw [if_pos ht]) ht2 hslots hs hc (by omega)
      | obj ht2 helems =>
        cases hsok with
        | obj hs =>
          simp only [fuelV] at hN
          exact binRT_obj vm hwf N EP off (vm.getTypeInfo off).subt _
            (by rw [if_pos ht]) ht2 helems hs (by omega)

/-- Entry-point schema-binary round trip: `ParseLobsterBinaryData` on
the encoder output returns that value with no error. -/
theorem binDataRT (vm : VM) (hwf : WF vm) (v : Value) (off : Nat) (fuel : Nat)
    (hty : HasTy vm off v) (hsok : SOK vm off v) (hfuel : fuelV v < fuel) :
    parseLobsterBinaryData fuel vm off (encSchema vm v) (encSchema vm v).length =
      (v, none) := by
  have hP := binElemRT vm hwf (fuelV v) v off (le_refl _) hty hsok
  have hstep := hP fuel [] [] (encSchema vm v).length ⟨[], []⟩ hfuel (by simp) (by simp)
  simp only [List.nil_append, List.append_nil, List.length_nil, Nat.zero_add] at hstep
  simp only [parseLobsterBinaryData, parseLobsterBinary, hstep]
  simp [popV, pushV]
/-! ## Textual parser unfolding lemmas -/

theorem ifAndTrue {c b : Prop} [Decidable c] [Decidable b] (hb : b) {α : Type}
    (x y : α) : (if c ∧ b then x else y) = if c then x else y := by
  by_cases h : c
  · rw [if_pos ⟨h, hb⟩, if_pos h]
  · rw [if_neg (fun hc => h hc.1), if_neg h]

theorem ifAndFalse {c b : Prop} [Decidable c] [Decidable b] (hb : ¬b) {α : Type}
    (x y : α) : (if c ∧ b then x else y) = y :=
  if_neg (fun hc => hb hc.2)

theorem textStep_fInt (fuel : Nat) (vm : VM) (off off1 : Nat) (push : Bool) (i : Int)
    (rest : List Token) (d : DStack)
    (hoff1 : off1 = if (vm.getTypeInfo off).t = .vNil ∧ (Token.tInt i : Token) ≠ .tNil then
      (vm.getTypeInfo off).subt else off) :
    textStep (fuel + 1) vm (.factor off push) ⟨.tInt i :: rest, d⟩ =
      bindE (expectType .vInt (vm.getTypeInfo off1).t) fun _ =>
        .ok (if push then (⟨rest, pushV d (.vInt i) false⟩ : TextSt) else ⟨rest, d⟩) := by
  subst hoff1; rfl

theorem textStep_fFloat (fuel : Nat) (vm : VM) (off off1 : Nat) (push : Bool) (b : Nat)
    (rest : List Token) (d : DStack)
    (hoff1 : off1 = if (vm.getTypeInfo off).t = .vNil ∧ (Token.tFloat b : Token) ≠ .tNil then
      (vm.getTypeInfo off).subt else off) :
    textStep (fuel + 1) vm (.factor off push) ⟨.tFloat b :: rest, d⟩ =
      bindE (expectType .vFloat (vm.getTypeInfo off1).t) fun _ =>
        .ok (if push then (⟨rest, pushV d (.vFloat b) false⟩ : TextSt) else ⟨rest, d⟩) := by
  subst hoff1; rfl

theorem textStep_fStr (fuel : Nat) (vm : VM) (off off1 : Nat) (push : Bool) (s : List Nat)
    (rest : List Token) (d : DStack)
    (hoff1 : off1 = if (vm.getTypeInfo off).t = .vNil ∧ (Token.tStr s : Token) ≠ .tNil then
      (vm.getTypeInfo off).subt else off) :
    textStep (fuel + 1) vm (.factor off push) ⟨.tStr s :: rest, d⟩ =
      bindE (expectType .vString (vm.getTypeInfo off1).t) fun _ =>
        .ok (if push then (⟨rest, pushV d (.vString s) true⟩ : TextSt) else ⟨rest, d⟩) := by
  subst hoff1; rfl

theorem textStep_fNil (fuel : Nat) (vm : VM) (off off1 : Nat) (push : Bool)
    (rest : List Token) (d : DStack)
    (hoff1 : off1 = if (vm.getTypeInfo off).t = .vNil ∧ (Token.tNil : Token) ≠ .tNil then
      (vm.getTypeInfo off).subt else off) :
    textStep (fuel + 1) vm (.factor off push) ⟨.tNil :: rest, d⟩ =
      bindE (expectType .vNil (vm.getTypeInfo off1).t) fun _ =>
        .ok (if push then (⟨rest, pushV d .nilVal false⟩ : TextSt) else ⟨rest, d⟩) := by
  subst hoff1; rfl

theorem textStep_fLB (fuel : Nat) (vm : VM) (off off1 : Nat) (push : Bool)
    (rest : List Token) (d : DStack)
    (hoff1 : off1 = if (vm.getTypeInfo off).t = .vNil ∧ (Token.tLB : Token) ≠ .tNil then
      (vm.getTypeInfo off).subt else off) :
    textStep (fuel + 1) vm (.factor off push) ⟨.tLB :: rest, d⟩ =
      bindE (expectType .vVector (vm.getTypeInfo off1).t) fun _ =>
        textStep fuel vm (.elems .tRB off1 (-1) push) ⟨rest, d⟩ := by
  subst hoff1; rfl

theorem textStep_fIdent (fuel : Nat) (vm : VM) (off off1 : Nat) (push : Bool)
    (sname : List Nat) (rest : List Token) (d : DStack)
    (hoff1 : off1 = if (vm.getTypeInfo off).t = .vNil ∧ (Token.tIdent sname : Token) ≠ .tNil then
      (vm.getTypeInfo off).subt else off) :
    textStep (fuel + 1) vm (.factor off push) ⟨.tIdent sname :: rest, d⟩ =
      (if (vm.getTypeInfo off1).t = .vInt ∧ 0 ≤ (vm.getTypeInfo off1).enumidx then
        match vm.lookupEnum sname (vm.getTypeInfo off1).enumidx with
        | none => .error .unknownEnum
        | some x =>
          .ok (if push then (⟨rest, pushV d (.vInt x) false⟩ : TextSt) else ⟨rest, d⟩)
      else if isUDT (vm.getTypeInfo off1).t = false ∧ (vm.getTypeInfo off1).t ≠ .vAny then
        .error (.classRequired (vm.getTypeInfo off1).t)
      else
        bindE (expectTok .tLC ⟨rest, d⟩) fun st2 =>
          if structName vm (vm.getTypeInfo off1) ≠ sname then
            match lookupSubClass vm sname (vm.getTypeInfo off1) with
            | none => .error .unresolvedSubclass
            | some p => textStep fuel vm (.elems .tRC p.2 ((p.1).len : Int) push) st2
          else
            textStep fuel vm (.elems .tRC off1 ((vm.getTypeInfo off1).len : Int) push) st2) := by
  subst hoff1; rfl

theorem textStep_elems (fuel : Nat) (vm : VM) (endTok : Token) (off : Nat) (numelems : Int)
    (push : Bool) (toks : List Token) (d : DStack) :
    textStep (fuel + 1) vm (.elems endTok off numelems push) ⟨toks, d⟩ =
      bindE
        (if curTok (gobble .tLF ⟨toks, d⟩) = endTok then .ok (advance (gobble .tLF ⟨toks, d⟩))
         else textStep fuel vm
           (.eloop endTok off numelems push (gobble .tLF ⟨toks, d⟩).ds.stack.length)
           (gobble .tLF ⟨toks, d⟩)) fun st2 =>
        if push = false then .ok st2
        else
          bindE
            (if 0 ≤ numelems then
              textStep fuel vm
                (.fill off numelems (gobble .tLF ⟨toks, d⟩).ds.stack.length) st2
             else .ok st2) fun st3 =>
            if (vm.getTypeInfo off).t = .vClass then
              .ok (⟨st3.toks,
                pushV (popVN st3.ds
                    (st3.ds.stack.length - (gobble .tLF ⟨toks, d⟩).ds.stack.length))
                  (.vObj off (lastN st3.ds
                    (st3.ds.stack.length - (gobble .tLF ⟨toks, d⟩).ds.stack.length)))
                  true⟩ : TextSt)
            else if (vm.getTypeInfo off).t = .vVector then
              .ok (⟨st3.toks,
                pushV (popVN st3.ds
                    (st3.ds.stack.length - (gobble .tLF ⟨toks, d⟩).ds.stack.length))
                  (.vVec off (lastN st3.ds
                    (st3.ds.stack.length - (gobble .tLF ⟨toks, d⟩).ds.stack.length)))
                  true⟩ : TextSt)
            else .ok st3 := by
  rfl

theorem textStep_eloop (fuel : Nat) (vm : VM) (endTok : Token) (off : Nat) (numelems : Int)
    (push : Bool) (start : Nat) (toks : List Token) (d : DStack) :
    textStep (fuel + 1) vm (.eloop endTok off numelems push start) ⟨toks, d⟩ =
      bindE
        (if ((d.stack.length - start : Nat) : Int) = numelems then
          textStep fuel vm (.factor TYPE_ELEM_ANY false) ⟨toks, d⟩
         else
          textStep fuel vm
            (.factor (if (vm.getTypeInfo off).t = .vVector then (vm.getTypeInfo off).subt
              else getElemOrParent (vm.getTypeInfo off) (d.stack.length - start)) push)
            ⟨toks, d⟩) fun st2 =>
        if curTok (if curTok st2 = .tLF then advance st2 else st2) = endTok then
          .ok (advance (if curTok st2 = .tLF then advance st2 else st2))
        else if curTok st2 = .tLF then
          textStep fuel vm (.eloop endTok off numelems push start)
            (if curTok st2 = .tLF then advance st2 else st2)
        else
          bindE (expectTok .tComma (if curTok st2 = .tLF then advance st2 else st2)) fun st4 =>
            textStep fuel vm (.eloop endTok off numelems push start) st4 := by
  rfl

theorem textStep_fill (fuel : Nat) (vm : VM) (off : Nat) (numelems : Int) (start : Nat)
    (toks : List Token) (d : DStack) :
    textStep (fuel + 1) vm (.fill off numelems start) ⟨toks, d⟩ =
      (if ((d.stack.length - start : Nat) : Int) < numelems then
        if (pushDefault fuel vm
            ((vm.getTypeInfo off).elemtypes.getD (d.stack.length - start) ⟨0, 0⟩).type
            ((vm.getTypeInfo off).elemtypes.getD (d.stack.length - start) ⟨0, 0⟩).defval d).1 then
          textStep fuel vm (.fill off numelems start)
            ⟨toks, (pushDefault fuel vm
              ((vm.getTypeInfo off).elemtypes.getD (d.stack.length - start) ⟨0, 0⟩).type
              ((vm.getTypeInfo off).elemtypes.getD (d.stack.length - start) ⟨0, 0⟩).defval d).2⟩
        else .error .noDefault
      else .ok ⟨toks, d⟩) := by
  rfl
/-- The printer output of a single value is nonempty and starts with a
token that opens an expression. -/
theorem printOne_cons (vm : VM) (pf : Nat) (v : Value) :
    ∃ t ts, printStep (pf + 1) vm (.one v) = t :: ts ∧
      t ≠ .tLF ∧ t ≠ .tComma ∧ t ≠ .tRC ∧ t ≠ .tRB ∧ t ≠ .tEOF := by
  cases v <;> refine ⟨_, _, rfl, ?_, ?_, ?_, ?_, ?_⟩ <;> intro h <;> cases h

theorem gobble_noLF {st : TextSt} (h : curTok st ≠ .tLF) : gobble .tLF st = st :=
  if_neg h

theorem expectTok_ok {t : Token} {st : TextSt} (h : curTok st = t) :
    expectTok t st = .ok (advance st) :=
  if_pos h

theorem popVN_zero (d : DStack) : popVN d 0 = d := by
  simp [popVN]

theorem lastN_zero (d : DStack) : lastN d 0 = [] := by
  simp [lastN]

theorem fill_noop (fuel : Nat) (vm : VM) (off : Nat) (numelems : Int) (start : Nat)
    (toks : List Token) (d : DStack)
    (h : ¬(((d.stack.length - start : Nat) : Int) < numelems)) :
    textStep (fuel + 1) vm (.fill off numelems start) ⟨toks, d⟩ = .ok ⟨toks, d⟩ := by
  rw [textStep_fill, if_neg h]

theorem pushVs_cons (d : DStack) (v : Value) (vs : List Value) :
    pushVs d (v :: vs) = pushVs (pushV d v (isRefV v)) vs := by
  simp [pushVs, pushV]

/-- Element loop of `ParseElems` over the members of a class or struct
literal: parsing the printed comma-separated member list followed by the
closing brace pushes the members in order and consumes through the
brace. -/
theorem textOloopRT (vm : VM) (N : Nat)
    (EP : ∀ v2 off2, fuelV v2 < N → HasTy vm off2 v2 → TextP vm v2 off2) :
    ∀ (restEs : List Elem) (restVs : List Value),
      ElemsTy vm restEs restVs → restEs ≠ [] → fuelSlots restVs ≤ N →
      ∀ (off tlen start : Nat) (d : DStack) (fuel pf : Nat) (rest : List Token),
        (vm.getTypeInfo off).t ≠ .vVector →
        restEs.length ≤ tlen →
        (vm.getTypeInfo off).elemtypes.drop (tlen - restEs.length) = restEs →
        d.stack.length = start + (tlen - restEs.length) →
        fuelSlots restVs < fuel + 12 →
        fuelSlots restVs < pf + 12 →
        textStep fuel vm (.eloop .tRC off (tlen : Int) true start)
            ⟨printStep pf vm (.commaList restVs) ++ .tRC :: rest, d⟩ =
          .ok ⟨rest, pushVs d restVs⟩ := by
  intro restEs
  induction restEs with
  | nil => intro restVs hty hne; exact absurd rfl hne
  | cons e es ih =>
    intro restVs hty hne hN off tlen start d fuel pf rest hvec hle hdrop hstk hfuel hpf
    cases hty with
    | cons hv hrest =>
      rename_i v vs
      cases fuel with
      | zero => have := fuelSlots_cons_ge v vs; omega
      | succ f =>
        cases pf with
        | zero => have := fuelSlots_cons_ge v vs; omega
        | succ p =>
          simp only [fuelSlots] at hN hfuel hpf
          simp only [List.length_cons] at hle hdrop hstk
          have hvp := fuelV_ge v
          have hsg := fuelSlots_ge vs
          have hne2 : d.stack.length - start = tlen - (es.length + 1) := by omega
          have hgetD : (vm.getTypeInfo off).elemtypes.getD (d.stack.length - start) ⟨0, 0⟩
              = e := by
            apply getD_of_drop (vm.getTypeInfo off).elemtypes (d.stack.length - start) e es
            rw [hne2]; exact hdrop
          cases vs with
          | nil =>
            cases hrest
            rw [show printStep (p + 1) vm (.commaList [v]) = printStep p vm (.one v) from rfl]
            rw [textStep_eloop]
            rw [if_neg (by omega)]
            rw [if_neg hvec]
            unfold getElemOrParent
            rw [hgetD]
            rw [EP v e.type (by omega) hv p f (.tRC :: rest) d (by omega) (by omega)]
            rw [bindE_ok]
            rw [pushVs_single]
            rfl
          | cons w ws =>
            have hesne : es ≠ [] := by
              intro hc; subst hc; cases hrest
            have hws := fuelSlots_cons_ge w ws
            rw [show printStep (p + 1) vm (.commaList (v :: w :: ws)) =
              printStep p vm (.one v) ++ .tComma :: printStep p vm (.commaList (w :: ws))
              from rfl]
            rw [textStep_eloop]
            rw [if_neg (by omega)]
            rw [if_neg hvec]
            unfold getElemOrParent
            rw [hgetD]
            rw [show (printStep p vm (.one v) ++
                .tComma :: printStep p vm (.commaList (w :: ws))) ++ .tRC :: rest =
              printStep p vm (.one v) ++
                (.tComma :: (printStep p vm (.commaList (w :: ws)) ++ .tRC :: rest)) by simp]
            rw [EP v e.type (by omega) hv p f
              (.tComma :: (printStep p vm (.commaList (w :: ws)) ++ .tRC :: rest)) d
              (by omega) (by omega)]
            rw [bindE_ok]
            show textStep f vm (.eloop .tRC off (tlen : Int) true start)
                ⟨printStep p vm (.commaList (w :: ws)) ++ .tRC :: rest,
                  pushV d v (isRefV v)⟩ =
              .ok ⟨rest, pushVs d (v :: w :: ws)⟩
            rw [ih (w :: ws) hrest hesne (by omega) off tlen start (pushV d v (isRefV v))
              f p rest hvec (by omega)
              (by rw [show tlen - es.length = (tlen - (es.length + 1)) + 1 by omega]
                  rw [← List.drop_drop, hdrop]
                  rfl)
              (by simp only [pushV, List.length_append, List.length_cons, List.length_nil]
                  omega)
              (by omega) (by omega)]
            simp only [pushVs_cons]
theorem printComma_nil (vm : VM) (pf : Nat) : printStep pf vm (.commaList []) = [] := by
  cases pf <;> rfl

theorem printChunks_nil (vm : VM) (pf : Nat) (stoff : Nat) :
    printStep (pf + 1) vm (.chunks stoff []) = [] := by
  show (if isStructT (vm.getTypeInfo stoff).t then ([] : List Token)
    else printStep pf vm (.commaList [])) = []
  rw [printComma_nil]
  split <;> rfl

theorem printStep_chunks_cons (pf : Nat) (vm : VM) (stoff : Nat) (v : Value)
    (sl : List Value) :
    printStep (pf + 1) vm (.chunks stoff (v :: sl)) =
      (if isStructT (vm.getTypeInfo stoff).t then
        (if (((v :: sl).drop (vm.getTypeInfo stoff).len).isEmpty : Bool) then
          Token.tIdent (structName vm (vm.getTypeInfo stoff)) :: .tLC ::
            (printStep pf vm (.commaList ((v :: sl).take (vm.getTypeInfo stoff).len)) ++ [.tRC])
        else
          (Token.tIdent (structName vm (vm.getTypeInfo stoff)) :: .tLC ::
            (printStep pf vm (.commaList ((v :: sl).take (vm.getTypeInfo stoff).len)) ++
              [.tRC])) ++
            .tComma :: printStep pf vm (.chunks stoff ((v :: sl).drop (vm.getTypeInfo stoff).len)))
      else printStep pf vm (.commaList (v :: sl))) := by
  rfl

theorem printComma_cons (vm : VM) (p : Nat) (v : Value) (vs : List Value) :
    ∃ t ts, printStep (p + 1 + 1) vm (.commaList (v :: vs)) = t :: ts ∧
      t ≠ .tLF ∧ t ≠ .tComma ∧ t ≠ .tRC ∧ t ≠ .tRB ∧ t ≠ .tEOF := by
  obtain ⟨t, ts, hpt, h⟩ := printOne_cons vm p v
  cases vs with
  | nil =>
    exact ⟨t, ts,
      by rw [show printStep (p + 1 + 1) vm (.commaList [v]) = printStep (p + 1) vm (.one v)
          from rfl, hpt], h⟩
  | cons w ws =>
    exact ⟨t, ts ++ .tComma :: printStep (p + 1) vm (.commaList (w :: ws)),
      by rw [show printStep (p + 1 + 1) vm (.commaList (v :: w :: ws)) =
          printStep (p + 1) vm (.one v) ++
            .tComma :: printStep (p + 1) vm (.commaList (w :: ws)) from rfl, hpt]
         rfl, h⟩

theorem printChunks_head (vm : VM) (p : Nat) (stoff : Nat) (v : Value) (sl : List Value) :
    ∃ t ts, printStep (p + 1 + 1 + 1) vm (.chunks stoff (v :: sl)) = t :: ts ∧
      t ≠ .tLF ∧ t ≠ .tComma ∧ t ≠ .tRC ∧ t ≠ .tRB ∧ t ≠ .tEOF := by
  rw [printStep_chunks_cons]
  by_cases hs : isStructT (vm.getTypeInfo stoff).t = true
  · rw [if_pos hs]
    by_cases he : (((v :: sl).drop (vm.getTypeInfo stoff).len).isEmpty : Bool) = true
    · rw [if_pos he]
      refine ⟨_, _, rfl, ?_, ?_, ?_, ?_, ?_⟩ <;> intro h <;> cases h
    · rw [if_neg he]
      refine ⟨_, _, by simp only [List.cons_append]; rfl, ?_, ?_, ?_, ?_, ?_⟩ <;>
        intro h <;> cases h
  · rw [if_neg hs]
    exact printComma_cons vm p v sl

theorem textStep_elemsNL (fuel : Nat) (vm : VM) (endTok : Token) (off : Nat)
    (numelems : Int) (push : Bool) (toks : List Token) (d : DStack)
    (h : toks.headD .tEOF ≠ .tLF) :
    textStep (fuel + 1) vm (.elems endTok off numelems push) ⟨toks, d⟩ =
      bindE
        (if toks.headD .tEOF = endTok then .ok (⟨toks.tail, d⟩ : TextSt)
         else textStep fuel vm (.eloop endTok off numelems push d.stack.length) ⟨toks, d⟩)
        fun st2 =>
        if push = false then .ok st2
        else
          bindE
            (if 0 ≤ numelems then
              textStep fuel vm (.fill off numelems d.stack.length) st2
             else .ok st2) fun st3 =>
            if (vm.getTypeInfo off).t = .vClass then
              .ok (⟨st3.toks,
                pushV (popVN st3.ds (st3.ds.stack.length - d.stack.length))
                  (.vObj off (lastN st3.ds (st3.ds.stack.length - d.stack.length)))
                  true⟩ : TextSt)
            else if (vm.getTypeInfo off).t = .vVector then
              .ok (⟨st3.toks,
                pushV (popVN st3.ds (st3.ds.stack.length - d.stack.length))
                  (.vVec off (lastN st3.ds (st3.ds.stack.length - d.stack.length)))
                  true⟩ : TextSt)
            else .ok st3 := by
  rw [textStep_elems]
  rw [gobble_noLF (show curTok ⟨toks, d⟩ ≠ .tLF from h)]
  rfl
/-- `ParseElems` over the member list of a class or struct literal after
the opening brace: pushes the members, consumes through the closing
brace, and wraps a class into its object value while leaving struct
members flat. -/
theorem textElemsMembersRT (vm : VM) (N : Nat)
    (EP : ∀ v2 off2, fuelV v2 < N → HasTy vm off2 v2 → TextP vm v2 off2)
    (off1 : Nat) (elems : List Value)
    (hUDT : isUDT (vm.getTypeInfo off1).t = true)
    (hvec : (vm.getTypeInfo off1).t ≠ .vVector)
    (helems : ElemsTy vm (vm.getTypeInfo off1).elemtypes elems)
    (hLen : (vm.getTypeInfo off1).elemtypes.length = (vm.getTypeInfo off1).len)
    (hPos : 1 ≤ (vm.getTypeInfo off1).len)
    (hN : fuelSlots elems ≤ N) :
    ∀ (fuel pf : Nat) (rest : List Token) (d : DStack),
      fuelSlots elems < fuel + 9 → fuelSlots elems < pf + 10 →
      textStep fuel vm (.elems .tRC off1 (((vm.getTypeInfo off1).len : Nat) : Int) true)
          ⟨printStep pf vm (.commaList elems) ++ .tRC :: rest, d⟩ =
        .ok ⟨rest, if (vm.getTypeInfo off1).t = .vClass then pushV d (.vObj off1 elems) true
          else pushVs d elems⟩ := by
  intro fuel pf rest d hfuel hpf
  have hlen : elems.length = (vm.getTypeInfo off1).len := by
    rw [elemsTy_length helems, hLen]
  have helne : elems ≠ [] := by
    intro hc; subst hc; simp only [List.length_nil] at hlen; omega
  obtain ⟨v, vs, hev⟩ : ∃ v vs, elems = v :: vs := by
    cases elems with
    | nil => exact absurd rfl helne
    | cons a b => exact ⟨a, b, rfl⟩
  have hge : 34 ≤ fuelSlots elems := by rw [hev]; exact fuelSlots_cons_ge v vs
  cases fuel with
  | zero => omega
  | succ f =>
    cases pf with
    | zero => omega
    | succ q =>
      cases q with
      | zero => omega
      | succ q2 =>
        obtain ⟨t, ts, hpt, hlf, hcm, hrc, hrb, heof⟩ := printComma_cons vm q2 v vs
        have hpt2 : printStep (q2 + 1 + 1) vm (.commaList elems) = t :: ts := by
          rw [hev]; exact hpt
        rw [textStep_elemsNL f vm .tRC off1 _ true _ d
          (by rw [hpt2]; simp only [List.cons_append, List.headD_cons]; exact hlf)]
        rw [if_neg (by rw [hpt2]; simp only [List.cons_append, List.headD_cons]; exact hrc)]
        rw [textOloopRT vm N EP (vm.getTypeInfo off1).elemtypes elems helems
          (by intro hc; rw [hc] at hLen; simp only [List.length_nil] at hLen; omega)
          hN off1 (vm.getTypeInfo off1).len d.stack.length d f (q2 + 1 + 1) rest hvec
          (by rw [hLen]) (by rw [hLen]; simp) (by rw [hLen]; omega)
          (by omega) (by omega)]
        rw [bindE_ok]
        rw [if_neg (by decide)]
        rw [if_pos (by omega : (0 : Int) ≤ (((vm.getTypeInfo off1).len : Nat) : Int))]
        cases f with
        | zero => omega
        | succ f2 =>
          rw [fill_noop f2 vm off1 _ d.stack.length rest (pushVs d elems)
            (by rw [pushVs_stack_length, hlen]; omega)]
          rw [bindE_ok]
          by_cases hcl : (vm.getTypeInfo off1).t = .vClass
          · rw [if_pos hcl, if_pos hcl]
            rw [pushVs_stack_length]
            rw [show d.stack.length + elems.length - d.stack.length = elems.length by omega]
            rw [lastN_pushVs, popVN_pushVs]
          · rw [if_neg hcl, if_neg hcl, if_neg hvec]
/-- `ParseFactor` on a printed struct literal at a struct descriptor:
pushes the member slots flat (no aggregate is built). -/
theorem textStructFactorRT (vm : VM) (N : Nat)
    (EP : ∀ v2 off2, fuelV v2 < N → HasTy vm off2 v2 → TextP vm v2 off2)
    (stoff : Nat) (chunk : List Value)
    (hst : isStructT (vm.getTypeInfo stoff).t = true)
    (hch : ElemsTy vm (vm.getTypeInfo stoff).elemtypes chunk)
    (hLen : (vm.getTypeInfo stoff).elemtypes.length = (vm.getTypeInfo stoff).len)
    (hPos : 1 ≤ (vm.getTypeInfo stoff).len)
    (hN : fuelSlots chunk ≤ N) :
    ∀ (fuel p : Nat) (after : List Token) (d : DStack),
      fuelSlots chunk < fuel + 8 → fuelSlots chunk < p + 10 →
      textStep fuel vm (.factor stoff true)
          ⟨.tIdent (structName vm (vm.getTypeInfo stoff)) :: .tLC ::
            (printStep p vm (.commaList chunk) ++ .tRC :: after), d⟩ =
        .ok ⟨after, pushVs d chunk⟩ := by
  intro fuel p after d hfuel hp
  have hcl : chunk.length = (vm.getTypeInfo stoff).len := by
    rw [elemsTy_length hch, hLen]
  have h34 : 34 ≤ fuelSlots chunk := by
    cases chunk with
    | nil => simp only [List.length_nil] at hcl; omega
    | cons a b => exact fuelSlots_cons_ge a b
  have hnn : (vm.getTypeInfo stoff).t ≠ .vNil := by
    rcases isStructT_iff.mp hst with h | h <;> rw [h] <;> intro hc <;> cases hc
  have hUDT : isUDT (vm.getTypeInfo stoff).t = true := by
    unfold isUDT
    rw [hst]
    rfl
  have hvec : (vm.getTypeInfo stoff).t ≠ .vVector := by
    rcases isStructT_iff.mp hst with h | h <;> rw [h] <;> intro hc <;> cases hc
  have hncl : (vm.getTypeInfo stoff).t ≠ .vClass := by
    rcases isStructT_iff.mp hst with h | h <;> rw [h] <;> intro hc <;> cases hc
  cases fuel with
  | zero => omega
  | succ f =>
    rw [textStep_fIdent f vm stoff stoff true _ _ d
      (by rw [if_neg (fun hc => hnn hc.1)])]
    rw [if_neg (by
      intro hc
      obtain ⟨h1, _⟩ := hc
      rcases isStructT_iff.mp hst with h | h <;> rw [h] at h1 <;> cases h1)]
    rw [if_neg (by
      intro hc
      obtain ⟨h1, _⟩ := hc
      rw [hUDT] at h1
      cases h1)]
    rw [show expectTok .tLC (⟨.tLC :: (printStep p vm (.commaList chunk) ++ .tRC :: after), d⟩
        : TextSt) =
      .ok ⟨printStep p vm (.commaList chunk) ++ .tRC :: after, d⟩ from rfl]
    rw [bindE_ok]
    rw [if_neg (fun hc => hc rfl)]
    rw [textElemsMembersRT vm N EP stoff chunk hUDT hvec hch hLen hPos hN f p after d
      (by omega) (by omega)]
    rw [if_neg hncl]
theorem pushVs_append (d : DStack) (a b : List Value) :
    pushVs d (a ++ b) = pushVs (pushVs d a) b := by
  simp [pushVs]

/-- Element loop of `ParseElems` over the printed contents of a vector:
scalar-width elements are pushed one by one, struct elements are parsed
as struct literals whose members land flat on the stack. -/
theorem textVloopRT (vm : VM) (hwf : WF vm) (N : Nat)
    (EP : ∀ v2 off2, fuelV v2 < N → HasTy vm off2 v2 → TextP vm v2 off2) :
    ∀ (n : Nat) (slots : List Value) (stoff : Nat), slots.length ≤ n → slots ≠ [] →
      VecSlots vm stoff slots → fuelSlots slots ≤ N →
      ∀ (off start : Nat) (d : DStack) (fuel pf : Nat) (rest : List Token),
        (vm.getTypeInfo off).t = .vVector →
        (vm.getTypeInfo off).subt = stoff →
        fuelSlots slots < fuel + 7 →
        fuelSlots slots < pf + 7 →
        textStep fuel vm (.eloop .tRB off (-1) true start)
            ⟨printStep pf vm (.chunks stoff slots) ++ .tRB :: rest, d⟩ =
          .ok ⟨rest, pushVs d slots⟩ := by
  intro n
  induction n with
  | zero =>
    intro slots stoff hn hne
    have : slots = [] := List.eq_nil_of_length_eq_zero (by omega)
    exact absurd this hne
  | succ n ihn =>
    intro slots stoff hn hne hvs hN off start d fuel pf rest hvt hsub hfuel hpf
    cases hvs with
    | nil => exact absurd rfl hne
    | consScalar hsc hv hrest =>
      rename_i v rest2
      have h34 := fuelSlots_cons_ge v rest2
      cases fuel with
      | zero => omega
      | succ f =>
        cases pf with
        | zero => omega
        | succ p =>
          cases p with
          | zero => omega
          | succ p2 =>
            simp only [fuelSlots] at hN hfuel hpf
            have hvg := fuelV_ge v
            have hsg := fuelSlots_ge rest2
            rw [printStep_chunks_cons (p2 + 1) vm stoff v rest2]
            rw [if_neg (by simp [hsc])]
            rw [textStep_eloop]
            rw [if_neg (by omega :
              ¬(((d.stack.length - start : Nat) : Int) = -1))]
            rw [if_pos hvt]
            rw [hsub]
            cases rest2 with
            | nil =>
              rw [show printStep (p2 + 1) vm (.commaList [v]) = printStep p2 vm (.one v)
                from rfl]
              rw [EP v stoff (by omega) hv p2 f (.tRB :: rest) d (by omega) (by omega)]
              rw [bindE_ok]
              rw [pushVs_single]
              rfl
            | cons w ws =>
              rw [show printStep (p2 + 1) vm (.commaList (v :: w :: ws)) =
                printStep p2 vm (.one v) ++
                  .tComma :: printStep p2 vm (.commaList (w :: ws)) from rfl]
              rw [show (printStep p2 vm (.one v) ++
                  .tComma :: printStep p2 vm (.commaList (w :: ws))) ++ .tRB :: rest =
                printStep p2 vm (.one v) ++
                  (.tComma :: (printStep p2 vm (.commaList (w :: ws)) ++ .tRB :: rest))
                by simp]
              rw [EP v stoff (by omega) hv p2 f
                (.tComma :: (printStep p2 vm (.commaList (w :: ws)) ++ .tRB :: rest)) d
                (by omega) (by omega)]
              rw [bindE_ok]
              show textStep f vm (.eloop .tRB off (-1) true start)
                  ⟨printStep p2 vm (.commaList (w :: ws)) ++ .tRB :: rest,
                    pushV d v (isRefV v)⟩ =
                .ok ⟨rest, pushVs d (v :: w :: ws)⟩
              have hconv : printStep (p2 + 1) vm (.chunks stoff (w :: ws)) =
                  printStep p2 vm (.commaList (w :: ws)) := by
                rw [printStep_chunks_cons]
                rw [if_neg (by simp [hsc])]
              rw [← hconv]
              have hws := fuelSlots_cons_ge w ws
              rw [ihn (w :: ws) stoff (by simp only [List.length_cons] at hn ⊢; omega)
                (by intro hc; cases hc) hrest (by omega) off start
                (pushV d v (isRefV v)) f (p2 + 1) rest hvt hsub (by omega) (by omega)]
              simp only [pushVs_cons]
    | consChunk hst hch hrest =>
      rename_i chunk rest2
      have hUDT : isUDT (vm.getTypeInfo stoff).t = true := by
        unfold isUDT
        rw [hst]
        rfl
      have hAny : (vm.getTypeInfo stoff).t ≠ .vAny := by
        rcases isStructT_iff.mp hst with h | h <;> rw [h] <;> intro hc <;> cases hc
      obtain ⟨hLen, hPos, _⟩ := hwf.aggLen stoff (inRange hAny) hUDT
      have hcl : chunk.length = (vm.getTypeInfo stoff).len := by
        rw [elemsTy_length hch, hLen]
      have h34 : 34 ≤ fuelSlots chunk := by
        cases chunk with
        | nil => simp only [List.length_nil] at hcl; omega
        | cons a b => exact fuelSlots_cons_ge a b
      have hfsa := fuelSlots_append chunk rest2
      have hgr := fuelSlots_ge rest2
      have hchne : chunk ≠ [] := by
        intro hc; rw [hc] at hcl; simp only [List.length_nil] at hcl; omega
      cases fuel with
      | zero => omega
      | succ f =>
        cases pf with
        | zero => omega
        | succ p =>
          have hpr : printStep (p + 1) vm (.chunks stoff (chunk ++ rest2)) =
              (if rest2.isEmpty then
                Token.tIdent (structName vm (vm.getTypeInfo stoff)) :: .tLC ::
                  (printStep p vm (.commaList chunk) ++ [.tRC])
              else
                (Token.tIdent (structName vm (vm.getTypeInfo stoff)) :: .tLC ::
                  (printStep p vm (.commaList chunk) ++ [.tRC])) ++
                  .tComma :: printStep p vm (.chunks stoff rest2)) := by
            obtain ⟨c0, ck, hc⟩ : ∃ c0 ck, chunk = c0 :: ck := by
              cases chunk with
              | nil => exact absurd rfl hchne
              | cons a b => exact ⟨a, b, rfl⟩
            have htake : (chunk ++ rest2).take (vm.getTypeInfo stoff).len = chunk := by
              rw [← hcl]; exact List.take_left chunk rest2
            have hdropq : (chunk ++ rest2).drop (vm.getTypeInfo stoff).len = rest2 := by
              rw [← hcl]; exact List.drop_left chunk rest2
            rw [hc] at htake hdropq ⊢
            simp only [List.cons_append]
            rw [printStep_chunks_cons p vm stoff c0 (ck ++ rest2)]
            rw [if_pos hst]
            simp only [List.cons_append] at htake hdropq
            rw [htake, hdropq]
            by_cases hre2 : rest2.isEmpty <;> simp [hre2]
          rw [hpr]
          by_cases hre : rest2.isEmpty = true
          · have hr2 : rest2 = [] := by
              cases rest2 with
              | nil => rfl
              | cons x xs => simp [List.isEmpty] at hre
            rw [if_pos hre]
            rw [show (Token.tIdent (structName vm (vm.getTypeInfo stoff)) :: .tLC ::
                (printStep p vm (.commaList chunk) ++ [.tRC])) ++ .tRB :: rest =
              Token.tIdent (structName vm (vm.getTypeInfo stoff)) :: .tLC ::
                (printStep p vm (.commaList chunk) ++ .tRC :: .tRB :: rest) by simp]
            rw [textStep_eloop]
            rw [if_neg (by omega :
              ¬(((d.stack.length - start : Nat) : Int) = -1))]
            rw [if_pos hvt]
            rw [hsub]
            rw [textStructFactorRT vm N EP stoff chunk hst hch hLen hPos (by omega)
              f p (.tRB :: rest) d (by omega) (by omega)]
            rw [bindE_ok]
            show Except.ok (⟨rest, pushVs d chunk⟩ : TextSt) =
              .ok ⟨rest, pushVs d (chunk ++ rest2)⟩
            rw [hr2, List.append_nil]
          · have hr2 : rest2 ≠ [] := by
              intro hc; rw [hc] at hre; exact hre rfl
            rw [if_neg hre]
            rw [show ((Token.tIdent (structName vm (vm.getTypeInfo stoff)) :: .tLC ::
                (printStep p vm (.commaList chunk) ++ [.tRC])) ++
                .tComma :: printStep p vm (.chunks stoff rest2)) ++ .tRB :: rest =
              Token.tIdent (structName vm (vm.getTypeInfo stoff)) :: .tLC ::
                (printStep p vm (.commaList chunk) ++ .tRC ::
                  .tComma :: (printStep p vm (.chunks stoff rest2) ++ .tRB :: rest))
              by simp]
            rw [textStep_eloop]
            rw [if_neg (by omega :
              ¬(((d.stack.length - start : Nat) : Int) = -1))]
            rw [if_pos hvt]
            rw [hsub]
            rw [textStructFactorRT vm N EP stoff chunk hst hch hLen hPos (by omega)
              f p (.tComma :: (printStep p vm (.chunks stoff rest2) ++ .tRB :: rest)) d
              (by omega) (by omega)]
            rw [bindE_ok]
            show textStep f vm (.eloop .tRB off (-1) true start)
                ⟨printStep p vm (.chunks stoff rest2) ++ .tRB :: rest, pushVs d chunk⟩ =
              .ok ⟨rest, pushVs d (chunk ++ rest2)⟩
            cases p with
            | zero => omega
            | succ p2 =>
              rw [ihn rest2 stoff
                (by simp only [List.length_append] at hn
                    have : 1 ≤ chunk.length := by omega
                    omega)
                hr2 hrest (by omega) off start (pushVs d chunk) f (p2 + 1) rest hvt hsub
                (by omega) (by omega)]
              rw [pushVs_append]
theorem textRT_int (vm : VM) (off off1 : Nat) (i : Int)
    (hoff1 : off1 = if (vm.getTypeInfo off).t = .vNil then (vm.getTypeInfo off).subt else off)
    (ht : (vm.getTypeInfo off1).t = .vInt) :
    TextP vm (.vInt i) off := by
  intro pf fuel rest d hpf hfuel
  simp only [fuelV] at hpf hfuel
  cases pf with
  | zero => omega
  | succ p =>
    cases fuel with
    | zero => omega
    | succ f =>
      rw [show printStep (p + 1) vm (.one (.vInt i)) ++ rest = .tInt i :: rest from rfl]
      rw [textStep_fInt f vm off off1 true i rest d
        (by rw [ifAndTrue (show (Token.tInt i : Token) ≠ .tNil by intro h; cases h)]
            exact hoff1)]
      rw [ht]
      rfl

theorem textRT_float (vm : VM) (off off1 : Nat) (b : Nat)
    (hoff1 : off1 = if (vm.getTypeInfo off).t = .vNil then (vm.getTypeInfo off).subt else off)
    (ht : (vm.getTypeInfo off1).t = .vFloat) :
    TextP vm (.vFloat b) off := by
  intro pf fuel rest d hpf hfuel
  simp only [fuelV] at hpf hfuel
  cases pf with
  | zero => omega
  | succ p =>
    cases fuel with
    | zero => omega
    | succ f =>
      rw [show printStep (p + 1) vm (.one (.vFloat b)) ++ rest = .tFloat b :: rest from rfl]
      rw [textStep_fFloat f vm off off1 true b rest d
        (by rw [ifAndTrue (show (Token.tFloat b : Token) ≠ .tNil by intro h; cases h)]
            exact hoff1)]
      rw [ht]
      rfl

theorem textRT_string (vm : VM) (off off1 : Nat) (s : List Nat)
    (hoff1 : off1 = if (vm.getTypeInfo off).t = .vNil then (vm.getTypeInfo off).subt else off)
    (ht : (vm.getTypeInfo off1).t = .vString) :
    TextP vm (.vString s) off := by
  intro pf fuel rest d hpf hfuel
  simp only [fuelV] at hpf hfuel
  cases pf with
  | zero => omega
  | succ p =>
    cases fuel with
    | zero => omega
    | succ f =>
      rw [show printStep (p + 1) vm (.one (.vString s)) ++ rest = .tStr s :: rest from rfl]
      rw [textStep_fStr f vm off off1 true s rest d
        (by rw [ifAndTrue (show (Token.tStr s : Token) ≠ .tNil by intro h; cases h)]
            exact hoff1)]
      rw [ht]
      rfl

theorem textRT_nil (vm : VM) (off : Nat) (ht : (vm.getTypeInfo off).t = .vNil) :
    TextP vm .nilVal off := by
  intro pf fuel rest d hpf hfuel
  simp only [fuelV] at hpf hfuel
  cases pf with
  | zero => omega
  | succ p =>
    cases fuel with
    | zero => omega
    | succ f =>
      rw [show printStep (p + 1) vm (.one .nilVal) ++ rest = .tNil :: rest from rfl]
      rw [textStep_fNil f vm off off true rest d
        (by rw [ifAndFalse (show ¬((Token.tNil : Token) ≠ .tNil) from fun h => h rfl)])]
      rw [ht]
      rfl
theorem textRT_vec (vm : VM) (hwf : WF vm) (N : Nat)
    (EP : ∀ v2 off2, fuelV v2 < N → HasTy vm off2 v2 → TextP vm v2 off2)
    (off off1 : Nat) (slots : List Value)
    (hoff1 : off1 = if (vm.getTypeInfo off).t = .vNil then (vm.getTypeInfo off).subt else off)
    (ht : (vm.getTypeInfo off1).t = .vVector)
    (hslots : VecSlots vm (vm.getTypeInfo off1).subt slots)
    (hN : fuelSlots slots ≤ N) :
    TextP vm (.vVec off1 slots) off := by
  intro pf fuel rest d hpf hfuel
  simp only [fuelV] at hpf hfuel
  have hsg := fuelSlots_ge slots
  cases pf with
  | zero => omega
  | succ p =>
    cases fuel with
    | zero => omega
    | succ f =>
      rw [show printStep (p + 1) vm (.one (.vVec off1 slots)) =
        .tLB :: (printStep p vm (.chunks (vm.getTypeInfo off1).subt slots) ++ [.tRB])
        from rfl]
      rw [show (Token.tLB ::
          (printStep p vm (.chunks (vm.getTypeInfo off1).subt slots) ++ [.tRB])) ++ rest =
        .tLB :: (printStep p vm (.chunks (vm.getTypeInfo off1).subt slots) ++ .tRB :: rest)
        by simp]
      rw [textStep_fLB f vm off off1 true _ d
        (by rw [ifAndTrue (show (Token.tLB : Token) ≠ .tNil by intro h; cases h)]
            exact hoff1)]
      rw [ht]
      rw [show expectType .vVector .vVector = .ok () from rfl, bindE_ok]
      by_cases hsl : slots = []
      · subst hsl
        cases p with
        | zero => omega
        | succ p2 =>
          rw [printChunks_nil vm p2 (vm.getTypeInfo off1).subt]
          rw [List.nil_append]
          cases f with
          | zero => omega
          | succ f2 =>
            rw [textStep_elemsNL f2 vm .tRB off1 (-1) true (.tRB :: rest) d
              (by intro h; cases h)]
            rw [if_pos (show (Token.tRB :: rest).headD Token.tEOF = Token.tRB from rfl)]
            rw [bindE_ok]
            rw [if_neg (by decide)]
            rw [if_neg (by decide : ¬((0 : Int) ≤ -1))]
            rw [bindE_ok]
            rw [if_neg (by rw [ht]; intro hc; cases hc)]
            rw [if_pos ht]
            show Except.ok (⟨rest, pushV (popVN d (d.stack.length - d.stack.length))
                (.vVec off1 (lastN d (d.stack.length - d.stack.length))) true⟩ : TextSt) =
              .ok ⟨rest, pushV d (.vVec off1 []) true⟩
            rw [Nat.sub_self, popVN_zero, lastN_zero]
      · obtain ⟨v, sl, hvs⟩ : ∃ v sl, slots = v :: sl := by
          cases slots with
          | nil => exact absurd rfl hsl
          | cons a b => exact ⟨a, b, rfl⟩
        have h34 : 34 ≤ fuelSlots slots := by rw [hvs]; exact fuelSlots_cons_ge v sl
        cases p with
        | zero => omega
        | succ p2 =>
          cases p2 with
          | zero => omega
          | succ p3 =>
            cases p3 with
            | zero => omega
            | succ p4 =>
              obtain ⟨t, ts, hpt, hlf, hcm, hrc, hrb, heof⟩ :=
                printChunks_head vm p4 (vm.getTypeInfo off1).subt v sl
              have hpt2 : printStep (p4 + 1 + 1 + 1) vm
                  (.chunks (vm.getTypeInfo off1).subt slots) = t :: ts := by
                rw [hvs]; exact hpt
              cases f with
              | zero => omega
              | succ f2 =>
                rw [textStep_elemsNL f2 vm .tRB off1 (-1) true _ d
                  (by rw [hpt2]; simp only [List.cons_append, List.headD_cons]; exact hlf)]
                rw [if_neg (by
                  rw [hpt2]; simp only [List.cons_append, List.headD_cons]; exact hrb)]
                rw [textVloopRT vm hwf N EP slots.length slots (vm.getTypeInfo off1).subt
                  (le_refl _) hsl hslots hN off1 d.stack.length d f2 (p4 + 1 + 1 + 1) rest
                  ht rfl (by omega) (by omega)]
                rw [bindE_ok]
                rw [if_neg (by decide)]
                rw [if_neg (by decide : ¬((0 : Int) ≤ -1))]
                rw [bindE_ok]
                rw [if_neg (by rw [ht]; intro hc; cases hc)]
                rw [if_pos ht]
                show Except.ok (⟨rest,
                    pushV (popVN (pushVs d slots) ((pushVs d slots).stack.length - d.stack.length))
                      (.vVec off1 (lastN (pushVs d slots)
                        ((pushVs d slots).stack.length - d.stack.length))) true⟩ : TextSt) =
                  .ok ⟨rest, pushV d (.vVec off1 slots) true⟩
                have hl2 : (pushVs d slots).stack.length - d.stack.length = slots.length := by
                  rw [pushVs_stack_length]; omega
                rw [hl2, lastN_pushVs, popVN_pushVs]

theorem textRT_obj (vm : VM) (hwf : WF vm) (N : Nat)
    (EP : ∀ v2 off2, fuelV v2 < N → HasTy vm off2 v2 → TextP vm v2 off2)
    (off off1 : Nat) (elems : List Value)
    (hoff1 : off1 = if (vm.getTypeInfo off).t = .vNil then (vm.getTypeInfo off).subt else off)
    (ht : (vm.getTypeInfo off1).t = .vClass)
    (helems : ElemsTy vm (vm.getTypeInfo off1).elemtypes elems)
    (hN : fuelSlots elems ≤ N) :
    TextP vm (.vObj off1 elems) off := by
  intro pf fuel rest d hpf hfuel
  simp only [fuelV] at hpf hfuel
  have hAny : (vm.getTypeInfo off1).t ≠ .vAny := by rw [ht]; intro hc; cases hc
  have hUDT : isUDT (vm.getTypeInfo off1).t = true := by
    unfold isUDT isStructT
    rw [ht]
    rfl
  obtain ⟨hLen, hPos, hLt⟩ := hwf.aggLen off1 (inRange hAny) hUDT
  cases pf with
  | zero => omega
  | succ p =>
    cases fuel with
    | zero => omega
    | succ f =>
      rw [show printStep (p + 1) vm (.one (.vObj off1 elems)) =
        .tIdent (structName vm (vm.getTypeInfo off1)) :: .tLC ::
          (printStep p vm (.commaList elems) ++ [.tRC]) from rfl]
      rw [show (Token.tIdent (structName vm (vm.getTypeInfo off1)) :: .tLC ::
          (printStep p vm (.commaList elems) ++ [.tRC])) ++ rest =
        .tIdent (structName vm (vm.getTypeInfo off1)) :: .tLC ::
          (printStep p vm (.commaList elems) ++ .tRC :: rest) by simp]
      rw [textStep_fIdent f vm off off1 true _ _ d
        (by rw [ifAndTrue (show (Token.tIdent (structName vm (vm.getTypeInfo off1)) : Token)
              ≠ .tNil by intro h; cases h)]
            exact hoff1)]
      rw [if_neg (by intro hc; rw [ht] at hc; cases hc.1)]
      rw [if_neg (by intro hc; rw [hUDT] at hc; cases hc.1)]
      rw [show expectTok .tLC (⟨.tLC ::
          (printStep p vm (.commaList elems) ++ .tRC :: rest), d⟩ : TextSt) =
        .ok ⟨printStep p vm (.commaList elems) ++ .tRC :: rest, d⟩ from rfl]
      rw [bindE_ok]
      rw [if_neg (fun hc => hc rfl)]
      rw [textElemsMembersRT vm N EP off1 elems hUDT (by rw [ht]; intro hc; cases hc)
        helems hLen hPos hN f p rest d (by omega) (by omega)]
      rw [if_pos ht]
      rfl
/-- Textual-format round trip for a single value: parsing the printed
form of a well-typed value at the matching descriptor consumes exactly
those tokens and pushes exactly that value. -/
theorem textElemRT (vm : VM) (hwf : WF vm) :
    ∀ (N : Nat) (v : Value) (off : Nat), fuelV v ≤ N →
      HasTy vm off v → TextP vm v off := by
  intro N
  induction N using Nat.strong_induction_on with
  | _ N IH =>
    intro v off hN hty
    have EP : ∀ v2 off2, fuelV v2 < N → HasTy vm off2 v2 → TextP vm v2 off2 :=
      fun v2 off2 h2 ht2 => IH (fuelV v2) h2 v2 off2 (le_refl _) ht2
    cases hty with
    | int ht =>
      exact textRT_int vm off off _ (by rw [if_neg (by rw [ht]; intro hc; cases hc)]) ht
    | float ht hb =>
      exact textRT_float vm off off _ (by rw [if_neg (by rw [ht]; intro hc; cases hc)]) ht
    | str ht hbs =>
      exact textRT_string vm off off _ (by rw [if_neg (by rw [ht]; intro hc; cases hc)]) ht
    | nilv ht =>
      exact textRT_nil vm off ht
    | vec ht hslots =>
      simp only [fuelV] at hN
      exact textRT_vec vm hwf N EP off off _
        (by rw [if_neg (by rw [ht]; intro hc; cases hc)]) ht hslots (by omega)
    | obj ht helems =>
      simp only [fuelV] at hN
      exact textRT_obj vm hwf N EP off off _
        (by rw [if_neg (by rw [ht]; intro hc; cases hc)]) ht helems (by omega)
    | nilSome ht inner =>
      have hsubt := hwf.nilSub off (inRange (by rw [ht]; intro hc; cases hc)) ht
      cases inner with
      | int ht2 => rcases hsubt with h | h | h <;> rw [ht2] at h <;> cases h
      | float ht2 hb => rcases hsubt with h | h | h <;> rw [ht2] at h <;> cases h
      | nilv ht2 => rcases hsubt with h | h | h <;> rw [ht2] at h <;> cases h
      | nilSome ht2 inner2 => rcases hsubt with h | h | h <;> rw [ht2] at h <;> cases h
      | str ht2 hbs =>
        exact textRT_string vm off (vm.getTypeInfo off).subt _ (by rw [if_pos ht]) ht2
      | vec ht2 hslots =>
        simp only [fuelV] at hN
        exact textRT_vec vm hwf N EP off (vm.getTypeInfo off).subt _
          (by rw [if_pos ht]) ht2 hslots (by omega)
      | obj ht2 helems =>
        simp only [fuelV] at hN
        exact textRT_obj vm hwf N EP off (vm.getTypeInfo off).subt _
          (by rw [if_pos ht]) ht2 helems (by omega)

/-- Entry-point textual round trip: `ParseData` on the printed form of a
well-typed value returns that value with no error. -/
theorem textDataRT (vm : VM) (hwf : WF vm) (v : Value) (off : Nat) (pf fuel : Nat)
    (hty : HasTy vm off v) (hpf : fuelV v < pf) (hfuel : fuelV v < fuel) :
    parseData fuel vm off (printVal pf vm v) = (v, none) := by
  have hP := textElemRT vm hwf (fuelV v) v off (le_refl _) hty
  have hstep := hP pf fuel [] ⟨[], []⟩ hpf hfuel
  rw [List.append_nil] at hstep
  simp only [parseData, textParse, printVal, hstep]
  simp [gobble, curTok, advance, popV, pushV]
theorem pushVs_nil (d : DStack) : pushVs d [] = d := by
  simp [pushVs]

theorem mlookup_cons_eq (k : List Nat) (v : Flex) (rest : List (List Nat × Flex)) :
    mlookup ((k, v) :: rest) k = v := by
  unfold mlookup
  rw [if_pos rfl]

theorem mlookup_cons_ne {k key : List Nat} (v : Flex) (rest : List (List Nat × Flex))
    (h : k ≠ key) : mlookup ((k, v) :: rest) key = mlookup rest key := by
  show (if k = key then v else mlookup rest key) = mlookup rest key
  rw [if_neg h]

theorem flexStep_fInt (fuel : Nat) (vm : VM) (off off1 : Nat) (i : Int) (d : DStack)
    (hoff1 : off1 = if (vm.getTypeInfo off).t = .vNil ∧ (Flex.fInt i).isNullF = false then
      (vm.getTypeInfo off).subt else off) :
    flexStep (fuel + 1) vm (.factor (.fInt i) off) d =
      bindE (expectType .vInt (vm.getTypeInfo off1).t) fun _ =>
        .ok (pushV d (.vInt i) false) := by
  subst hoff1; rfl

theorem flexStep_fFloat (fuel : Nat) (vm : VM) (off off1 : Nat) (bits : Nat) (d : DStack)
    (hoff1 : off1 = if (vm.getTypeInfo off).t = .vNil ∧ (Flex.fFloat bits).isNullF = false then
      (vm.getTypeInfo off).subt else off) :
    flexStep (fuel + 1) vm (.factor (.fFloat bits) off) d =
      bindE (expectType .vFloat (vm.getTypeInfo off1).t) fun _ =>
        .ok (pushV d (.vFloat bits) false) := by
  subst hoff1; rfl

theorem flexStep_fString (fuel : Nat) (vm : VM) (off off1 : Nat) (s : List Nat) (d : DStack)
    (hoff1 : off1 = if (vm.getTypeInfo off).t = .vNil ∧ (Flex.fString s).isNullF = false then
      (vm.getTypeInfo off).subt else off) :
    flexStep (fuel + 1) vm (.factor (.fString s) off) d =
      bindE (expectType .vString (vm.getTypeInfo off1).t) fun _ =>
        .ok (pushV d (.vString s) true) := by
  subst hoff1; rfl

theorem flexStep_fNull (fuel : Nat) (vm : VM) (off : Nat) (d : DStack) :
    flexStep (fuel + 1) vm (.factor .fNull off) d =
      bindE (expectType .vNil (vm.getTypeInfo off).t) fun _ =>
        .ok (pushV d .nilVal false) := by
  show (bindE (expectType .vNil (vm.getTypeInfo (if (vm.getTypeInfo off).t = .vNil ∧
      (Flex.fNull).isNullF = false then (vm.getTypeInfo off).subt else off)).t) fun _ =>
    .ok (pushV d .nilVal false)) = _
  rw [ifAndFalse (show ¬((Flex.fNull).isNullF = false) by intro h; cases h)]

theorem flexStep_fVec (fuel : Nat) (vm : VM) (off off1 : Nat) (rs : List Flex) (d : DStack)
    (hoff1 : off1 = if (vm.getTypeInfo off).t = .vNil ∧ (Flex.fVec rs).isNullF = false then
      (vm.getTypeInfo off).subt else off) :
    flexStep (fuel + 1) vm (.factor (.fVec rs) off) d =
      bindE (expectType .vVector (vm.getTypeInfo off1).t) fun _ =>
        bindE (flexStep fuel vm (.vloop rs (vm.getTypeInfo off1).subt) d) fun d2 =>
          .ok (pushV (popVN d2 (d2.stack.length - d.stack.length))
            (.vVec off1 (lastN d2 (d2.stack.length - d.stack.length))) true) := by
  subst hoff1; rfl

theorem flexStep_fMap (fuel : Nat) (vm : VM) (off off1 : Nat)
    (entries : List (List Nat × Flex)) (d : DStack)
    (hoff1 : off1 = if (vm.getTypeInfo off).t = .vNil ∧ (Flex.fMap entries).isNullF = false then
      (vm.getTypeInfo off).subt else off) :
    flexStep (fuel + 1) vm (.factor (.fMap entries) off) d =
      (if isUDT (vm.getTypeInfo off1).t = false ∧ (vm.getTypeInfo off1).t ≠ .vAny then
        .error (.classRequired (vm.getTypeInfo off1).t)
      else
        bindE
          (match mlookup entries typeKey with
           | .fString s =>
             if s ≠ structName vm (vm.getTypeInfo off1) then
               match lookupSubClass vm s (vm.getTypeInfo off1) with
               | none => .error .unresolvedSubclass
               | some p => .ok p
             else .ok (vm.getTypeInfo off1, off1)
           | _ => .ok (vm.getTypeInfo off1, off1)) fun tioff =>
          bindE (flexStep fuel vm (.mloop entries tioff.2 0 d.stack.length) d) fun d2 =>
            if (vm.getTypeInfo off1).t = .vClass then
              .ok (pushV (popVN d2 (d2.stack.length - d.stack.length))
                (.vObj tioff.2 (lastN d2 (d2.stack.length - d.stack.length))) true)
            else .ok d2) := by
  subst hoff1; rfl

theorem flexStep_vloop_nil (fuel : Nat) (vm : VM) (subt : Nat) (d : DStack) :
    flexStep (fuel + 1) vm (.vloop [] subt) d = .ok d := rfl

theorem flexStep_vloop_cons (fuel : Nat) (vm : VM) (subt : Nat) (r : Flex) (rs : List Flex)
    (d : DStack) :
    flexStep (fuel + 1) vm (.vloop (r :: rs) subt) d =
      bindE (flexStep fuel vm (.factor r subt) d) fun d2 =>
        flexStep fuel vm (.vloop rs subt) d2 := rfl

theorem flexStep_mloop (fuel : Nat) (vm : VM) (entries : List (List Nat × Flex))
    (off i start : Nat) (d : DStack) :
    flexStep (fuel + 1) vm (.mloop entries off i start) d =
      (if d.stack.length - start = (vm.getTypeInfo off).len then .ok d
      else
        match mlookup entries (vm.fieldNames (vm.getTypeInfo off).structidx i) with
        | .fNull =>
          if (pushDefault fuel vm
              (getElemOrParent (vm.getTypeInfo off) (d.stack.length - start))
              ((vm.getTypeInfo off).elemtypes.getD (d.stack.length - start) ⟨0, 0⟩).defval
              d).1 then
            flexStep fuel vm (.mloop entries off (i + 1) start)
              (pushDefault fuel vm
                (getElemOrParent (vm.getTypeInfo off) (d.stack.length - start))
                ((vm.getTypeInfo off).elemtypes.getD (d.stack.length - start) ⟨0, 0⟩).defval
                d).2
          else .error .noDefault
        | e =>
          bindE (flexStep fuel vm
            (.factor e (getElemOrParent (vm.getTypeInfo off) (d.stack.length - start))) d)
            fun d2 => flexStep fuel vm (.mloop entries off (i + 1) start) d2) := rfl

theorem flexStep_mloop_null (fuel : Nat) (vm : VM) (entries : List (List Nat × Flex))
    (off i start : Nat) (d : DStack)
    (hne : d.stack.length - start ≠ (vm.getTypeInfo off).len)
    (hml : mlookup entries (vm.fieldNames (vm.getTypeInfo off).structidx i) = .fNull) :
    flexStep (fuel + 1) vm (.mloop entries off i start) d =
      (if (pushDefault fuel vm
          (getElemOrParent (vm.getTypeInfo off) (d.stack.length - start))
          ((vm.getTypeInfo off).elemtypes.getD (d.stack.length - start) ⟨0, 0⟩).defval
          d).1 then
        flexStep fuel vm (.mloop entries off (i + 1) start)
          (pushDefault fuel vm
            (getElemOrParent (vm.getTypeInfo off) (d.stack.length - start))
            ((vm.getTypeInfo off).elemtypes.getD (d.stack.length - start) ⟨0, 0⟩).defval
            d).2
      else .error .noDefault) := by
  rw [flexStep_mloop, if_neg hne, hml]

theorem flexStep_mloop_go (fuel : Nat) (vm : VM) (entries : List (List Nat × Flex))
    (off i start : Nat) (d : DStack) (e : Flex)
    (hne : d.stack.length - start ≠ (vm.getTypeInfo off).len)
    (hml : mlookup entries (vm.fieldNames (vm.getTypeInfo off).structidx i) = e)
    (hnn : e.isNullF = false) :
    flexStep (fuel + 1) vm (.mloop entries off i start) d =
      bindE (flexStep fuel vm
          (.factor e (getElemOrParent (vm.getTypeInfo off) (d.stack.length - start))) d)
        fun d2 => flexStep fuel vm (.mloop entries off (i + 1) start) d2 := by
  rw [flexStep_mloop, if_neg hne, hml]
  cases e with
  | fNull => cases hnn
  | fInt i => rfl
  | fBool b => rfl
  | fFloat bits => rfl
  | fString s => rfl
  | fVec rs => rfl
  | fMap es => rfl

theorem flexOne_notNull (q : Nat) (vm : VM) (v : Value) (hv : v ≠ .nilVal) :
    (flexOfStep (q + 1) vm (.one v)).get1.isNullF = false := by
  cases v with
  | nilVal => exact absurd rfl hv
  | vInt i => rfl
  | vFloat b => rfl
  | vString s => rfl
  | vVec o s => rfl
  | vObj o e => rfl

theorem flexOne_nilVal (q : Nat) (vm : VM) :
    (flexOfStep q vm (.one .nilVal)).get1 = .fNull := by
  cases q <;> rfl

theorem fuelSlots_get_le : ∀ (vs : List Value) (j : Nat), j < vs.length →
    16 * j + 16 + fuelV (vs.getD j .nilVal) ≤ fuelSlots vs := by
  intro vs
  induction vs with
  | nil => intro j h; simp at h
  | cons v r ih =>
    intro j h
    cases j with
    | zero =>
      show 16 + fuelV v ≤ fuelSlots (v :: r)
      have := fuelSlots_ge r
      simp only [fuelSlots]
      omega
    | succ j2 =>
      simp only [List.length_cons] at h
      have h2 := ih j2 (by omega)
      have hv := fuelV_ge v
      show 16 * (j2 + 1) + 16 + fuelV (r.getD j2 .nilVal) ≤ fuelSlots (v :: r)
      simp only [fuelSlots]
      omega

theorem flexOfStep_fields_cons (q : Nat) (vm : VM) (sidx i : Nat) (v : Value)
    (vs : List Value) :
    (flexOfStep (q + 1) vm (.fields sidx i (v :: vs))).getf =
      (vm.fieldNames sidx i, (flexOfStep q vm (.one v)).get1) ::
        (flexOfStep q vm (.fields sidx (i + 1) vs)).getf := rfl

theorem fieldsInj (vm : VM) (sidx len : Nat)
    (hnd : ((List.range len).map (vm.fieldNames sidx)).Nodup)
    (a b : Nat) (ha : a < len) (hb : b < len) (hab : a ≠ b) :
    vm.fieldNames sidx a ≠ vm.fieldNames sidx b := by
  intro hc
  have hinj := List.nodup_iff_injective_get.mp hnd
  have hla : a < ((List.range len).map (vm.fieldNames sidx)).length := by simp [ha]
  have hlb : b < ((List.range len).map (vm.fieldNames sidx)).length := by simp [hb]
  have hga : ((List.range len).map (vm.fieldNames sidx)).get ⟨a, hla⟩ =
      vm.fieldNames sidx a := by
    simp
  have hgb : ((List.range len).map (vm.fieldNames sidx)).get ⟨b, hlb⟩ =
      vm.fieldNames sidx b := by
    simp
  have hfin : (⟨a, hla⟩ : Fin _) = ⟨b, hlb⟩ := hinj (by rw [hga, hgb, hc])
  exact hab (congrArg Fin.val hfin)

theorem flexFieldsLookup (vm : VM) (sidx len : Nat)
    (hnd : ((List.range len).map (vm.fieldNames sidx)).Nodup) :
    ∀ (vs : List Value) (i q j : Nat), i + vs.length ≤ len → j < vs.length → j < q →
      mlookup ((flexOfStep (q + 1) vm (.fields sidx i vs)).getf)
          (vm.fieldNames sidx (i + j)) =
        (flexOfStep (q - j) vm (.one (vs.getD j .nilVal))).get1 := by
  intro vs
  induction vs with
  | nil => intro i q j h1 h2; simp at h2
  | cons v rest ih =>
    intro i q j h1 h2 h3
    simp only [List.length_cons] at h1 h2
    rw [flexOfStep_fields_cons]
    cases j with
    | zero =>
      rw [show i + 0 = i from rfl, mlookup_cons_eq]
      rfl
    | succ j2 =>
      rw [mlookup_cons_ne _ _ (fieldsInj vm sidx len hnd i (i + (j2 + 1))
        (by omega) (by omega) (by omega))]
      cases q with
      | zero => omega
      | succ q2 =>
        rw [show q2 + 1 - (j2 + 1) = q2 - j2 from by omega]
        rw [show (v :: rest).getD (j2 + 1) Value.nilVal = rest.getD j2 Value.nilVal
          from rfl]
        rw [show i + (j2 + 1) = (i + 1) + j2 by omega]
        exact ih (i + 1) q2 j2 (by omega) (by omega) (by omega)
theorem defStep_one (f : Nat) (vm : VM) (off : Nat) (dv : Int) (d : DStack) :
    defStep (f + 1) vm (.one off dv) d =
      (match (vm.getTypeInfo off).t with
      | .vInt => (true, pushV d (.vInt dv) false)
      | .vFloat => (true, pushV d (.vFloat (int2float dv)) false)
      | .vNil => (true, pushV d .nilVal false)
      | .vVector => (true, pushV d (.vVec off []) true)
      | .vStructS | .vStructR | .vClass =>
        if (vm.getTypeInfo off).t = .vClass then
          (true, pushV (popVN (defStep f vm (.loop (vm.getTypeInfo off).elemtypes) d).2
              (vm.getTypeInfo off).len)
            (.vObj off (lastN (defStep f vm (.loop (vm.getTypeInfo off).elemtypes) d).2
              (vm.getTypeInfo off).len)) true)
        else (true, (defStep f vm (.loop (vm.getTypeInfo off).elemtypes) d).2)
      | _ => (false, d)) := rfl

theorem pushDefault_nilT (f : Nat) (vm : VM) (off : Nat) (dv : Int) (d : DStack)
    (ht : (vm.getTypeInfo off).t = .vNil) :
    pushDefault (f + 1) vm off dv d = (true, pushV d .nilVal false) := by
  show defStep (f + 1) vm (.one off dv) d = _
  rw [defStep_one, ht]

/-- Member loop of the flex parser over the encoder-produced map entries
of a class or struct: nil members (encoded as null nodes) are filled by
the default synthesizer, all other members are parsed from their named
entry, pushing the member slots in declaration order. -/
theorem flexMloopRT (vm : VM) (N : Nat)
    (EP : ∀ v2 off2, fuelV v2 < N → HasTy vm off2 v2 → FlexP vm v2 off2)
    (off1 : Nat) (elems : List Value)
    (helems : ElemsTy vm (vm.getTypeInfo off1).elemtypes elems)
    (hLen : (vm.getTypeInfo off1).elemtypes.length = (vm.getTypeInfo off1).len)
    (hnd : ((List.range (vm.getTypeInfo off1).len).map
      (vm.fieldNames (vm.getTypeInfo off1).structidx)).Nodup)
    (hnt : ∀ i < (vm.getTypeInfo off1).len,
      vm.fieldNames (vm.getTypeInfo off1).structidx i ≠ typeKey)
    (hN : fuelSlots elems ≤ N)
    (tn : Flex) (Q : Nat) (hQ : fuelSlots elems ≤ Q + 1) :
    ∀ (restEs : List Elem) (restVs : List Value), ElemsTy vm restEs restVs →
      ∀ (start : Nat) (d : DStack) (fuel : Nat),
        restEs.length ≤ (vm.getTypeInfo off1).len →
        (vm.getTypeInfo off1).elemtypes.drop
          ((vm.getTypeInfo off1).len - restEs.length) = restEs →
        elems.drop ((vm.getTypeInfo off1).len - restEs.length) = restVs →
        d.stack.length = start + ((vm.getTypeInfo off1).len - restEs.length) →
        fuelSlots restVs < fuel + 12 →
        flexStep fuel vm
            (.mloop ((typeKey, tn) :: (flexOfStep (Q + 1) vm
              (.fields (vm.getTypeInfo off1).structidx 0 elems)).getf)
              off1 ((vm.getTypeInfo off1).len - restEs.length) start) d =
          .ok (pushVs d restVs) := by
  have helL : elems.length = (vm.getTypeInfo off1).len := by
    rw [elemsTy_length helems, hLen]
  intro restEs
  induction restEs with
  | nil =>
    intro restVs hty start d fuel hle hdropE hdropV hstk hfuel
    cases hty with
    | nil =>
      have h16 : fuelSlots ([] : List Value) = 16 := rfl
      cases fuel with
      | zero => omega
      | succ f =>
        rw [flexStep_mloop, if_pos (by simp only [List.length_nil] at hstk; omega)]
        rw [pushVs_nil]
  | cons e es ih =>
    intro restVs hty start d fuel hle hdropE hdropV hstk hfuel
    cases hty with
    | cons hv hrest =>
      rename_i v vs
      simp only [List.length_cons] at hle hdropE hdropV hstk ⊢
      have h34 := fuelSlots_cons_ge v vs
      cases fuel with
      | zero => omega
      | succ f =>
        simp only [fuelSlots] at hfuel
        have hvg := fuelV_ge v
        have hsg := fuelSlots_ge vs
        have hi : (vm.getTypeInfo off1).len - (es.length + 1) < elems.length := by omega
        have hgl := fuelSlots_get_le elems ((vm.getTypeInfo off1).len - (es.length + 1)) hi
        rw [getD_of_drop elems _ v vs .nilVal hdropV] at hgl
        have hne2 : d.stack.length - start = (vm.getTypeInfo off1).len - (es.length + 1) := by
          omega
        have hgetD : (vm.getTypeInfo off1).elemtypes.getD (d.stack.length - start) ⟨0, 0⟩
            = e := by
          rw [hne2]
          exact getD_of_drop (vm.getTypeInfo off1).elemtypes _ e es ⟨0, 0⟩ hdropE
        have hgE : getElemOrParent (vm.getTypeInfo off1) (d.stack.length - start) = e.type := by
          unfold getElemOrParent
          rw [hgetD]
        have hml : mlookup ((typeKey, tn) :: (flexOfStep (Q + 1) vm
            (.fields (vm.getTypeInfo off1).structidx 0 elems)).getf)
            (vm.fieldNames (vm.getTypeInfo off1).structidx
              ((vm.getTypeInfo off1).len - (es.length + 1))) =
          (flexOfStep (Q - ((vm.getTypeInfo off1).len - (es.length + 1))) vm
            (.one v)).get1 := by
          rw [mlookup_cons_ne _ _ (Ne.symm (hnt _ (by omega)))]
          have h2 := flexFieldsLookup vm (vm.getTypeInfo off1).structidx
            (vm.getTypeInfo off1).len hnd elems 0 Q
            ((vm.getTypeInfo off1).len - (es.length + 1)) (by omega) (by omega) (by omega)
          rw [Nat.zero_add] at h2
          rw [getD_of_drop elems _ v vs .nilVal hdropV] at h2
          exact h2
        have hdE2 : (vm.getTypeInfo off1).elemtypes.drop
            ((vm.getTypeInfo off1).len - es.length) = es := by
          rw [show (vm.getTypeInfo off1).len - es.length =
            ((vm.getTypeInfo off1).len - (es.length + 1)) + 1 by omega]
          rw [← List.drop_drop, hdropE]
          rfl
        have hdV2 : elems.drop ((vm.getTypeInfo off1).len - es.length) = vs := by
          rw [show (vm.getTypeInfo off1).len - es.length =
            ((vm.getTypeInfo off1).len - (es.length + 1)) + 1 by omega]
          rw [← List.drop_drop, hdropV]
          rfl
        by_cases hvn : v = .nilVal
        · subst hvn
          rw [flexOne_nilVal] at hml
          have hTnil : (vm.getTypeInfo e.type).t = .vNil := by
            cases hv with
            | nilv h => exact h
            | nilSome h _ => exact h
          rw [flexStep_mloop_null f vm _ off1 _ start d (by omega) hml]
          rw [hgE, hgetD]
          cases f with
          | zero => omega
          | succ f2 =>
            rw [pushDefault_nilT f2 vm e.type e.defval d hTnil]
            show flexStep (f2 + 1) vm
                (.mloop ((typeKey, tn) :: (flexOfStep (Q + 1) vm
                  (.fields (vm.getTypeInfo off1).structidx 0 elems)).getf)
                  off1 ((vm.getTypeInfo off1).len - (es.length + 1) + 1) start)
                (pushV d .nilVal false) =
              .ok (pushVs d (.nilVal :: vs))
            rw [show (vm.getTypeInfo off1).len - (es.length + 1) + 1 =
              (vm.getTypeInfo off1).len - es.length by omega]
            rw [ih vs hrest start (pushV d .nilVal false) (f2 + 1) (by omega) hdE2 hdV2
              (by simp only [pushV, List.length_append, List.length_cons, List.length_nil]
                  omega)
              (by omega)]
            simp [pushVs, pushV, isRefV]
        · rw [show Q - ((vm.getTypeInfo off1).len - (es.length + 1)) =
            (Q - ((vm.getTypeInfo off1).len - (es.length + 1)) - 1) + 1 by omega] at hml
          rw [flexStep_mloop_go f vm _ off1 _ start d _ (by omega) hml
            (flexOne_notNull _ vm v hvn)]
          rw [hgE]
          rw [EP v e.type (by omega) hv
            ((Q - ((vm.getTypeInfo off1).len - (es.length + 1)) - 1) + 1) f d
            (by omega) (by omega)]
          rw [bindE_ok]
          rw [show (vm.getTypeInfo off1).len - (es.length + 1) + 1 =
            (vm.getTypeInfo off1).len - es.length by omega]
          rw [ih vs hrest start (pushV d v (isRefV v)) f (by omega) hdE2 hdV2
            (by simp only [pushV, List.length_append, List.length_cons, List.length_nil]
                omega)
            (by omega)]
          simp only [pushVs_cons]
theorem flexStep_fMapName (fuel : Nat) (vm : VM) (off off1 : Nat) (tn : List Nat)
    (rest : List (List Nat × Flex)) (d : DStack)
    (hoff1 : off1 = if (vm.getTypeInfo off).t = .vNil then (vm.getTypeInfo off).subt else off)
    (hUDT : isUDT (vm.getTypeInfo off1).t = true)
    (htn : tn = structName vm (vm.getTypeInfo off1)) :
    flexStep (fuel + 1) vm (.factor (.fMap ((typeKey, .fString tn) :: rest)) off) d =
      bindE (flexStep fuel vm (.mloop ((typeKey, .fString tn) :: rest) off1 0
          d.stack.length) d) fun d2 =>
        if (vm.getTypeInfo off1).t = .vClass then
          .ok (pushV (popVN d2 (d2.stack.length - d.stack.length))
            (.vObj off1 (lastN d2 (d2.stack.length - d.stack.length))) true)
        else .ok d2 := by
  rw [flexStep_fMap fuel vm off off1 _ d
    (by rw [ifAndTrue (show (Flex.fMap ((typeKey, .fString tn) :: rest)).isNullF = false
        from rfl)]
        exact hoff1)]
  rw [if_neg (by intro hc; rw [hUDT] at hc; cases hc.1)]
  rw [mlookup_cons_eq]
  simp only []
  rw [if_neg (by intro hc; exact hc htn)]
  simp only [bindE_ok]
/-- `FlexBufferParser::ParseFactor` on the encoder-produced map of a
struct element at a struct descriptor: pushes the member slots flat (no
aggregate is built). -/
theorem flexStructFactorRT (vm : VM) (hwf : WF vm) (N : Nat)
    (EP : ∀ v2 off2, fuelV v2 < N → HasTy vm off2 v2 → FlexP vm v2 off2)
    (stoff : Nat) (chunk : List Value)
    (hst : isStructT (vm.getTypeInfo stoff).t = true)
    (hch : ElemsTy vm (vm.getTypeInfo stoff).elemtypes chunk)
    (hN : fuelSlots chunk ≤ N)
    (Q : Nat) (hQ : fuelSlots chunk ≤ Q + 1) :
    ∀ (fuel : Nat) (d : DStack), fuelSlots chunk < fuel + 11 →
      flexStep fuel vm (.factor (.fMap ((typeKey,
          .fString (structName vm (vm.getTypeInfo stoff))) ::
          (flexOfStep (Q + 1) vm (.fields (vm.getTypeInfo stoff).structidx 0 chunk)).getf))
        stoff) d =
      .ok (pushVs d chunk) := by
  intro fuel d hfuel
  have hnn : (vm.getTypeInfo stoff).t ≠ .vNil := by
    rcases isStructT_iff.mp hst with h | h <;> rw [h] <;> intro hc <;> cases hc
  have hAny : (vm.getTypeInfo stoff).t ≠ .vAny := by
    rcases isStructT_iff.mp hst with h | h <;> rw [h] <;> intro hc <;> cases hc
  have hncl : (vm.getTypeInfo stoff).t ≠ .vClass := by
    rcases isStructT_iff.mp hst with h | h <;> rw [h] <;> intro hc <;> cases hc
  have hUDT : isUDT (vm.getTypeInfo stoff).t = true := by
    unfold isUDT
    rw [hst]
    rfl
  obtain ⟨hLen, hPos, _⟩ := hwf.aggLen stoff (inRange hAny) hUDT
  have hge := fuelSlots_ge chunk
  cases fuel with
  | zero => omega
  | succ f =>
    rw [flexStep_fMapName f vm stoff stoff _ _ d (by rw [if_neg hnn]) hUDT rfl]
    have hm := flexMloopRT vm N EP stoff chunk hch hLen
      (hwf.fieldsNodup stoff (inRange hAny) hUDT)
      (hwf.fieldsNotType stoff (inRange hAny) hUDT) hN
      (.fString (structName vm (vm.getTypeInfo stoff))) Q hQ
      (vm.getTypeInfo stoff).elemtypes chunk hch d.stack.length d f hLen.le
      (by rw [hLen, Nat.sub_self]; rfl)
      (by rw [hLen, Nat.sub_self]; rfl)
      (by omega) (by omega)
    rw [show (vm.getTypeInfo stoff).len - (vm.getTypeInfo stoff).elemtypes.length = 0
      by omega] at hm
    rw [hm]
    rw [bindE_ok]
    rw [if_neg hncl]
theorem flexRT_int (vm : VM) (off off1 : Nat) (i : Int)
    (hoff1 : off1 = if (vm.getTypeInfo off).t = .vNil then (vm.getTypeInfo off).subt else off)
    (ht : (vm.getTypeInfo off1).t = .vInt) :
    FlexP vm (.vInt i) off := by
  intro pf fuel d hpf hfuel
  simp only [fuelV] at hpf hfuel
  cases pf with
  | zero => omega
  | succ p =>
    cases fuel with
    | zero => omega
    | succ f =>
      rw [show (flexOfStep (p + 1) vm (.one (.vInt i))).get1 = .fInt i from rfl]
      rw [flexStep_fInt f vm off off1 i d
        (by rw [ifAndTrue (show (Flex.fInt i).isNullF = false from rfl)]; exact hoff1)]
      rw [ht]
      rfl

theorem flexRT_float (vm : VM) (off off1 : Nat) (b : Nat)
    (hoff1 : off1 = if (vm.getTypeInfo off).t = .vNil then (vm.getTypeInfo off).subt else off)
    (ht : (vm.getTypeInfo off1).t = .vFloat) :
    FlexP vm (.vFloat b) off := by
  intro pf fuel d hpf hfuel
  simp only [fuelV] at hpf hfuel
  cases pf with
  | zero => omega
  | succ p =>
    cases fuel with
    | zero => omega
    | succ f =>
      rw [show (flexOfStep (p + 1) vm (.one (.vFloat b))).get1 = .fFloat b from rfl]
      rw [flexStep_fFloat f vm off off1 b d
        (by rw [ifAndTrue (show (Flex.fFloat b).isNullF = false from rfl)]; exact hoff1)]
      rw [ht]
      rfl

theorem flexRT_string (vm : VM) (off off1 : Nat) (s : List Nat)
    (hoff1 : off1 = if (vm.getTypeInfo off).t = .vNil then (vm.getTypeInfo off).subt else off)
    (ht : (vm.getTypeInfo off1).t = .vString) :
    FlexP vm (.vString s) off := by
  intro pf fuel d hpf hfuel
  simp only [fuelV] at hpf hfuel
  cases pf with
  | zero => omega
  | succ p =>
    cases fuel with
    | zero => omega
    | succ f =>
      rw [show (flexOfStep (p + 1) vm (.one (.vString s))).get1 = .fString s from rfl]
      rw [flexStep_fString f vm off off1 s d
        (by rw [ifAndTrue (show (Flex.fString s).isNullF = false from rfl)]; exact hoff1)]
      rw [ht]
      rfl

theorem flexRT_nil (vm : VM) (off : Nat) (ht : (vm.getTypeInfo off).t = .vNil) :
    FlexP vm .nilVal off := by
  intro pf fuel d hpf hfuel
  simp only [fuelV] at hpf hfuel
  cases fuel with
  | zero => omega
  | succ f =>
    rw [flexOne_nilVal]
    rw [flexStep_fNull f vm off d]
    rw [ht]
    rfl

theorem getl_rl (rs : List Flex) : (FRes.rl rs).getl = rs := rfl

theorem flexOfStep_vecSlots_nil (P : Nat) (vm : VM) (stoff : Nat) :
    flexOfStep (P + 1) vm (.vecSlots stoff []) = .rl [] := by
  show (if isStructT (vm.getTypeInfo stoff).t = true then (FRes.rl [] : FRes) else .rl [])
    = .rl []
  split <;> rfl

theorem flexOfStep_vecSlots_cons (P : Nat) (vm : VM) (stoff : Nat) (v : Value)
    (rest : List Value) :
    flexOfStep (P + 1) vm (.vecSlots stoff (v :: rest)) =
      (if isStructT (vm.getTypeInfo stoff).t = true then
        FRes.rl (Flex.fMap ((typeKey, .fString (structName vm (vm.getTypeInfo stoff))) ::
          (flexOfStep P vm (.fields (vm.getTypeInfo stoff).structidx 0
            ((v :: rest).take (vm.getTypeInfo stoff).len))).getf) ::
          (flexOfStep P vm (.vecSlots stoff
            ((v :: rest).drop (vm.getTypeInfo stoff).len))).getl)
      else .rl ((flexOfStep P vm (.one v)).get1 ::
        (flexOfStep P vm (.vecSlots stoff rest)).getl)) := rfl

/-- Vector child loop of the flex parser over the encoder-produced node
list: scalar-width elements push one by one, struct elements push their
member slots flat. -/
theorem flexVloopRT (vm : VM) (hwf : WF vm) (N : Nat)
    (EP : ∀ v2 off2, fuelV v2 < N → HasTy vm off2 v2 → FlexP vm v2 off2) :
    ∀ (n : Nat) (slots : List Value) (stoff : Nat), slots.length ≤ n →
      VecSlots vm stoff slots → fuelSlots slots ≤ N →
      ∀ (d : DStack) (fuel P : Nat),
        fuelSlots slots < fuel + 8 → fuelSlots slots < P + 1 →
        flexStep fuel vm
            (.vloop ((flexOfStep (P + 1) vm (.vecSlots stoff slots)).getl) stoff) d =
          .ok (pushVs d slots) := by
  intro n
  induction n with
  | zero =>
    intro slots stoff hn hvs hN d fuel P hfuel hP
    have hnil : slots = [] := List.eq_nil_of_length_eq_zero (by omega)
    subst hnil
    cases fuel with
    | zero => simp only [fuelSlots] at hfuel; omega
    | succ f =>
      rw [flexOfStep_vecSlots_nil, getl_rl, flexStep_vloop_nil, pushVs_nil]
  | succ n ihn =>
    intro slots stoff hn hvs hN d fuel P hfuel hP
    cases hvs with
    | nil =>
      cases fuel with
      | zero => simp only [fuelSlots] at hfuel; omega
      | succ f =>
        rw [flexOfStep_vecSlots_nil, getl_rl, flexStep_vloop_nil, pushVs_nil]
    | consScalar hsc hv hrest =>
      rename_i v rest
      have h34 := fuelSlots_cons_ge v rest
      have hvg := fuelV_ge v
      have hsg := fuelSlots_ge rest
      simp only [fuelSlots] at hfuel hP hN
      cases fuel with
      | zero => omega
      | succ f =>
        cases P with
        | zero => omega
        | succ p2 =>
          rw [flexOfStep_vecSlots_cons, if_neg (by simp [hsc]), getl_rl]
          rw [flexStep_vloop_cons]
          rw [EP v stoff (by omega) hv (p2 + 1) f d (by omega) (by omega)]
          rw [bindE_ok]
          rw [ihn rest stoff (by simp only [List.length_cons] at hn; omega) hrest
            (by omega) (pushV d v (isRefV v)) f p2 (by omega) (by omega)]
          simp only [pushVs_cons]
    | consChunk hst hch hrest =>
      rename_i chunk rest
      have hUDT : isUDT (vm.getTypeInfo stoff).t = true := by
        unfold isUDT
        rw [hst]
        rfl
      have hAny : (vm.getTypeInfo stoff).t ≠ .vAny := by
        rcases isStructT_iff.mp hst with h | h <;> rw [h] <;> intro hc <;> cases hc
      obtain ⟨hLen, hPos, _⟩ := hwf.aggLen stoff (inRange hAny) hUDT
      have hcl : chunk.length = (vm.getTypeInfo stoff).len := by
        rw [elemsTy_length hch, hLen]
      have h34 : 34 ≤ fuelSlots chunk := by
        cases chunk with
        | nil => simp only [List.length_nil] at hcl; omega
        | cons a b => exact fuelSlots_cons_ge a b
      have hfsa := fuelSlots_append chunk rest
      have hgr := fuelSlots_ge rest
      have hchne : chunk ≠ [] := by
        intro hc; rw [hc] at hcl; simp only [List.length_nil] at hcl; omega
      obtain ⟨c0, ck, hc⟩ : ∃ c0 ck, chunk = c0 :: ck := by
        cases chunk with
        | nil => exact absurd rfl hchne
        | cons a b => exact ⟨a, b, rfl⟩
      cases fuel with
      | zero => omega
      | succ f =>
        cases P with
        | zero => omega
        | succ p2 =>
          have htake : (chunk ++ rest).take (vm.getTypeInfo stoff).len = chunk := by
            rw [← hcl]; exact List.take_left chunk rest
          have hdropq : (chunk ++ rest).drop (vm.getTypeInfo stoff).len = rest := by
            rw [← hcl]; exact List.drop_left chunk rest
          have henc : (flexOfStep (p2 + 1 + 1) vm (.vecSlots stoff (chunk ++ rest))).getl =
              Flex.fMap ((typeKey, .fString (structName vm (vm.getTypeInfo stoff))) ::
                (flexOfStep (p2 + 1) vm
                  (.fields (vm.getTypeInfo stoff).structidx 0 chunk)).getf) ::
              (flexOfStep (p2 + 1) vm (.vecSlots stoff rest)).getl := by
            rw [hc] at htake hdropq ⊢
            simp only [List.cons_append]
            rw [flexOfStep_vecSlots_cons, if_pos hst, getl_rl]
            simp only [List.cons_append] at htake hdropq
            rw [htake, hdropq]
          rw [henc]
          rw [flexStep_vloop_cons]
          rw [flexStructFactorRT vm hwf N EP stoff chunk hst hch (by omega) p2
            (by omega) f d (by omega)]
          rw [bindE_ok]
          rw [ihn rest stoff
            (by rw [hc] at hn
                simp only [List.cons_append, List.length_cons, List.length_append] at hn
                omega)
            hrest (by omega) (pushVs d chunk) f p2 (by omega) (by omega)]
          rw [pushVs_append]
theorem flexRT_vec (vm : VM) (hwf : WF vm) (N : Nat)
    (EP : ∀ v2 off2, fuelV v2 < N → HasTy vm off2 v2 → FlexP vm v2 off2)
    (off off1 : Nat) (slots : List Value)
    (hoff1 : off1 = if (vm.getTypeInfo off).t = .vNil then (vm.getTypeInfo off).subt else off)
    (ht : (vm.getTypeInfo off1).t = .vVector)
    (hslots : VecSlots vm (vm.getTypeInfo off1).subt slots)
    (hN : fuelSlots slots ≤ N) :
    FlexP vm (.vVec off1 slots) off := by
  intro pf fuel d hpf hfuel
  simp only [fuelV] at hpf hfuel
  have hsg := fuelSlots_ge slots
  cases pf with
  | zero => omega
  | succ p =>
    cases fuel with
    | zero => omega
    | succ f =>
      rw [show (flexOfStep (p + 1) vm (.one (.vVec off1 slots))).get1 =
        .fVec ((flexOfStep p vm (.vecSlots (vm.getTypeInfo off1).subt slots)).getl)
        from rfl]
      rw [flexStep_fVec f vm off off1 _ d
        (by rw [ifAndTrue (show (Flex.fVec ((flexOfStep p vm
              (.vecSlots (vm.getTypeInfo off1).subt slots)).getl)).isNullF = false
            from rfl)]
            exact hoff1)]
      rw [ht]
      rw [show expectType .vVector .vVector = .ok () from rfl, bindE_ok]
      cases p with
      | zero => omega
      | succ p2 =>
        rw [flexVloopRT vm hwf N EP slots.length slots (vm.getTypeInfo off1).subt
          (le_refl _) hslots hN d f p2 (by omega) (by omega)]
        rw [bindE_ok]
        have hl2 : (pushVs d slots).stack.length - d.stack.length = slots.length := by
          rw [pushVs_stack_length]; omega
        rw [hl2, lastN_pushVs, popVN_pushVs]
        rfl

theorem flexRT_obj (vm : VM) (hwf : WF vm) (N : Nat)
    (EP : ∀ v2 off2, fuelV v2 < N → HasTy vm off2 v2 → FlexP vm v2 off2)
    (off off1 : Nat) (elems : List Value)
    (hoff1 : off1 = if (vm.getTypeInfo off).t = .vNil then (vm.getTypeInfo off).subt else off)
    (ht : (vm.getTypeInfo off1).t = .vClass)
    (helems : ElemsTy vm (vm.getTypeInfo off1).elemtypes elems)
    (hN : fuelSlots elems ≤ N) :
    FlexP vm (.vObj off1 elems) off := by
  intro pf fuel d hpf hfuel
  simp only [fuelV] at hpf hfuel
  have hAny : (vm.getTypeInfo off1).t ≠ .vAny := by rw [ht]; intro hc; cases hc
  have hUDT : isUDT (vm.getTypeInfo off1).t = true := by
    unfold isUDT isStructT
    rw [ht]
    rfl
  obtain ⟨hLen, hPos, _⟩ := hwf.aggLen off1 (inRange hAny) hUDT
  have hel : elems.length = (vm.getTypeInfo off1).len := by
    rw [elemsTy_length helems, hLen]
  have hsg := fuelSlots_ge elems
  cases pf with
  | zero => omega
  | succ p =>
    cases fuel with
    | zero => omega
    | succ f =>
      rw [show (flexOfStep (p + 1) vm (.one (.vObj off1 elems))).get1 =
        .fMap ((typeKey, .fString (structName vm (vm.getTypeInfo off1))) ::
          (flexOfStep p vm (.fields (vm.getTypeInfo off1).structidx 0 elems)).getf)
        from rfl]
      rw [flexStep_fMapName f vm off off1 _ _ d hoff1 hUDT rfl]
      cases p with
      | zero => omega
      | succ p2 =>
        have hm := flexMloopRT vm N EP off1 elems helems hLen
          (hwf.fieldsNodup off1 (inRange hAny) hUDT)
          (hwf.fieldsNotType off1 (inRange hAny) hUDT) hN
          (.fString (structName vm (vm.getTypeInfo off1))) p2 (by omega)
          (vm.getTypeInfo off1).elemtypes elems helems d.stack.length d f hLen.le
          (by rw [hLen, Nat.sub_self]; rfl)
          (by rw [hLen, Nat.sub_self]; rfl)
          (by omega) (by omega)
        rw [show (vm.getTypeInfo off1).len - (vm.getTypeInfo off1).elemtypes.length = 0
          by omega] at hm
        rw [hm]
        rw [bindE_ok]
        rw [if_pos ht]
        have hl2 : (pushVs d elems).stack.length - d.stack.length = elems.length := by
          rw [pushVs_stack_length]; omega
        rw [hl2, lastN_pushVs, popVN_pushVs]
        rfl

/-- Self-describing-format round trip for a single value: parsing the
flex node the encoder produced for a well-typed value at the matching
descriptor pushes exactly that value. -/
theorem flexElemRT (vm : VM) (hwf : WF vm) :
    ∀ (N : Nat) (v : Value) (off : Nat), fuelV v ≤ N →
      HasTy vm off v → FlexP vm v off := by
  intro N
  induction N using Nat.strong_induction_on with
  | _ N IH =>
    intro v off hN hty
    have EP : ∀ v2 off2, fuelV v2 < N → HasTy vm off2 v2 → FlexP vm v2 off2 :=
      fun v2 off2 h2 ht2 => IH (fuelV v2) h2 v2 off2 (le_refl _) ht2
    cases hty with
    | int ht =>
      exact flexRT_int vm off off _ (by rw [if_neg (by rw [ht]; intro hc; cases hc)]) ht
    | float ht hb =>
      exact flexRT_float vm off off _ (by rw [if_neg (by rw [ht]; intro hc; cases hc)]) ht
    | str ht hbs =>
      exact flexRT_string vm off off _ (by rw [if_neg (by rw [ht]; intro hc; cases hc)]) ht
    | nilv ht =>
      exact flexRT_nil vm off ht
    | vec ht hslots =>
      simp only [fuelV] at hN
      exact flexRT_vec vm hwf N EP off off _
        (by rw [if_neg (by rw [ht]; intro hc; cases hc)]) ht hslots (by omega)
    | obj ht helems =>
      simp only [fuelV] at hN
      exact flexRT_obj vm hwf N EP off off _
        (by rw [if_neg (by rw [ht]; intro hc; cases hc)]) ht helems (by omega)
    | nilSome ht inner =>
      have hsubt := hwf.nilSub off (inRange (by rw [ht]; intro hc; cases hc)) ht
      cases inner with
      | int ht2 => rcases hsubt with h | h | h <;> rw [ht2] at h <;> cases h
      | float ht2 hb => rcases hsubt with h | h | h <;> rw [ht2] at h <;> cases h
      | nilv ht2 => rcases hsubt with h | h | h <;> rw [ht2] at h <;> cases h
      | nilSome ht2 inner2 => rcases hsubt with h | h | h <;> rw [ht2] at h <;> cases h
      | str ht2 hbs =>
        exact flexRT_string vm off (vm.getTypeInfo off).subt _ (by rw [if_pos ht]) ht2
      | vec ht2 hslots =>
        simp only [fuelV] at hN
        exact flexRT_vec vm hwf N EP off (vm.getTypeInfo off).subt _
          (by rw [if_pos ht]) ht2 hslots (by omega)
      | obj ht2 helems =>
        simp only [fuelV] at hN
        exact flexRT_obj vm hwf N EP off (vm.getTypeInfo off).subt _
          (by rw [if_pos ht]) ht2 helems (by omega)

/-- Entry-point self-describing round trip: `ParseFlexData` on the
encoder output returns that value with no error. -/
theorem flexDataRT (vm : VM) (hwf : WF vm) (v : Value) (off : Nat) (pf fuel : Nat)
    (hty : HasTy vm off v) (hpf : fuelV v < pf) (hfuel : fuelV v < fuel) :
    parseFlexData fuel vm off (flexOf pf vm v) = (v, none) := by
  have hP := flexElemRT vm hwf (fuelV v) v off (le_refl _) hty
  have hstep := hP pf fuel ⟨[], []⟩ hpf hfuel
  simp only [parseFlexData, parseFlex, flexOf, hstep]
  simp [popV, pushV]
theorem defStep_loop_nil (f : Nat) (vm : VM) (d : DStack) :
    defStep (f + 1) vm (.loop []) d = (true, d) := rfl

theorem defStep_loop_cons (f : Nat) (vm : VM) (e : Elem) (es : List Elem) (d : DStack) :
    defStep (f + 1) vm (.loop (e :: es)) d =
      (true, (defStep f vm (.loop es) (defStep f vm (.one e.type e.defval) d).2).2) := rfl

/-- The default synthesizer produces exactly the `DefaultOf` value of a
type with a representable default, and the aggregate member loop pushes
the member defaults in declaration order. -/
theorem defaultOf_push (vm : VM) :
    ∀ (N : Nat),
      (∀ (v : Value) (off : Nat) (dv : Int), fuelV v ≤ N → DefaultOf vm off dv v →
        ∀ (fuel : Nat) (d : DStack), fuelV v < fuel + 1 →
          pushDefault fuel vm off dv d = (true, pushV d v (isRefV v))) ∧
      (∀ (es : List Elem) (dvs : List Value), fuelSlots dvs ≤ N →
        DefaultsElems vm es dvs →
        ∀ (fuel : Nat) (d : DStack), fuelSlots dvs < fuel + 14 →
          defStep fuel vm (.loop es) d = (true, pushVs d dvs)) := by
  intro N
  induction N using Nat.strong_induction_on with
  | _ N IH =>
    constructor
    · intro v off dv hN hdef fuel d hfuel
      cases hdef with
      | int ht =>
        simp only [fuelV] at hfuel
        cases fuel with
        | zero => omega
        | succ f =>
          show defStep (f + 1) vm (.one off dv) d = _
          rw [defStep_one, ht]
          rfl
      | float ht =>
        simp only [fuelV] at hfuel
        cases fuel with
        | zero => omega
        | succ f =>
          show defStep (f + 1) vm (.one off dv) d = _
          rw [defStep_one, ht]
          rfl
      | nilv ht =>
        simp only [fuelV] at hfuel
        cases fuel with
        | zero => omega
        | succ f =>
          show defStep (f + 1) vm (.one off dv) d = _
          rw [defStep_one, ht]
          rfl
      | vec ht =>
        simp only [fuelV] at hfuel
        cases fuel with
        | zero => omega
        | succ f =>
          show defStep (f + 1) vm (.one off dv) d = _
          rw [defStep_one, ht]
          rfl
      | obj ht hels hlen =>
        rename_i dvs
        simp only [fuelV] at hN hfuel
        have hsg := fuelSlots_ge dvs
        cases fuel with
        | zero => omega
        | succ f =>
          show defStep (f + 1) vm (.one off dv) d = _
          rw [defStep_one, ht]
          show (true, pushV
              (popVN (defStep f vm (.loop (vm.getTypeInfo off).elemtypes) d).2
                (vm.getTypeInfo off).len)
              (.vObj off (lastN (defStep f vm (.loop (vm.getTypeInfo off).elemtypes) d).2
                (vm.getTypeInfo off).len)) true) = _
          rw [(IH (fuelSlots dvs) (by omega)).2 (vm.getTypeInfo off).elemtypes dvs
            (le_refl _) hels f d (by omega)]
          rw [show (vm.getTypeInfo off).len = dvs.length from hlen.symm]
          rw [lastN_pushVs, popVN_pushVs]
          rfl
    · intro es dvs hN hdels fuel d hfuel
      cases hdels with
      | nil =>
        simp only [fuelSlots] at hfuel
        cases fuel with
        | zero => omega
        | succ f =>
          rw [defStep_loop_nil, pushVs_nil]
      | cons hv hrest =>
        rename_i e es2 v vs
        simp only [fuelSlots] at hN hfuel
        have hvg := fuelV_ge v
        have hsg := fuelSlots_ge vs
        cases fuel with
        | zero => omega
        | succ f =>
          rw [defStep_loop_cons]
          show (true, (defStep f vm (.loop es2) (pushDefault f vm e.type e.defval d).2).2)
            = _
          rw [(IH (fuelV v) (by omega)).1 v e.type e.defval (le_refl _) hv f d (by omega)]
          show (true, (defStep f vm (.loop es2) (pushV d v (isRefV v))).2) = _
          rw [(IH (fuelSlots vs) (by omega)).2 es2 vs (le_refl _) hrest f
            (pushV d v (isRefV v)) (by omega)]
          simp only [pushVs_cons]

theorem pushDefault_of (vm : VM) (v : Value) (off : Nat) (dv : Int)
    (hdef : DefaultOf vm off dv v) (fuel : Nat) (d : DStack) (hfuel : fuelV v < fuel + 1) :
    pushDefault fuel vm off dv d = (true, pushV d v (isRefV v)) :=
  (defaultOf_push vm (fuelV v)).1 v off dv (le_refl _) hdef fuel d hfuel

theorem defaultsElems_pushVs (vm : VM) (es : List Elem) (dvs : List Value)
    (hdels : DefaultsElems vm es dvs) (fuel : Nat) (d : DStack)
    (hfuel : fuelSlots dvs < fuel + 14) :
    defStep fuel vm (.loop es) d = (true, pushVs d dvs) :=
  (defaultOf_push vm (fuelSlots dvs)).2 es dvs (le_refl _) hdels fuel d hfuel
/-- Default-fill phase of the class member loop: once the wrapped element
count is no greater than the members already read, every remaining member
is synthesized by `PushDefault` without moving the byte cursor. -/
theorem binCloopFillRT (vm : VM) :
    ∀ (restEs : List Elem) (dvs : List Value), DefaultsElems vm restEs dvs →
      ∀ (ti : TypeInfo) (elen : Int) (start : Nat) (mem : List Nat) (pos endp : Nat)
        (d : DStack) (fuel : Nat),
        ti.elemtypes.length = ti.len →
        restEs.length ≤ ti.len →
        ti.elemtypes.drop (ti.len - restEs.length) = restEs →
        d.stack.length = start + (ti.len - restEs.length) →
        elen ≤ ((ti.len - restEs.length : Nat) : Int) →
        fuelSlots dvs < fuel + 12 →
        binStep fuel vm (.cloop ti elen start) ⟨mem, pos, endp, d⟩ =
          .ok ⟨mem, pos, endp, pushVs d dvs⟩ := by
  intro restEs
  induction restEs with
  | nil =>
    intro dvs hdels ti elen start mem pos endp d fuel hLen hle hdrop hstk helen hfuel
    cases hdels with
    | nil =>
      have h16 : fuelSlots ([] : List Value) = 16 := rfl
      cases fuel with
      | zero => omega
      | succ f =>
        rw [binStep_cloop]
        simp only []
        rw [if_pos (by simp only [List.length_nil] at hstk; omega)]
        rw [pushVs_nil]
  | cons e es ih =>
    intro dvs hdels ti elen start mem pos endp d fuel hLen hle hdrop hstk helen hfuel
    cases hdels with
    | cons hv hrest =>
      rename_i v vs
      simp only [fuelSlots] at hfuel
      simp only [List.length_cons] at hle hdrop hstk helen
      have hvg := fuelV_ge v
      have hsg := fuelSlots_ge vs
      cases fuel with
      | zero => omega
      | succ f =>
        have hne : d.stack.length - start = ti.len - (es.length + 1) := by omega
        have hgetD : ti.elemtypes.getD (d.stack.length - start) ⟨0, 0⟩ = e := by
          apply getD_of_drop ti.elemtypes (d.stack.length - start) e es
          rw [hne]
          exact hdrop
        rw [binStep_cloop]
        simp only []
        rw [if_neg (by omega)]
        rw [if_pos (by omega : elen ≤ ((d.stack.length - start : Nat) : Int))]
        unfold getElemOrParent
        rw [hgetD]
        rw [pushDefault_of vm v e.type e.defval hv f d (by omega)]
        show binStep f vm (.cloop ti elen start) ⟨mem, pos, endp, pushV d v (isRefV v)⟩ =
          .ok ⟨mem, pos, endp, pushVs d (v :: vs)⟩
        rw [ih vs hrest ti elen start mem pos endp (pushV d v (isRefV v)) f hLen (by omega)
          (by rw [show ti.len - es.length = (ti.len - (es.length + 1)) + 1 by omega]
              rw [← List.drop_drop, hdrop]
              rfl)
          (by simp only [pushV, List.length_append, List.length_cons, List.length_nil]
              omega)
          (by omega) (by omega)]
        simp only [pushVs_cons]

/-- Partial-parse phase of the class member loop: with the wrapped element
count `n` between the members already read and the descriptor's member
count, the next encoded members are read in declaration order up to `n`
and the shortfall is synthesized by `PushDefault`. -/
theorem binCloopPartRT (vm : VM) (N : Nat)
    (EP : ∀ v2 off2, fuelV v2 < N → HasTy vm off2 v2 → SOK vm off2 v2 → BinElemP vm v2 off2) :
    ∀ (firstEs restEs : List Elem) (fvs dvs : List Value),
      ElemsTy vm firstEs fvs → SOKElems vm firstEs fvs → DefaultsElems vm restEs dvs →
      fuelSlots fvs ≤ N →
      ∀ (ti : TypeInfo) (start : Nat) (d : DStack) (fuel : Nat)
        (pre post : List Nat) (endp : Nat),
        ti.elemtypes.length = ti.len →
        firstEs.length + restEs.length ≤ ti.len →
        ti.elemtypes.drop (ti.len - (firstEs.length + restEs.length)) = firstEs ++ restEs →
        d.stack.length = start + (ti.len - (firstEs.length + restEs.length)) →
        fuelSlots fvs + fuelSlots dvs < fuel + 12 →
        pre.length + (encSchemaL vm fvs).length ≤ endp →
        endp ≤ pre.length + ((encSchemaL vm fvs).length + post.length) →
        binStep fuel vm (.cloop ti ((ti.len - restEs.length : Nat) : Int) start)
            ⟨pre ++ (encSchemaL vm fvs ++ post), pre.length, endp, d⟩ =
          .ok ⟨pre ++ (encSchemaL vm fvs ++ post),
            pre.length + (encSchemaL vm fvs).length, endp, pushVs d (fvs ++ dvs)⟩ := by
  intro firstEs
  induction firstEs with
  | nil =>
    intro restEs fvs dvs hty hsok hdels hN ti start d fuel pre post endp hLen hle hdrop
      hstk hfuel h1 h2
    cases hty
    have h16 : fuelSlots ([] : List Value) = 16 := rfl
    rw [show encSchemaL vm [] = [] from rfl]
    simp only [List.length_nil, Nat.add_zero, List.nil_append]
    rw [binCloopFillRT vm restEs dvs hdels ti _ start (pre ++ post) pre.length endp d fuel
      hLen (by simp only [List.length_nil, Nat.zero_add] at hle hdrop hstk ⊢; omega)
      (by simp only [List.length_nil, Nat.zero_add] at hdrop; exact hdrop)
      (by simp only [List.length_nil, Nat.zero_add] at hstk; omega)
      (by omega) (by omega)]
  | cons e es ih =>
    intro restEs fvs dvs hty hsok hdels hN ti start d fuel pre post endp hLen hle hdrop
      hstk hfuel h1 h2
    cases hty with
    | cons hv hvs =>
      rename_i v vs
      cases hsok with
      | cons hsv hsvs =>
        cases fuel with
        | zero => simp only [fuelSlots] at hfuel; omega
        | succ f =>
          simp only [fuelSlots] at hN hfuel
          simp only [List.length_cons] at hstk hle hdrop
          have hvg := fuelV_ge v
          have hsg := fuelSlots_ge vs
          have hsd := fuelSlots_ge dvs
          have hne : d.stack.length - start = ti.len - (es.length + 1 + restEs.length) := by
            omega
          have hgetD : ti.elemtypes.getD (d.stack.length - start) ⟨0, 0⟩ = e := by
            apply getD_of_drop ti.elemtypes (d.stack.length - start) e (es ++ restEs)
            rw [hne]
            rw [show es.length + 1 + restEs.length = (e :: es).length + restEs.length
              from by simp]
            rw [show ti.len - ((e :: es).length + restEs.length) =
              ti.len - ((e :: es).length + restEs.length) from rfl]
            simp only [List.length_cons] at hdrop ⊢
            rw [hdrop]
            rfl
          have hencL : encSchemaL vm (v :: vs) = encSchema vm v ++ encSchemaL vm vs := by
            simp [encSchemaL]
          rw [hencL] at h1 h2 ⊢
          simp only [List.length_append] at h1 h2
          rw [binStep_cloop]
          simp only []
          rw [if_neg (by omega)]
          rw [if_neg (by omega :
            ¬(((ti.len - restEs.length : Nat) : Int) ≤ ((d.stack.length - start : Nat) : Int)))]
          unfold getElemOrParent
          rw [hgetD]
          rw [show pre ++ ((encSchema vm v ++ encSchemaL vm vs) ++ post) =
            pre ++ (encSchema vm v ++ (encSchemaL vm vs ++ post)) by simp]
          rw [EP v e.type (by omega) hv hsv f pre (encSchemaL vm vs ++ post) endp d (by omega)
            (by omega) (by simp only [List.length_append]; omega)]
          rw [bindE_ok]
          rw [show pre ++ (encSchema vm v ++ (encSchemaL vm vs ++ post)) =
            (pre ++ encSchema vm v) ++ (encSchemaL vm vs ++ post) by simp]
          rw [show pre.length + (encSchema vm v).length = (pre ++ encSchema vm v).length
            by simp]
          rw [ih restEs vs dvs hvs hsvs hdels (by omega) ti start (pushV d v (isRefV v)) f
            (pre ++ encSchema vm v) post endp hLen (by omega)
            (by rw [show ti.len - (es.length + restEs.length) =
                  (ti.len - (es.length + 1 + restEs.length)) + 1 by omega]
                rw [← List.drop_drop]
                rw [show ti.len - (es.length + 1 + restEs.length) =
                  ti.len - (es.length + 1 + restEs.length) from rfl]
                have hdrop2 : ti.elemtypes.drop (ti.len - (es.length + 1 + restEs.length)) =
                    e :: (es ++ restEs) := by
                  rw [show es.length + 1 + restEs.length = es.length + 1 + restEs.length
                    from rfl]
                  simp only [List.cons_append] at hdrop
                  exact hdrop
                rw [hdrop2]
                rfl)
            (by simp only [pushV, List.length_append, List.length_cons, List.length_nil]
                omega)
            (by omega)
            (by simp only [List.length_append]; omega)
            (by simp only [List.length_append]; omega)]
          simp only [Except.ok.injEq, BinSt.mk.injEq, pushVs, pushV, List.append_assoc,
            List.length_append, List.map_cons, List.cons_append, List.nil_append, List.map]
          refine ⟨trivial, by omega, trivial, rfl⟩
/-- The example VM satisfies every well-formedness fact the runtime
guarantees. -/
theorem egWF : WF egVM := by
  refine ⟨?_, ?_, ?_, ?_, ?_, ?_, ?_⟩ <;> decide
/-- C1: parsing the printed textual form or the self-describing encoding
of any well-typed value of a serializable type returns that value with no
error; the schema-binary round trip additionally needs the side condition
that no empty string or empty vector occupies a nilable position, since
its zero length prefix decodes to nil there. -/
theorem C1_roundtrip (vm : VM) (hwf : WF vm) (v : Value) (off : Nat)
    (pf fuel : Nat) (hty : HasTy vm off v) (hpf : fuelV v < pf) (hfuel : fuelV v < fuel) :
    parseData fuel vm off (printVal pf vm v) = (v, none) ∧
    parseFlexData fuel vm off (flexOf pf vm v) = (v, none) ∧
    (SOK vm off v →
      parseLobsterBinaryData fuel vm off (encSchema vm v) (encSchema vm v).length =
        (v, none)) :=
  ⟨textDataRT vm hwf v off pf fuel hty hpf hfuel,
   flexDataRT vm hwf v off pf fuel hty hpf hfuel,
   fun hsok => binDataRT vm hwf v off fuel hty hsok hfuel⟩

theorem C1_roundtrip_witness :
    parseData 100 egVM 6 (printVal 100 egVM (.vObj 6 [.vInt 5, .vString [65]])) =
      (.vObj 6 [.vInt 5, .vString [65]], none) ∧
    parseFlexData 100 egVM 6 (flexOf 100 egVM (.vObj 6 [.vInt 5, .vString [65]])) =
      (.vObj 6 [.vInt 5, .vString [65]], none) ∧
    (SOK egVM 6 (.vObj 6 [.vInt 5, .vString [65]]) →
      parseLobsterBinaryData 100 egVM 6
          (encSchema egVM (.vObj 6 [.vInt 5, .vString [65]]))
          (encSchema egVM (.vObj 6 [.vInt 5, .vString [65]])).length =
        (.vObj 6 [.vInt 5, .vString [65]], none)) :=
  C1_roundtrip egVM egWF (.vObj 6 [.vInt 5, .vString [65]]) 6 100 100
    (.obj rfl (.cons (.int rfl)
      (.cons (.nilSome rfl (.str rfl (by intro b hb; cases hb with
        | head => decide
        | tail _ hb2 => cases hb2))) .nil)))
    (by decide) (by decide)

/-- An empty string at a nilable position defeats the schema-binary round
trip: its zero length prefix decodes to nil rather than back to the empty
string. -/
theorem C1_counterexample :
    HasTy egVM 4 (.vString []) ∧
    parseLobsterBinaryData 10 egVM 4 (encSchema egVM (.vString []))
        (encSchema egVM (.vString [])).length = (.nilVal, none) ∧
    Value.nilVal ≠ .vString [] :=
  ⟨.nilSome rfl (.str rfl (by intro b hb; cases hb)), rfl, by intro h; cases h⟩

/-- C3: the string read of the schema-binary parser advances the byte
cursor past the end bound without the truncation error: with end bound 2
over the materialized bytes `[2, 65, 66, 67]`, the declared length 2 makes
it read positions 1 and 2 — the latter at the bound — and return the
string with no error, while the float read of the same shape is properly
rejected as truncated. -/
theorem C3_string_overread :
    parseLobsterBinaryData 10 egVM 3 [2, 65, 66, 67] 2 = (.vString [65, 66], none) ∧
    parseLobsterBinaryData 10 egVM 2 [2, 65, 66, 67] 2 = (.nilVal, some .truncated) :=
  ⟨rfl, rfl⟩

/-- C5: each public entry point pairs the outcome exactly: a successful
parse returns its value with no error, a fatal error returns the nil
value with that error — nothing else is ever returned. -/
theorem C5_error_pairing (fuel : Nat) (vm : VM) (off : Nat) (toks : List Token)
    (mem : List Nat) (size : Nat) (r : Flex) :
    ((∃ v, textParse fuel vm off toks = .ok v ∧ parseData fuel vm off toks = (v, none)) ∨
      (∃ e, textParse fuel vm off toks = .error e ∧
        parseData fuel vm off toks = (.nilVal, some e))) ∧
    ((∃ v, parseLobsterBinary fuel vm off mem size = .ok v ∧
        parseLobsterBinaryData fuel vm off mem size = (v, none)) ∨
      (∃ e, parseLobsterBinary fuel vm off mem size = .error e ∧
        parseLobsterBinaryData fuel vm off mem size = (.nilVal, some e))) ∧
    ((∃ v, parseFlex fuel vm off r = .ok v ∧ parseFlexData fuel vm off r = (v, none)) ∨
      (∃ e, parseFlex fuel vm off r = .error e ∧
        parseFlexData fuel vm off r = (.nilVal, some e))) := by
  refine ⟨?_, ?_, ?_⟩
  · cases h : textParse fuel vm off toks with
    | ok v => exact .inl ⟨v, rfl, by simp only [parseData, h]⟩
    | error e => exact .inr ⟨e, rfl, by simp only [parseData, h]⟩
  · cases h : parseLobsterBinary fuel vm off mem size with
    | ok v => exact .inl ⟨v, rfl, by simp only [parseLobsterBinaryData, h]⟩
    | error e => exact .inr ⟨e, rfl, by simp only [parseLobsterBinaryData, h]⟩
  · cases h : parseFlex fuel vm off r with
    | ok v => exact .inl ⟨v, rfl, by simp only [parseFlexData, h]⟩
    | error e => exact .inr ⟨e, rfl, by simp only [parseFlexData, h]⟩

/-- C7: a zero unsigned varint prefix at a position whose declared type is
the nilable wrapper of a string, vector or class decodes to nil and
advances the cursor by exactly the prefix. -/
theorem C7_nil_prefix (vm : VM) (off : Nat)
    (ht : (vm.getTypeInfo off).t = .vNil)
    (hsub : (vm.getTypeInfo (vm.getTypeInfo off).subt).t = .vString ∨
      (vm.getTypeInfo (vm.getTypeInfo off).subt).t = .vVector ∨
      (vm.getTypeInfo (vm.getTypeInfo off).subt).t = .vClass) :
    ∀ (fuel : Nat) (pre post : List Nat) (endp : Nat) (d : DStack),
      pre.length + 1 ≤ endp → endp ≤ pre.length + (1 + post.length) →
      binStep (fuel + 1) vm (.elem off) ⟨pre ++ ([0] ++ post), pre.length, endp, d⟩ =
        .ok ⟨pre ++ ([0] ++ post), pre.length + 1, endp, pushV d .nilVal false⟩ := by
  intro fuel pre post endp d h1 h2
  rw [binStep_elem fuel vm off (vm.getTypeInfo off).subt _ _ _ _ (by rw [if_pos ht])]
  rw [if_neg (by omega)]
  rw [show ([0] : List Nat) = encVarU 0 from rfl]
  have hlen0 : (encVarU 0).length = 1 := rfl
  have hdec := decVarU_enc 0 pre post endp (by omega) (by omega)
  rcases hsub with hq | hq | hq
  · rw [hq, hdec]
    simp only [bindE_ok]
    rw [if_pos ⟨trivial, ht⟩]
    rfl
  · rw [hq, hdec]
    simp only [bindE_ok]
    rw [if_pos ⟨trivial, ht⟩]
    rfl
  · rw [hq, hdec]
    simp only [bindE_ok]
    rw [if_pos ⟨by decide, ht⟩]
    rfl

theorem C7_nil_prefix_witness :
    binStep (9 + 1) egVM (.elem 4) ⟨[0], 0, 1, ⟨[], []⟩⟩ =
      .ok ⟨[0], 1, 1, pushV ⟨[], []⟩ .nilVal false⟩ :=
  C7_nil_prefix egVM 4 rfl (.inl rfl) 9 [] [] 1 ⟨[], []⟩ (by decide) (by decide)

/-- A nonzero prefix that also decodes to nil: the zero-length prefix is
not the sole nil encoding at a nilable class position, because the
element count is narrowed to 32 bits before the nil check, so the count
4294967296 wraps to zero and reads as nil. -/
theorem C7_counterexample :
    (egVM.getTypeInfo 7).t = .vNil ∧
    encVarU 4294967296 ≠ [0] ∧
    parseLobsterBinaryData 10 egVM 7 (encVarU 4294967296)
        (encVarU 4294967296).length = (.nilVal, none) :=
  ⟨rfl, by decide, rfl⟩

theorem lookupSubClassGo_none (vm : VM) (b : Nat) :
    ∀ us : List UDT, (lookupSubClassGo vm b us = none ↔
      ∀ u ∈ us, ¬(u.super_idx = (b : Int) ∧ 0 ≤ u.typeidx)) := by
  intro us
  induction us with
  | nil => simp [lookupSubClassGo]
  | cons u rest ih =>
    unfold lookupSubClassGo
    by_cases hc : u.super_idx = (b : Int) ∧ 0 ≤ u.typeidx
    · rw [if_pos (by simp [hc.1, hc.2])]
      constructor
      · intro h; cases h
      · intro h
        exact absurd hc (h u (List.mem_cons_self u rest))
    · rw [if_neg (by
        intro hb
        simp only [Bool.and_eq_true, decide_eq_true_eq] at hb
        exact hc hb)]
      rw [ih]
      constructor
      · intro h u2 hu2
        cases hu2 with
        | head => exact hc
        | tail _ hmem => exact h u2 hmem
      · intro h u2 hu2
        exact h u2 (List.mem_cons_of_mem u hu2)

theorem lookupSubClassGo_some (vm : VM) (b : Nat) :
    ∀ (us : List UDT) (p : TypeInfo × Nat), lookupSubClassGo vm b us = some p →
      ∃ i, i < us.length ∧
        ((us.getD i ⟨0, 0⟩).super_idx = (b : Int) ∧ 0 ≤ (us.getD i ⟨0, 0⟩).typeidx) ∧
        p = (vm.getTypeInfo (us.getD i ⟨0, 0⟩).typeidx.toNat,
          (us.getD i ⟨0, 0⟩).typeidx.toNat) ∧
        ∀ j < i, ¬((us.getD j ⟨0, 0⟩).super_idx = (b : Int) ∧
          0 ≤ (us.getD j ⟨0, 0⟩).typeidx) := by
  intro us
  induction us with
  | nil => intro p h; simp [lookupSubClassGo] at h
  | cons u rest ih =>
    intro p h
    unfold lookupSubClassGo at h
    by_cases hc : u.super_idx = (b : Int) ∧ 0 ≤ u.typeidx
    · rw [if_pos (by simp [hc.1, hc.2])] at h
      cases h
      exact ⟨0, by simp, hc, rfl, by intro j hj; omega⟩
    · rw [if_neg (by
        intro hb
        simp only [Bool.and_eq_true, decide_eq_true_eq] at hb
        exact hc hb)] at h
      obtain ⟨i, hi, hm, hp, hfirst⟩ := ih p h
      refine ⟨i + 1, by simp only [List.length_cons]; omega, hm, hp, ?_⟩
      intro j hj
      cases j with
      | zero => exact hc
      | succ j2 => exact hfirst j2 (by omega)

/-- C9: the by-name sub-class resolver returns the first candidate of the
name's known-type list whose declared super structural index equals the
expected base's and whose assigned runtime type slot is populated
(`typeidx >= 0`); only that one-level super index is consulted, and with
no such candidate it reports no match, which the self-describing parser
surfaces as the fatal unresolved-subclass error. -/
theorem C9_subclass_resolver (vm : VM) (sname : List Nat) (ti : TypeInfo) :
    (lookupSubClass vm sname ti = none ↔
      ∀ u ∈ vm.udtLookup sname,
        ¬(u.super_idx = (ti.structidx : Int) ∧ 0 ≤ u.typeidx)) ∧
    (∀ p, lookupSubClass vm sname ti = some p →
      ∃ i, i < (vm.udtLookup sname).length ∧
        (((vm.udtLookup sname).getD i ⟨0, 0⟩).super_idx = (ti.structidx : Int) ∧
          0 ≤ ((vm.udtLookup sname).getD i ⟨0, 0⟩).typeidx) ∧
        p = (vm.getTypeInfo ((vm.udtLookup sname).getD i ⟨0, 0⟩).typeidx.toNat,
          ((vm.udtLookup sname).getD i ⟨0, 0⟩).typeidx.toNat) ∧
        ∀ j < i, ¬(((vm.udtLookup sname).getD j ⟨0, 0⟩).super_idx = (ti.structidx : Int) ∧
          0 ≤ ((vm.udtLookup sname).getD j ⟨0, 0⟩).typeidx)) ∧
    (∀ (fuel : Nat) (off : Nat) (entries : List (List Nat × Flex)) (d : DStack)
      (s : List Nat),
      (vm.getTypeInfo off).t = .vClass →
      mlookup entries typeKey = .fString s →
      s ≠ structName vm (vm.getTypeInfo off) →
      lookupSubClass vm s (vm.getTypeInfo off) = none →
      flexStep (fuel + 1) vm (.factor (.fMap entries) off) d =
        .error .unresolvedSubclass) := by
  refine ⟨lookupSubClassGo_none vm ti.structidx (vm.udtLookup sname),
    lookupSubClassGo_some vm ti.structidx (vm.udtLookup sname), ?_⟩
  intro fuel off entries d s ht hml hne hnone
  rw [flexStep_fMap fuel vm off off entries d
    (by rw [ifAndTrue (show (Flex.fMap entries).isNullF = false from rfl)]
        rw [if_neg (by rw [ht]; intro hc; cases hc)])]
  rw [if_neg (by
    intro hc
    obtain ⟨h1, _⟩ := hc
    unfold isUDT isStructT at h1
    rw [ht] at h1
    cases h1)]
  rw [hml]
  simp only []
  rw [if_pos hne]
  rw [hnone]
  simp only []
  rfl
theorem defaultsElems_length {vm : VM} : ∀ {es : List Elem} {vs : List Value},
    DefaultsElems vm es vs → vs.length = es.length := by
  intro es
  induction es with
  | nil => intro vs h; cases h; rfl
  | cons e es2 ih =>
    intro vs h
    cases h with
    | cons hv hrest => simp only [List.length_cons, ih hrest]

/-- Class element parse with a wrapped count `n` at most the member
count: the first `n` members are read from the bytes, the shortfall is
synthesized, and the assembled instance carries all members. -/
theorem binObjPartRT (vm : VM) (hwf : WF vm) (off : Nat)
    (ht : (vm.getTypeInfo off).t = .vClass)
    (n : Nat) (fvs dvs : List Value) (fuel : Nat)
    (hn : n ≤ (vm.getTypeInfo off).len)
    (hty : ElemsTy vm ((vm.getTypeInfo off).elemtypes.take n) fvs)
    (hsok : SOKElems vm ((vm.getTypeInfo off).elemtypes.take n) fvs)
    (hdels : DefaultsElems vm ((vm.getTypeInfo off).elemtypes.drop n) dvs)
    (hfuel : fuelSlots fvs + fuelSlots dvs < fuel + 10) :
    ∀ (pre post : List Nat) (endp : Nat) (d : DStack),
      pre.length + (encVarU n ++ (encVarU (vm.serId off) ++ encSchemaL vm fvs)).length
        ≤ endp →
      endp ≤ pre.length +
        ((encVarU n ++ (encVarU (vm.serId off) ++ encSchemaL vm fvs)).length +
          post.length) →
      binStep (fuel + 1) vm (.elem off)
          ⟨pre ++ ((encVarU n ++ (encVarU (vm.serId off) ++ encSchemaL vm fvs)) ++ post),
            pre.length, endp, d⟩ =
        .ok ⟨pre ++ ((encVarU n ++ (encVarU (vm.serId off) ++ encSchemaL vm fvs)) ++ post),
          pre.length + (encVarU n ++ (encVarU (vm.serId off) ++ encSchemaL vm fvs)).length,
          endp, pushV d (.vObj off (fvs ++ dvs)) true⟩ := by
  intro pre post endp d h1 h2
  have hAny : (vm.getTypeInfo off).t ≠ .vAny := by rw [ht]; intro hc; cases hc
  have hUDT : isUDT (vm.getTypeInfo off).t = true := by
    unfold isUDT isStructT
    rw [ht]
    rfl
  obtain ⟨hLen, hPos, hLt⟩ := hwf.aggLen off (inRange hAny) hUDT
  obtain ⟨hsid, hres⟩ := hwf.ser off (inRange hAny) ht
  have htk : ((vm.getTypeInfo off).elemtypes.take n).length = n := by
    simp only [List.length_take]
    omega
  have hfl : fvs.length = n := by rw [elemsTy_length hty, htk]
  have hdl : dvs.length = (vm.getTypeInfo off).len - n := by
    rw [defaultsElems_length hdels]
    simp only [List.length_drop]
    omega
  have EP : ∀ v2 off2, fuelV v2 < fuelSlots fvs → HasTy vm off2 v2 → SOK vm off2 v2 →
      BinElemP vm v2 off2 :=
    fun v2 off2 _ ht2 hs2 => binElemRT vm hwf (fuelV v2) v2 off2 (le_refl _) ht2 hs2
  simp only [List.length_append] at h1 h2 ⊢
  cases fuel with
  | zero =>
    have := fuelSlots_ge fvs
    have := fuelSlots_ge dvs
    omega
  | succ f =>
    rw [binStep_elem (f + 1) vm off off _ _ _ _
      (by rw [if_neg (by rw [ht]; intro hc; cases hc)])]
    rw [if_neg (by have := encVarU_length_pos n; omega)]
    rw [ht]
    rw [show pre ++ ((encVarU n ++ (encVarU (vm.serId off) ++ encSchemaL vm fvs)) ++ post) =
      pre ++ (encVarU n ++ (encVarU (vm.serId off) ++ (encSchemaL vm fvs ++ post)))
      by simp]
    rw [decVarU_enc n pre (encVarU (vm.serId off) ++ (encSchemaL vm fvs ++ post)) endp
      (by omega) (by simp only [List.length_append]; omega)]
    simp only [bindE_ok]
    rw [i32_small (by omega)]
    rw [if_neg (fun hc => by cases hc.2)]
    rw [show pre ++ (encVarU n ++ (encVarU (vm.serId off) ++ (encSchemaL vm fvs ++ post))) =
      (pre ++ encVarU n) ++ (encVarU (vm.serId off) ++ (encSchemaL vm fvs ++ post)) by simp]
    rw [show pre.length + (encVarU n).length = (pre ++ encVarU n).length by simp]
    rw [decVarU_enc (vm.serId off) (pre ++ encVarU n) (encSchemaL vm fvs ++ post) endp
      (by simp only [List.length_append]; omega)
      (by simp only [List.length_append]; omega)]
    simp only [bindE_ok]
    rw [Nat.mod_eq_of_lt hsid, hres]
    rw [if_neg (by omega)]
    rw [show ((off : Int)).toNat = off from by simp]
    rw [show (pre ++ encVarU n) ++ (encVarU (vm.serId off) ++ (encSchemaL vm fvs ++ post)) =
      ((pre ++ encVarU n) ++ encVarU (vm.serId off)) ++ (encSchemaL vm fvs ++ post) by simp]
    rw [show (pre ++ encVarU n).length + (encVarU (vm.serId off)).length =
      ((pre ++ encVarU n) ++ encVarU (vm.serId off)).length by
        simp only [List.length_append]]
    have hm := binCloopPartRT vm (fuelSlots fvs) EP
      ((vm.getTypeInfo off).elemtypes.take n) ((vm.getTypeInfo off).elemtypes.drop n)
      fvs dvs hty hsok hdels (le_refl _) (vm.getTypeInfo off) d.stack.length d (f + 1)
      ((pre ++ encVarU n) ++ encVarU (vm.serId off)) post endp hLen
      (by simp only [htk, List.length_drop]; omega)
      (by simp only [htk, List.length_drop]
          rw [show (vm.getTypeInfo off).len - (n + ((vm.getTypeInfo off).elemtypes.length - n))
            = 0 by omega]
          rw [List.drop_zero, List.take_append_drop])
      (by simp only [htk, List.length_drop]; omega)
      (by omega)
      (by simp only [List.length_append]; omega)
      (by simp only [List.length_append]; omega)
    rw [show (vm.getTypeInfo off).len - ((vm.getTypeInfo off).elemtypes.drop n).length = n
      by simp only [List.length_drop]; omega] at hm
    rw [hm]
    simp only [bindE_ok]
    have hl2 : (pushVs d (fvs ++ dvs)).stack.length - d.stack.length =
        (fvs ++ dvs).length := by
      rw [pushVs_stack_length]
      omega
    rw [hl2]
    rw [if_neg (by
      simp only [List.length_append]
      omega)]
    rw [lastN_pushVs, popVN_pushVs]
    simp only [Except.ok.injEq, BinSt.mk.injEq, List.length_append]
    refine ⟨by simp, by omega, trivial, trivial⟩

/-- Class element parse with a wrapped count greater than the member
count: after all declared members are read the surplus is the fatal
extra-fields error. -/
theorem binObjExtraRT (vm : VM) (hwf : WF vm) (off : Nat)
    (ht : (vm.getTypeInfo off).t = .vClass)
    (n : Nat) (fvs : List Value) (fuel : Nat)
    (hn : (vm.getTypeInfo off).len < n) (hn2 : n < 2147483648)
    (hty : ElemsTy vm (vm.getTypeInfo off).elemtypes fvs)
    (hsok : SOKElems vm (vm.getTypeInfo off).elemtypes fvs)
    (hfuel : fuelSlots fvs < fuel + 10) :
    ∀ (pre post : List Nat) (endp : Nat) (d : DStack),
      pre.length + (encVarU n ++ (encVarU (vm.serId off) ++ encSchemaL vm fvs)).length
        ≤ endp →
      endp ≤ pre.length +
        ((encVarU n ++ (encVarU (vm.serId off) ++ encSchemaL vm fvs)).length +
          post.length) →
      binStep (fuel + 1) vm (.elem off)
          ⟨pre ++ ((encVarU n ++ (encVarU (vm.serId off) ++ encSchemaL vm fvs)) ++ post),
            pre.length, endp, d⟩ =
        .error .extraFields := by
  intro pre post endp d h1 h2
  have hAny : (vm.getTypeInfo off).t ≠ .vAny := by rw [ht]; intro hc; cases hc
  have hUDT : isUDT (vm.getTypeInfo off).t = true := by
    unfold isUDT isStructT
    rw [ht]
    rfl
  obtain ⟨hLen, hPos, hLt⟩ := hwf.aggLen off (inRange hAny) hUDT
  obtain ⟨hsid, hres⟩ := hwf.ser off (inRange hAny) ht
  have hfl : fvs.length = (vm.getTypeInfo off).len := by rw [elemsTy_length hty, hLen]
  have EP : ∀ v2 off2, fuelV v2 < fuelSlots fvs → HasTy vm off2 v2 → SOK vm off2 v2 →
      BinElemP vm v2 off2 :=
    fun v2 off2 _ ht2 hs2 => binElemRT vm hwf (fuelV v2) v2 off2 (le_refl _) ht2 hs2
  simp only [List.length_append] at h1 h2 ⊢
  cases fuel with
  | zero =>
    have := fuelSlots_ge fvs
    omega
  | succ f =>
    rw [binStep_elem (f + 1) vm off off _ _ _ _
      (by rw [if_neg (by rw [ht]; intro hc; cases hc)])]
    rw [if_neg (by have := encVarU_length_pos n; omega)]
    rw [ht]
    rw [show pre ++ ((encVarU n ++ (encVarU (vm.serId off) ++ encSchemaL vm fvs)) ++ post) =
      pre ++ (encVarU n ++ (encVarU (vm.serId off) ++ (encSchemaL vm fvs ++ post)))
      by simp]
    rw [decVarU_enc n pre (encVarU (vm.serId off) ++ (encSchemaL vm fvs ++ post)) endp
      (by omega) (by simp only [List.length_append]; omega)]
    simp only [bindE_ok]
    rw [i32_small (by omega)]
    rw [if_neg (fun hc => by cases hc.2)]
    rw [show pre ++ (encVarU n ++ (encVarU (vm.serId off) ++ (encSchemaL vm fvs ++ post))) =
      (pre ++ encVarU n) ++ (encVarU (vm.serId off) ++ (encSchemaL vm fvs ++ post)) by simp]
    rw [show pre.length + (encVarU n).length = (pre ++ encVarU n).length by simp]
    rw [decVarU_enc (vm.serId off) (pre ++ encVarU n) (encSchemaL vm fvs ++ post) endp
      (by simp only [List.length_append]; omega)
      (by simp only [List.length_append]; omega)]
    simp only [bindE_ok]
    rw [Nat.mod_eq_of_lt hsid, hres]
    rw [if_neg (by omega)]
    rw [show ((off : Int)).toNat = off from by simp]
    rw [show (pre ++ encVarU n) ++ (encVarU (vm.serId off) ++ (encSchemaL vm fvs ++ post)) =
      ((pre ++ encVarU n) ++ encVarU (vm.serId off)) ++ (encSchemaL vm fvs ++ post) by simp]
    rw [show (pre ++ encVarU n).length + (encVarU (vm.serId off)).length =
      ((pre ++ encVarU n) ++ encVarU (vm.serId off)).length by
        simp only [List.length_append]]
    rw [binCloopRT vm (fuelSlots fvs) EP (vm.getTypeInfo off).elemtypes fvs hty hsok
      (le_refl _) (vm.getTypeInfo off) (n : Int) d.stack.length d (f + 1)
      ((pre ++ encVarU n) ++ encVarU (vm.serId off)) post endp
      (by omega) hLen (by omega) (by rw [hLen]; simp) (by omega) (by omega)
      (by simp only [List.length_append]; omega)
      (by simp only [List.length_append]; omega)]
    simp only [bindE_ok]
    have hl2 : (pushVs d fvs).stack.length - d.stack.length = fvs.length := by
      rw [pushVs_stack_length]
      omega
    rw [hl2]
    rw [if_pos (by rw [hfl]; omega)]
/-- C2: with the encoded element count narrowed to a signed 32 bits as
`n`, a class body whose count is at most the descriptor's member count
parses the first `n` members in declaration order and synthesizes the
remaining members with the default synthesizer; a count greater than the
member count (below the 32-bit wrap) aborts with the fatal extra-fields
error. -/
theorem C2_schema_evolution (vm : VM) (hwf : WF vm) (off : Nat)
    (ht : (vm.getTypeInfo off).t = .vClass) (n : Nat) :
    (∀ (fvs dvs : List Value) (fuel : Nat),
      n ≤ (vm.getTypeInfo off).len →
      ElemsTy vm ((vm.getTypeInfo off).elemtypes.take n) fvs →
      SOKElems vm ((vm.getTypeInfo off).elemtypes.take n) fvs →
      DefaultsElems vm ((vm.getTypeInfo off).elemtypes.drop n) dvs →
      fuelSlots fvs + fuelSlots dvs < fuel + 10 →
      parseLobsterBinaryData (fuel + 1) vm off
          (encVarU n ++ (encVarU (vm.serId off) ++ encSchemaL vm fvs))
          (encVarU n ++ (encVarU (vm.serId off) ++ encSchemaL vm fvs)).length =
        (.vObj off (fvs ++ dvs), none)) ∧
    (∀ (fvs : List Value) (fuel : Nat),
      (vm.getTypeInfo off).len < n → n < 2147483648 →
      ElemsTy vm (vm.getTypeInfo off).elemtypes fvs →
      SOKElems vm (vm.getTypeInfo off).elemtypes fvs →
      fuelSlots fvs < fuel + 10 →
      parseLobsterBinaryData (fuel + 1) vm off
          (encVarU n ++ (encVarU (vm.serId off) ++ encSchemaL vm fvs))
          (encVarU n ++ (encVarU (vm.serId off) ++ encSchemaL vm fvs)).length =
        (.nilVal, some .extraFields)) := by
  constructor
  · intro fvs dvs fuel hn hty hsok hdels hfuel
    have hstep := binObjPartRT vm hwf off ht n fvs dvs fuel hn hty hsok hdels hfuel
      [] [] (encVarU n ++ (encVarU (vm.serId off) ++ encSchemaL vm fvs)).length ⟨[], []⟩
      (by simp) (by simp)
    simp only [List.nil_append, List.append_nil, List.length_nil, Nat.zero_add] at hstep
    simp only [parseLobsterBinaryData, parseLobsterBinary, hstep]
    simp [popV, pushV]
  · intro fvs fuel hn hn2 hty hsok hfuel
    have hstep := binObjExtraRT vm hwf off ht n fvs fuel hn hn2 hty hsok hfuel
      [] [] (encVarU n ++ (encVarU (vm.serId off) ++ encSchemaL vm fvs)).length ⟨[], []⟩
      (by simp) (by simp)
    simp only [List.nil_append, List.append_nil, List.length_nil, Nat.zero_add] at hstep
    simp only [parseLobsterBinaryData, parseLobsterBinary, hstep]

theorem C2_schema_evolution_witness :
    parseLobsterBinaryData (100 + 1) egVM 13
        (encVarU 1 ++ (encVarU (egVM.serId 13) ++ encSchemaL egVM [.vInt 42]))
        (encVarU 1 ++ (encVarU (egVM.serId 13) ++ encSchemaL egVM [.vInt 42])).length =
      (.vObj 13 [.vInt 42, .vInt 2, .vInt 3], none) ∧
    parseLobsterBinaryData (100 + 1) egVM 13
        (encVarU 4 ++ (encVarU (egVM.serId 13) ++
          encSchemaL egVM [.vInt 1, .vInt 2, .vInt 3]))
        (encVarU 4 ++ (encVarU (egVM.serId 13) ++
          encSchemaL egVM [.vInt 1, .vInt 2, .vInt 3])).length =
      (.nilVal, some .extraFields) :=
  ⟨(C2_schema_evolution egVM egWF 13 rfl 1).1 [.vInt 42] [.vInt 2, .vInt 3] 100
      (by decide) (.cons (.int rfl) .nil) (.cons .int .nil)
      (.cons (.int rfl) (.cons (.int rfl) .nil)) (by decide),
    (C2_schema_evolution egVM egWF 13 rfl 4).2 [.vInt 1, .vInt 2, .vInt 3] 100
      (by decide) (by decide)
      (.cons (.int rfl) (.cons (.int rfl) (.cons (.int rfl) .nil)))
      (.cons .int (.cons .int (.cons .int .nil))) (by decide)⟩

/-- The claim's raw-count reading is false: an encoded element count of
4294967297 exceeds the three declared members, yet the parse succeeds —
the count is narrowed to 32 bits first, wrapping to 1, so one member is
read and two are defaulted. -/
theorem C2_counterexample :
    (egVM.getTypeInfo 13).len < 4294967297 ∧
    parseLobsterBinaryData 50 egVM 13
        (encVarU 4294967297 ++ (encVarU 113 ++ encSchemaL egVM [.vInt 42]))
        (encVarU 4294967297 ++ (encVarU 113 ++ encSchemaL egVM [.vInt 42])).length =
      (.vObj 13 [.vInt 42, .vInt 2, .vInt 3], none) :=
  ⟨by decide, rfl⟩
/-- C8: the default synthesizer pushes the declared integer default, its
float reinterpretation, nil, or an empty vector of the descriptor's own
type; struct defaults leave the member defaults flat on the stack while
class defaults assemble and push one instance; and a type with no
representable default — a plain string or the fully open type — reports
failure with nothing pushed. -/
theorem C8_default_synthesizer (vm : VM) (off : Nat) (dv : Int) (d : DStack) (fuel : Nat) :
    ((vm.getTypeInfo off).t = .vInt →
      pushDefault (fuel + 1) vm off dv d = (true, pushV d (.vInt dv) false)) ∧
    ((vm.getTypeInfo off).t = .vFloat →
      pushDefault (fuel + 1) vm off dv d = (true, pushV d (.vFloat (int2float dv)) false)) ∧
    ((vm.getTypeInfo off).t = .vNil →
      pushDefault (fuel + 1) vm off dv d = (true, pushV d .nilVal false)) ∧
    ((vm.getTypeInfo off).t = .vVector →
      pushDefault (fuel + 1) vm off dv d = (true, pushV d (.vVec off []) true)) ∧
    (∀ dvs, isStructT (vm.getTypeInfo off).t = true →
      DefaultsElems vm (vm.getTypeInfo off).elemtypes dvs →
      fuelSlots dvs < fuel + 14 →
      pushDefault (fuel + 1) vm off dv d = (true, pushVs d dvs)) ∧
    (∀ dvs, (vm.getTypeInfo off).t = .vClass →
      DefaultsElems vm (vm.getTypeInfo off).elemtypes dvs →
      dvs.length = (vm.getTypeInfo off).len →
      fuelSlots dvs < fuel + 14 →
      pushDefault (fuel + 1) vm off dv d = (true, pushV d (.vObj off dvs) true)) ∧
    ((vm.getTypeInfo off).t = .vString ∨ (vm.getTypeInfo off).t = .vAny →
      pushDefault (fuel + 1) vm off dv d = (false, d)) := by
  refine ⟨?_, ?_, ?_, ?_, ?_, ?_, ?_⟩
  · intro ht
    show defStep (fuel + 1) vm (.one off dv) d = _
    rw [defStep_one, ht]
  · intro ht
    show defStep (fuel + 1) vm (.one off dv) d = _
    rw [defStep_one, ht]
  · intro ht
    show defStep (fuel + 1) vm (.one off dv) d = _
    rw [defStep_one, ht]
  · intro ht
    show defStep (fuel + 1) vm (.one off dv) d = _
    rw [defStep_one, ht]
  · intro dvs hst hdels hfuel
    show defStep (fuel + 1) vm (.one off dv) d = _
    rw [defStep_one]
    rcases isStructT_iff.mp hst with h | h <;>
      rw [h] <;>
      · show (true, (defStep fuel vm (.loop (vm.getTypeInfo off).elemtypes) d).2) = _
        rw [defaultsElems_pushVs vm _ dvs hdels fuel d hfuel]
  · intro dvs ht hdels hlen hfuel
    show defStep (fuel + 1) vm (.one off dv) d = _
    rw [defStep_one, ht]
    show (true, pushV
        (popVN (defStep fuel vm (.loop (vm.getTypeInfo off).elemtypes) d).2
          (vm.getTypeInfo off).len)
        (.vObj off (lastN (defStep fuel vm (.loop (vm.getTypeInfo off).elemtypes) d).2
          (vm.getTypeInfo off).len)) true) = _
    rw [defaultsElems_pushVs vm _ dvs hdels fuel d hfuel]
    rw [show (vm.getTypeInfo off).len = dvs.length from hlen.symm]
    rw [lastN_pushVs, popVN_pushVs]
  · intro ht
    rcases ht with h | h <;>
      · show defStep (fuel + 1) vm (.one off dv) d = _
        rw [defStep_one, h]

theorem C8_default_synthesizer_witness :
    pushDefault (5 + 1) egVM 1 7 ⟨[], []⟩ = (true, pushV ⟨[], []⟩ (.vInt 7) false) ∧
    pushDefault (5 + 1) egVM 4 0 ⟨[], []⟩ = (true, pushV ⟨[], []⟩ .nilVal false) ∧
    pushDefault (5 + 1) egVM 5 0 ⟨[], []⟩ = (true, pushV ⟨[], []⟩ (.vVec 5 []) true) ∧
    pushDefault (54 + 1) egVM 8 0 ⟨[], []⟩ =
      (true, pushVs ⟨[], []⟩ [.vInt 0, .vInt 0]) ∧
    pushDefault (70 + 1) egVM 13 0 ⟨[], []⟩ =
      (true, pushV ⟨[], []⟩ (.vObj 13 [.vInt 1, .vInt 2, .vInt 3]) true) ∧
    pushDefault (5 + 1) egVM 3 0 ⟨[], []⟩ = (false, ⟨[], []⟩) :=
  ⟨(C8_default_synthesizer egVM 1 7 ⟨[], []⟩ 5).1 rfl,
   (C8_default_synthesizer egVM 4 0 ⟨[], []⟩ 5).2.2.1 rfl,
   (C8_default_synthesizer egVM 5 0 ⟨[], []⟩ 5).2.2.2.1 rfl,
   (C8_default_synthesizer egVM 8 0 ⟨[], []⟩ 54).2.2.2.2.1 [.vInt 0, .vInt 0] rfl
     (.cons (.int rfl) (.cons (.int rfl) .nil)) (by decide),
   (C8_default_synthesizer egVM 13 0 ⟨[], []⟩ 70).2.2.2.2.2.1
     [.vInt 1, .vInt 2, .vInt 3] rfl
     (.cons (.int rfl) (.cons (.int rfl) (.cons (.int rfl) .nil))) (by decide) (by decide),
   (C8_default_synthesizer egVM 3 0 ⟨[], []⟩ 5).2.2.2.2.2.2 (.inl rfl)⟩

/-- The aggregate member loop discards each member's failure result: the
string type has no representable default and fails alone, yet the class
`Q {c:string}` built from it reports success and pushes an instance with
no member slots at all. -/
theorem C8_counterexample :
    pushDefault 5 egVM 3 0 ⟨[], []⟩ = (false, ⟨[], []⟩) ∧
    pushDefault 5 egVM 11 0 ⟨[], []⟩ = (true, ⟨[.vObj 11 []], [true]⟩) :=
  ⟨rfl, rfl⟩
/-- The default fill loop of `ParseElems`: with a declared element count
and fewer elements on the stack, the missing members are synthesized in
declaration order without consuming tokens. -/
theorem textFillRT (vm : VM) :
    ∀ (restEs : List Elem) (dvs : List Value), DefaultsElems vm restEs dvs →
      ∀ (off start : Nat) (toks : List Token) (d : DStack) (fuel : Nat),
        (vm.getTypeInfo off).elemtypes.length = (vm.getTypeInfo off).len →
        restEs.length ≤ (vm.getTypeInfo off).len →
        (vm.getTypeInfo off).elemtypes.drop ((vm.getTypeInfo off).len - restEs.length)
          = restEs →
        d.stack.length = start + ((vm.getTypeInfo off).len - restEs.length) →
        fuelSlots dvs < fuel + 12 →
        textStep fuel vm (.fill off (((vm.getTypeInfo off).len : Nat) : Int) start)
            ⟨toks, d⟩ =
          .ok ⟨toks, pushVs d dvs⟩ := by
  intro restEs
  induction restEs with
  | nil =>
    intro dvs hdels off start toks d fuel hLen hle hdrop hstk hfuel
    cases hdels with
    | nil =>
      have h16 : fuelSlots ([] : List Value) = 16 := rfl
      cases fuel with
      | zero => omega
      | succ f =>
        rw [textStep_fill]
        rw [if_neg (by simp only [List.length_nil] at hstk; omega)]
        rw [pushVs_nil]
  | cons e es ih =>
    intro dvs hdels off start toks d fuel hLen hle hdrop hstk hfuel
    cases hdels with
    | cons hv hrest =>
      rename_i v vs
      simp only [fuelSlots] at hfuel
      simp only [List.length_cons] at hle hdrop hstk
      have hvg := fuelV_ge v
      have hsg := fuelSlots_ge vs
      cases fuel with
      | zero => omega
      | succ f =>
        have hne : d.stack.length - start =
            (vm.getTypeInfo off).len - (es.length + 1) := by omega
        have hgetD : (vm.getTypeInfo off).elemtypes.getD (d.stack.length - start) ⟨0, 0⟩
            = e := by
          apply getD_of_drop (vm.getTypeInfo off).elemtypes (d.stack.length - start) e es
          rw [hne]
          exact hdrop
        rw [textStep_fill]
        rw [if_pos (by omega)]
        rw [hgetD]
        rw [pushDefault_of vm v e.type e.defval hv f d (by omega)]
        show textStep f vm (.fill off (((vm.getTypeInfo off).len : Nat) : Int) start)
            ⟨toks, pushV d v (isRefV v)⟩ = .ok ⟨toks, pushVs d (v :: vs)⟩
        rw [ih vs hrest off start toks (pushV d v (isRefV v)) f hLen (by omega)
          (by rw [show (vm.getTypeInfo off).len - es.length =
                ((vm.getTypeInfo off).len - (es.length + 1)) + 1 by omega]
              rw [← List.drop_drop, hdrop]
              rfl)
          (by simp only [pushV, List.length_append, List.length_cons, List.length_nil]
              omega)
          (by omega)]
        simp only [pushVs_cons]

/-- Element loop of `ParseElems` over a class literal that supplies only
a prefix of the members: the supplied members are parsed at their
declared member types and pushed, up to the closing brace. -/
theorem textOloopPartRT (vm : VM) (N : Nat)
    (EP : ∀ v2 off2, fuelV v2 < N → HasTy vm off2 v2 → TextP vm v2 off2) :
    ∀ (firstEs : List Elem) (fvs : List Value), ElemsTy vm firstEs fvs →
      firstEs ≠ [] → fuelSlots fvs ≤ N →
      ∀ (tailEs : List Elem) (off tlen start : Nat) (d : DStack) (fuel pf : Nat)
        (rest : List Token),
        (vm.getTypeInfo off).t ≠ .vVector →
        firstEs.length + tailEs.length ≤ tlen →
        (vm.getTypeInfo off).elemtypes.drop (tlen - (firstEs.length + tailEs.length)) =
          firstEs ++ tailEs →
        d.stack.length = start + (tlen - (firstEs.length + tailEs.length)) →
        fuelSlots fvs < fuel + 12 →
        fuelSlots fvs < pf + 12 →
        textStep fuel vm (.eloop .tRC off (tlen : Int) true start)
            ⟨printStep pf vm (.commaList fvs) ++ .tRC :: rest, d⟩ =
          .ok ⟨rest, pushVs d fvs⟩ := by
  intro firstEs
  induction firstEs with
  | nil => intro fvs hty hne; exact absurd rfl hne
  | cons e es ih =>
    intro fvs hty hne hN tailEs off tlen start d fuel pf rest hvec hle hdrop hstk hfuel hpf
    cases hty with
    | cons hv hrest =>
      rename_i v vs
      cases fuel with
      | zero => have := fuelSlots_cons_ge v vs; omega
      | succ f =>
        cases pf with
        | zero => have := fuelSlots_cons_ge v vs; omega
        | succ p =>
          simp only [fuelSlots] at hN hfuel hpf
          simp only [List.length_cons] at hle hdrop hstk
          have hvp := fuelV_ge v
          have hsg := fuelSlots_ge vs
          have hne2 : d.stack.length - start = tlen - (es.length + 1 + tailEs.length) := by
            omega
          have hgetD : (vm.getTypeInfo off).elemtypes.getD (d.stack.length - start) ⟨0, 0⟩
              = e := by
            apply getD_of_drop (vm.getTypeInfo off).elemtypes (d.stack.length - start) e
              (es ++ tailEs)
            rw [hne2]
            rw [show tlen - (es.length + 1 + tailEs.length) =
              tlen - (es.length + 1 + tailEs.length) from rfl]
            have : tlen - (es.length + 1 + tailEs.length) =
                tlen - (es.length + 1 + tailEs.length) := rfl
            simp only [List.cons_append] at hdrop
            rw [show es.length + 1 + tailEs.length = es.length + 1 + tailEs.length
              from rfl]
            exact hdrop
          cases vs with
          | nil =>
            cases hrest
            rw [show printStep (p + 1) vm (.commaList [v]) = printStep p vm (.one v)
              from rfl]
            rw [textStep_eloop]
            rw [if_neg (by omega)]
            rw [if_neg hvec]
            unfold getElemOrParent
            rw [hgetD]
            rw [EP v e.type (by omega) hv p f (.tRC :: rest) d (by omega) (by omega)]
            rw [bindE_ok]
            rw [pushVs_single]
            rfl
          | cons w ws =>
            have hesne : es ≠ [] := by
              intro hc; subst hc; cases hrest
            have hws := fuelSlots_cons_ge w ws
            rw [show printStep (p + 1) vm (.commaList (v :: w :: ws)) =
              printStep p vm (.one v) ++ .tComma :: printStep p vm (.commaList (w :: ws))
              from rfl]
            rw [textStep_eloop]
            rw [if_neg (by omega)]
            rw [if_neg hvec]
            unfold getElemOrParent
            rw [hgetD]
            rw [show (printStep p vm (.one v) ++
                .tComma :: printStep p vm (.commaList (w :: ws))) ++ .tRC :: rest =
              printStep p vm (.one v) ++
                (.tComma :: (printStep p vm (.commaList (w :: ws)) ++ .tRC :: rest)) by simp]
            rw [EP v e.type (by omega) hv p f
              (.tComma :: (printStep p vm (.commaList (w :: ws)) ++ .tRC :: rest)) d
              (by omega) (by omega)]
            rw [bindE_ok]
            show textStep f vm (.eloop .tRC off (tlen : Int) true start)
                ⟨printStep p vm (.commaList (w :: ws)) ++ .tRC :: rest,
                  pushV d v (isRefV v)⟩ =
              .ok ⟨rest, pushVs d (v :: w :: ws)⟩
            rw [ih (w :: ws) hrest hesne (by omega) tailEs off tlen start
              (pushV d v (isRefV v)) f p rest hvec (by omega)
              (by rw [show tlen - (es.length + tailEs.length) =
                    (tlen - (es.length + 1 + tailEs.length)) + 1 by omega]
                  rw [← List.drop_drop]
                  simp only [List.cons_append] at hdrop
                  rw [hdrop]
                  rfl)
              (by simp only [pushV, List.length_append, List.length_cons, List.length_nil]
                  omega)
              (by omega) (by omega)]
            simp only [pushVs_cons]
/-- C4: in the textual parser the default fill for missing elements
applies to class literals — the targets that carry a declared member
count into the element loop: a class literal supplying only a nonempty
prefix of the members parses those members and synthesizes the rest with
the default synthesizer.  A bracketed vector literal is parsed with no
declared count, so its supplied elements alone form the resulting vector
whatever element count the vector descriptor declares. -/
theorem C4_missing_elements (vm : VM) (hwf : WF vm) :
    (∀ (off n : Nat) (fvs dvs : List Value) (fuel pf : Nat) (rest : List Token)
      (d : DStack),
      (vm.getTypeInfo off).t = .vClass →
      1 ≤ n → n ≤ (vm.getTypeInfo off).len →
      ElemsTy vm ((vm.getTypeInfo off).elemtypes.take n) fvs →
      DefaultsElems vm ((vm.getTypeInfo off).elemtypes.drop n) dvs →
      fuelSlots fvs + fuelSlots dvs < fuel + 6 →
      fuelSlots fvs < pf + 10 →
      textStep fuel vm (.factor off true)
          ⟨.tIdent (structName vm (vm.getTypeInfo off)) :: .tLC ::
            (printStep pf vm (.commaList fvs) ++ .tRC :: rest), d⟩ =
        .ok ⟨rest, pushV d (.vObj off (fvs ++ dvs)) true⟩) ∧
    (∀ (off : Nat) (slots : List Value) (fuel pf : Nat),
      HasTy vm off (.vVec off slots) →
      fuelV (.vVec off slots) < pf → fuelV (.vVec off slots) < fuel →
      parseData fuel vm off (printVal pf vm (.vVec off slots)) =
        (.vVec off slots, none)) := by
  constructor
  · intro off n fvs dvs fuel pf rest d ht hn1 hn2 hty hdels hfuel hpf
    have hAny : (vm.getTypeInfo off).t ≠ .vAny := by rw [ht]; intro hc; cases hc
    have hUDT : isUDT (vm.getTypeInfo off).t = true := by
      unfold isUDT isStructT
      rw [ht]
      rfl
    obtain ⟨hLen, hPos, _⟩ := hwf.aggLen off (inRange hAny) hUDT
    have htk : ((vm.getTypeInfo off).elemtypes.take n).length = n := by
      simp only [List.length_take]
      omega
    have hfl : fvs.length = n := by rw [elemsTy_length hty, htk]
    have hdl : dvs.length = (vm.getTypeInfo off).len - n := by
      rw [defaultsElems_length hdels]
      simp only [List.length_drop]
      omega
    obtain ⟨v, vs, hev⟩ : ∃ v vs, fvs = v :: vs := by
      cases fvs with
      | nil => simp only [List.length_nil] at hfl; omega
      | cons a b => exact ⟨a, b, rfl⟩
    have h34 : 34 ≤ fuelSlots fvs := by rw [hev]; exact fuelSlots_cons_ge v vs
    have h16 := fuelSlots_ge dvs
    have EP : ∀ v2 off2, fuelV v2 < fuelSlots fvs → HasTy vm off2 v2 → TextP vm v2 off2 :=
      fun v2 off2 _ ht2 => textElemRT vm hwf (fuelV v2) v2 off2 (le_refl _) ht2
    cases fuel with
    | zero => omega
    | succ f =>
      rw [textStep_fIdent f vm off off true _ _ d
        (by rw [ifAndTrue (show (Token.tIdent (structName vm (vm.getTypeInfo off)) : Token)
              ≠ .tNil by intro h; cases h)]
            rw [if_neg (by rw [ht]; intro hc; cases hc)])]
      rw [if_neg (by intro hc; rw [ht] at hc; cases hc.1)]
      rw [if_neg (by intro hc; rw [hUDT] at hc; cases hc.1)]
      rw [show expectTok .tLC (⟨.tLC ::
          (printStep pf vm (.commaList fvs) ++ .tRC :: rest), d⟩ : TextSt) =
        .ok ⟨printStep pf vm (.commaList fvs) ++ .tRC :: rest, d⟩ from rfl]
      rw [bindE_ok]
      rw [if_neg (fun hc => hc rfl)]
      cases f with
      | zero => omega
      | succ f2 =>
        cases pf with
        | zero => omega
        | succ q =>
          cases q with
          | zero => omega
          | succ q2 =>
            obtain ⟨t, ts, hpt, hlf, hcm, hrc, hrb, heof⟩ := printComma_cons vm q2 v vs
            have hpt2 : printStep (q2 + 1 + 1) vm (.commaList fvs) = t :: ts := by
              rw [hev]; exact hpt
            rw [textStep_elemsNL f2 vm .tRC off _ true _ d
              (by rw [hpt2]; simp only [List.cons_append, List.headD_cons]; exact hlf)]
            rw [if_neg (by
              rw [hpt2]; simp only [List.cons_append, List.headD_cons]; exact hrc)]
            rw [textOloopPartRT vm (fuelSlots fvs) EP
              ((vm.getTypeInfo off).elemtypes.take n) fvs hty
              (by intro hc
                  rw [hc] at htk
                  simp only [List.length_nil] at htk
                  omega)
              (le_refl _) ((vm.getTypeInfo off).elemtypes.drop n) off
              (vm.getTypeInfo off).len d.stack.length d f2 (q2 + 1 + 1) rest
              (by rw [ht]; intro hc; cases hc)
              (by simp only [htk, List.length_drop]; omega)
              (by simp only [htk, List.length_drop]
                  rw [show (vm.getTypeInfo off).len -
                    (n + ((vm.getTypeInfo off).elemtypes.length - n)) = 0 by omega]
                  rw [List.drop_zero, List.take_append_drop])
              (by simp only [htk, List.length_drop]; omega)
              (by omega) (by omega)]
            rw [bindE_ok]
            rw [if_neg (by decide)]
            rw [if_pos (by omega : (0 : Int) ≤ (((vm.getTypeInfo off).len : Nat) : Int))]
            rw [textFillRT vm ((vm.getTypeInfo off).elemtypes.drop n) dvs hdels off
              d.stack.length rest (pushVs d fvs) f2 hLen
              (by simp only [List.length_drop]; omega)
              (by simp only [List.length_drop]
                  rw [show (vm.getTypeInfo off).len -
                    ((vm.getTypeInfo off).elemtypes.length - n) = n by omega])
              (by rw [pushVs_stack_length, hfl]
                  simp only [List.length_drop]
                  omega)
              (by omega)]
            rw [bindE_ok]
            rw [if_pos ht]
            rw [show pushVs (pushVs d fvs) dvs = pushVs d (fvs ++ dvs) from
              (pushVs_append d fvs dvs).symm]
            have hl2 : (pushVs d (fvs ++ dvs)).stack.length - d.stack.length =
                (fvs ++ dvs).length := by
              rw [pushVs_stack_length]
              omega
            rw [hl2, lastN_pushVs, popVN_pushVs]
  · intro off slots fuel pf hty hpf hfuel
    exact textDataRT vm hwf (.vVec off slots) off pf fuel hty hpf hfuel

theorem C4_missing_elements_witness :
    textStep 100 egVM (.factor 13 true)
        ⟨.tIdent (structName egVM (egVM.getTypeInfo 13)) :: .tLC ::
          (printStep 50 egVM (.commaList [.vInt 42]) ++ .tRC :: []), ⟨[], []⟩⟩ =
      .ok ⟨[], pushV ⟨[], []⟩ (.vObj 13 ([.vInt 42] ++ [.vInt 2, .vInt 3])) true⟩ :=
  (C4_missing_elements egVM egWF).1 13 1 [.vInt 42] [.vInt 2, .vInt 3] 100 50 [] ⟨[], []⟩
    rfl (by decide) (by decide) (.cons (.int rfl) .nil)
    (.cons (.int rfl) (.cons (.int rfl) .nil)) (by decide) (by decide)

/-- The claim's vector example is false: the sized vector-of-int target
with declared element count 3 parses the two-element literal to a
two-element vector, with no third default synthesized and no error. -/
theorem C4_counterexample :
    (egVM.getTypeInfo 12).len = 3 ∧
    parseData 20 egVM 12 [.tLB, .tInt 1, .tComma, .tInt 2, .tRB] =
      (.vVec 12 [.vInt 1, .vInt 2], none) :=
  ⟨rfl, rfl⟩
/-- `ParseFactor` against the fully open type with `push = false`
consumes one printed scalar literal and pushes nothing. -/
theorem textAnyScalarRT (vm : VM) (hany : (vm.getTypeInfo TYPE_ELEM_ANY).t = .vAny) :
    ∀ (v : Value), scalarV v = true →
      ∀ (pf fuel : Nat) (rest : List Token) (d : DStack), 1 ≤ pf → 1 ≤ fuel →
        textStep fuel vm (.factor TYPE_ELEM_ANY false)
            ⟨printStep pf vm (.one v) ++ rest, d⟩ =
          .ok ⟨rest, d⟩ := by
  intro v hsv pf fuel rest d hpf hfuel
  cases pf with
  | zero => omega
  | succ p =>
    cases fuel with
    | zero => omega
    | succ f =>
      cases v with
      | vInt i =>
        rw [show printStep (p + 1) vm (.one (.vInt i)) ++ rest = .tInt i :: rest from rfl]
        rw [textStep_fInt f vm TYPE_ELEM_ANY TYPE_ELEM_ANY false i rest d
          (by rw [ifAndTrue (show (Token.tInt i : Token) ≠ .tNil by intro h; cases h)]
              rw [if_neg (by rw [hany]; intro hc; cases hc)])]
        rw [hany]
        rfl
      | vFloat b =>
        rw [show printStep (p + 1) vm (.one (.vFloat b)) ++ rest = .tFloat b :: rest
          from rfl]
        rw [textStep_fFloat f vm TYPE_ELEM_ANY TYPE_ELEM_ANY false b rest d
          (by rw [ifAndTrue (show (Token.tFloat b : Token) ≠ .tNil by intro h; cases h)]
              rw [if_neg (by rw [hany]; intro hc; cases hc)])]
        rw [hany]
        rfl
      | vString s =>
        rw [show printStep (p + 1) vm (.one (.vString s)) ++ rest = .tStr s :: rest
          from rfl]
        rw [textStep_fStr f vm TYPE_ELEM_ANY TYPE_ELEM_ANY false s rest d
          (by rw [ifAndTrue (show (Token.tStr s : Token) ≠ .tNil by intro h; cases h)]
              rw [if_neg (by rw [hany]; intro hc; cases hc)])]
        rw [hany]
        rfl
      | nilVal =>
        rw [show printStep (p + 1) vm (.one .nilVal) ++ rest = .tNil :: rest from rfl]
        rw [textStep_fNil f vm TYPE_ELEM_ANY TYPE_ELEM_ANY false rest d
          (by rw [ifAndFalse (show ¬((Token.tNil : Token) ≠ .tNil) from fun h => h rfl)])]
        rw [hany]
        rfl
      | vVec o s => cases hsv
      | vObj o e => cases hsv

/-- Surplus mode of the element loop: once as many elements as declared
have been pushed, each further comma-separated scalar literal is parsed
against the fully open type and discarded, through the closing brace. -/
theorem textSurplusRT (vm : VM) (hany : (vm.getTypeInfo TYPE_ELEM_ANY).t = .vAny) :
    ∀ (svs : List Value), svs ≠ [] → (∀ v ∈ svs, scalarV v = true) →
      ∀ (off : Nat) (numelems : Int) (start : Nat) (d : DStack) (fuel ps : Nat)
        (rest : List Token),
        ((d.stack.length - start : Nat) : Int) = numelems →
        fuelSlots svs < fuel + 13 → fuelSlots svs < ps + 31 →
        textStep fuel vm (.eloop .tRC off numelems true start)
            ⟨printStep (ps + 1) vm (.commaList svs) ++ .tRC :: rest, d⟩ =
          .ok ⟨rest, d⟩ := by
  intro svs
  induction svs with
  | nil => intro hne; exact absurd rfl hne
  | cons v rest2 ih =>
    intro hne hsc off numelems start d fuel ps rest hcnt hfuel hps
    have h34 := fuelSlots_cons_ge v rest2
    have hsg := fuelSlots_ge rest2
    have hvg := fuelV_ge v
    simp only [fuelSlots] at hfuel hps
    cases fuel with
    | zero => omega
    | succ f =>
      cases ps with
      | zero => omega
      | succ p2 =>
        cases rest2 with
        | nil =>
          rw [show printStep (p2 + 1 + 1) vm (.commaList [v]) =
            printStep (p2 + 1) vm (.one v) from rfl]
          rw [textStep_eloop]
          rw [if_pos hcnt]
          rw [textAnyScalarRT vm hany v (hsc v (List.mem_cons_self v [])) (p2 + 1) f
            (.tRC :: rest) d (by omega) (by omega)]
          rw [bindE_ok]
          rfl
        | cons w ws =>
          rw [show printStep (p2 + 1 + 1) vm (.commaList (v :: w :: ws)) =
            printStep (p2 + 1) vm (.one v) ++
              .tComma :: printStep (p2 + 1) vm (.commaList (w :: ws)) from rfl]
          rw [show (printStep (p2 + 1) vm (.one v) ++
              .tComma :: printStep (p2 + 1) vm (.commaList (w :: ws))) ++ .tRC :: rest =
            printStep (p2 + 1) vm (.one v) ++
              (.tComma :: (printStep (p2 + 1) vm (.commaList (w :: ws)) ++ .tRC :: rest))
            by simp]
          rw [textStep_eloop]
          rw [if_pos hcnt]
          rw [textAnyScalarRT vm hany v (hsc v (List.mem_cons_self v (w :: ws))) (p2 + 1)
            f (.tComma :: (printStep (p2 + 1) vm (.commaList (w :: ws)) ++ .tRC :: rest))
            d (by omega) (by omega)]
          rw [bindE_ok]
          show textStep f vm (.eloop .tRC off numelems true start)
              ⟨printStep (p2 + 1) vm (.commaList (w :: ws)) ++ .tRC :: rest, d⟩ =
            .ok ⟨rest, d⟩
          have hws := fuelSlots_cons_ge w ws
          cases p2 with
          | zero => omega
          | succ p3 =>
            exact ih (by intro hc; cases hc)
              (fun u hu => hsc u (List.mem_cons_of_mem v hu)) off numelems start d f
              (p3 + 1) rest hcnt (by omega) (by omega)
/-- Element loop of `ParseElems` over all declared members followed by
surplus scalar elements: the members are parsed and pushed, the surplus
elements are parsed against the fully open type and discarded. -/
theorem textOloopSurplusRT (vm : VM) (N : Nat)
    (hany : (vm.getTypeInfo TYPE_ELEM_ANY).t = .vAny)
    (EP : ∀ v2 off2, fuelV v2 < N → HasTy vm off2 v2 → TextP vm v2 off2) :
    ∀ (restEs : List Elem) (restVs : List Value),
      ElemsTy vm restEs restVs → restEs ≠ [] → fuelSlots restVs ≤ N →
      ∀ (svs : List Value), svs ≠ [] → (∀ v ∈ svs, scalarV v = true) →
      ∀ (off tlen start : Nat) (d : DStack) (fuel pf ps : Nat) (rest : List Token),
        (vm.getTypeInfo off).t ≠ .vVector →
        restEs.length ≤ tlen →
        (vm.getTypeInfo off).elemtypes.drop (tlen - restEs.length) = restEs →
        d.stack.length = start + (tlen - restEs.length) →
        fuelSlots restVs + fuelSlots svs < fuel + 12 →
        fuelSlots restVs < pf + 12 →
        fuelSlots svs < ps + 31 →
        textStep fuel vm (.eloop .tRC off (tlen : Int) true start)
            ⟨printStep pf vm (.commaList restVs) ++
              .tComma :: (printStep (ps + 1) vm (.commaList svs) ++ .tRC :: rest), d⟩ =
          .ok ⟨rest, pushVs d restVs⟩ := by
  intro restEs
  induction restEs with
  | nil => intro restVs hty hne; exact absurd rfl hne
  | cons e es ih =>
    intro restVs hty hne hN svs hsne hsc off tlen start d fuel pf ps rest hvec hle hdrop
      hstk hfuel hpf hpsb
    cases hty with
    | cons hv hrest =>
      rename_i v vs
      have hs16 := fuelSlots_ge svs
      cases fuel with
      | zero => have := fuelSlots_cons_ge v vs; omega
      | succ f =>
        cases pf with
        | zero => have := fuelSlots_cons_ge v vs; omega
        | succ p =>
          simp only [fuelSlots] at hN hfuel hpf
          simp only [List.length_cons] at hle hdrop hstk
          have hvp := fuelV_ge v
          have hsg := fuelSlots_ge vs
          have hne2 : d.stack.length - start = tlen - (es.length + 1) := by omega
          have hgetD : (vm.getTypeInfo off).elemtypes.getD (d.stack.length - start) ⟨0, 0⟩
              = e := by
            apply getD_of_drop (vm.getTypeInfo off).elemtypes (d.stack.length - start) e es
            rw [hne2]; exact hdrop
          cases vs with
          | nil =>
            cases hrest
            rw [show printStep (p + 1) vm (.commaList [v]) = printStep p vm (.one v)
              from rfl]
            rw [textStep_eloop]
            rw [if_neg (by omega)]
            rw [if_neg hvec]
            unfold getElemOrParent
            rw [hgetD]
            rw [EP v e.type (by omega) hv p f
              (.tComma :: (printStep (ps + 1) vm (.commaList svs) ++ .tRC :: rest)) d
              (by omega) (by omega)]
            rw [bindE_ok]
            show textStep f vm (.eloop .tRC off (tlen : Int) true start)
                ⟨printStep (ps + 1) vm (.commaList svs) ++ .tRC :: rest,
                  pushV d v (isRefV v)⟩ =
              .ok ⟨rest, pushVs d [v]⟩
            rw [textSurplusRT vm hany svs hsne hsc off (tlen : Int) start
              (pushV d v (isRefV v)) f ps rest
              (by simp only [pushV, List.length_append, List.length_cons, List.length_nil]
                  simp only [List.length_nil] at hstk hle
                  omega)
              (by omega) (by omega)]
            rw [pushVs_single]
          | cons w ws =>
            have hesne : es ≠ [] := by
              intro hc; subst hc; cases hrest
            have hws := fuelSlots_cons_ge w ws
            rw [show printStep (p + 1) vm (.commaList (v :: w :: ws)) =
              printStep p vm (.one v) ++ .tComma :: printStep p vm (.commaList (w :: ws))
              from rfl]
            rw [show (printStep p vm (.one v) ++
                .tComma :: printStep p vm (.commaList (w :: ws))) ++
                .tComma :: (printStep (ps + 1) vm (.commaList svs) ++ .tRC :: rest) =
              printStep p vm (.one v) ++
                (.tComma :: (printStep p vm (.commaList (w :: ws)) ++
                  .tComma :: (printStep (ps + 1) vm (.commaList svs) ++ .tRC :: rest)))
              by simp]
            rw [textStep_eloop]
            rw [if_neg (by omega)]
            rw [if_neg hvec]
            unfold getElemOrParent
            rw [hgetD]
            rw [EP v e.type (by omega) hv p f
              (.tComma :: (printStep p vm (.commaList (w :: ws)) ++
                .tComma :: (printStep (ps + 1) vm (.commaList svs) ++ .tRC :: rest))) d
              (by omega) (by omega)]
            rw [bindE_ok]
            show textStep f vm (.eloop .tRC off (tlen : Int) true start)
                ⟨printStep p vm (.commaList (w :: ws)) ++
                  .tComma :: (printStep (ps + 1) vm (.commaList svs) ++ .tRC :: rest),
                  pushV d v (isRefV v)⟩ =
              .ok ⟨rest, pushVs d (v :: w :: ws)⟩
            rw [ih (w :: ws) hrest hesne (by omega) svs hsne hsc off tlen start
              (pushV d v (isRefV v)) f p ps rest hvec (by omega)
              (by rw [show tlen - es.length = (tlen - (es.length + 1)) + 1 by omega]
                  rw [← List.drop_drop, hdrop]
                  rfl)
              (by simp only [pushV, List.length_append, List.length_cons, List.length_nil]
                  omega)
              (by omega) (by omega) (by omega)]
            simp only [pushVs_cons]
/-- C10: a class literal that supplies extra scalar elements after all
declared members still parses: the surplus elements are consumed
(parsed against the fully open type) but never pushed, so the
constructed instance carries exactly the declared member count and no
error is raised. -/
theorem C10_surplus_elements (vm : VM) (hwf : WF vm) :
    ∀ (off : Nat) (elems svs : List Value) (fuel pf ps : Nat) (rest : List Token)
      (d : DStack),
      (vm.getTypeInfo off).t = .vClass →
      ElemsTy vm (vm.getTypeInfo off).elemtypes elems →
      svs ≠ [] → (∀ v ∈ svs, scalarV v = true) →
      fuelSlots elems + fuelSlots svs < fuel + 6 →
      fuelSlots elems < pf + 10 →
      fuelSlots svs < ps + 31 →
      textStep fuel vm (.factor off true)
          ⟨.tIdent (structName vm (vm.getTypeInfo off)) :: .tLC ::
            (printStep pf vm (.commaList elems) ++
              .tComma :: (printStep (ps + 1) vm (.commaList svs) ++ .tRC :: rest)), d⟩ =
        .ok ⟨rest, pushV d (.vObj off elems) true⟩ ∧
      elems.length = (vm.getTypeInfo off).len := by
  intro off elems svs fuel pf ps rest d ht hty hsne hsc hfuel hpf hpsb
  have hAny : (vm.getTypeInfo off).t ≠ .vAny := by rw [ht]; intro hc; cases hc
  have hUDT : isUDT (vm.getTypeInfo off).t = true := by
    unfold isUDT isStructT
    rw [ht]
    rfl
  obtain ⟨hLen, hPos, _⟩ := hwf.aggLen off (inRange hAny) hUDT
  have hel : elems.length = (vm.getTypeInfo off).len := by
    rw [elemsTy_length hty, hLen]
  refine ⟨?_, hel⟩
  obtain ⟨v, vs, hev⟩ : ∃ v vs, elems = v :: vs := by
    cases elems with
    | nil => simp only [List.length_nil] at hel; omega
    | cons a b => exact ⟨a, b, rfl⟩
  have h34 : 34 ≤ fuelSlots elems := by rw [hev]; exact fuelSlots_cons_ge v vs
  have h16 := fuelSlots_ge svs
  have EP : ∀ v2 off2, fuelV v2 < fuelSlots elems → HasTy vm off2 v2 → TextP vm v2 off2 :=
    fun v2 off2 _ ht2 => textElemRT vm hwf (fuelV v2) v2 off2 (le_refl _) ht2
  cases fuel with
  | zero => omega
  | succ f =>
    rw [textStep_fIdent f vm off off true _ _ d
      (by rw [ifAndTrue (show (Token.tIdent (structName vm (vm.getTypeInfo off)) : Token)
            ≠ .tNil by intro h; cases h)]
          rw [if_neg (by rw [ht]; intro hc; cases hc)])]
    rw [if_neg (by intro hc; rw [ht] at hc; cases hc.1)]
    rw [if_neg (by intro hc; rw [hUDT] at hc; cases hc.1)]
    rw [show expectTok .tLC (⟨.tLC ::
        (printStep pf vm (.commaList elems) ++
          .tComma :: (printStep (ps + 1) vm (.commaList svs) ++ .tRC :: rest)), d⟩
        : TextSt) =
      .ok ⟨printStep pf vm (.commaList elems) ++
        .tComma :: (printStep (ps + 1) vm (.commaList svs) ++ .tRC :: rest), d⟩ from rfl]
    rw [bindE_ok]
    rw [if_neg (fun hc => hc rfl)]
    cases f with
    | zero => omega
    | succ f2 =>
      cases pf with
      | zero => omega
      | succ q =>
        cases q with
        | zero => omega
        | succ q2 =>
          obtain ⟨t, ts, hpt, hlf, hcm, hrc, hrb, heof⟩ := printComma_cons vm q2 v vs
          have hpt2 : printStep (q2 + 1 + 1) vm (.commaList elems) = t :: ts := by
            rw [hev]; exact hpt
          rw [textStep_elemsNL f2 vm .tRC off _ true _ d
            (by rw [hpt2]; simp only [List.cons_append, List.headD_cons]; exact hlf)]
          rw [if_neg (by
            rw [hpt2]; simp only [List.cons_append, List.headD_cons]; exact hrc)]
          rw [textOloopSurplusRT vm (fuelSlots elems) (hwf.any0) EP
            (vm.getTypeInfo off).elemtypes elems hty
            (by intro hc
                rw [hc] at hLen
                simp only [List.length_nil] at hLen
                omega)
            (le_refl _) svs hsne hsc off (vm.getTypeInfo off).len d.stack.length d f2
            (q2 + 1 + 1) ps rest (by rw [ht]; intro hc; cases hc) (by rw [hLen])
            (by rw [hLen]; simp) (by rw [hLen]; omega) (by omega) (by omega) (by omega)]
          rw [bindE_ok]
          rw [if_neg (by decide)]
          rw [if_pos (by omega : (0 : Int) ≤ (((vm.getTypeInfo off).len : Nat) : Int))]
          cases f2 with
          | zero => omega
          | succ f3 =>
            rw [fill_noop f3 vm off _ d.stack.length rest (pushVs d elems)
              (by rw [pushVs_stack_length, hel]; omega)]
            rw [bindE_ok]
            rw [if_pos ht]
            have hl2 : (pushVs d elems).stack.length - d.stack.length = elems.length := by
              rw [pushVs_stack_length]; omega
            rw [hl2, lastN_pushVs, popVN_pushVs]

theorem C10_surplus_elements_witness :
    textStep 200 egVM (.factor 13 true)
        ⟨.tIdent (structName egVM (egVM.getTypeInfo 13)) :: .tLC ::
          (printStep 100 egVM (.commaList [.vInt 7, .vInt 8, .vInt 9]) ++
            .tComma :: (printStep (20 + 1) egVM (.commaList [.vInt 99]) ++
              .tRC :: [])), ⟨[], []⟩⟩ =
      .ok ⟨[], pushV ⟨[], []⟩ (.vObj 13 [.vInt 7, .vInt 8, .vInt 9]) true⟩ ∧
    [Value.vInt 7, .vInt 8, .vInt 9].length = (egVM.getTypeInfo 13).len :=
  C10_surplus_elements egVM egWF 13 [.vInt 7, .vInt 8, .vInt 9] [.vInt 99] 200 100 20 []
    ⟨[], []⟩ rfl
    (.cons (.int rfl) (.cons (.int rfl) (.cons (.int rfl) .nil)))
    (by intro hc; cases hc)
    (by intro u hu
        cases hu with
        | head => rfl
        | tail _ h2 => cases h2)
    (by decide) (by decide) (by decide)
theorem releasesAux_length : ∀ (s : List Value) (r : List Bool), s.length = r.length →
    ((s.zip r).filterMap (fun p => if p.2 then some p.1 else none)).length =
      (r.filter (fun x => x)).length := by
  intro s
  induction s with
  | nil =>
    intro r h
    cases r with
    | nil => rfl
    | cons b rb => simp at h
  | cons a s2 ih =>
    intro r h
    cases r with
    | nil => simp at h
    | cons b rb =>
      simp only [List.zip_cons_cons, List.filterMap_cons, List.filter_cons]
      cases b with
      | false => simpa using ih rb (by simpa using h)
      | true => simpa using ih rb (by simpa using h)

theorem destructorReleases_push (d : DStack) (v : Value) (b : Bool)
    (hbal : d.stack.length = d.is_ref.length) :
    destructorReleases (pushV d v b) =
      destructorReleases d ++ (if b then [v] else []) := by
  show ((d.stack ++ [v]).zip (d.is_ref ++ [b])).filterMap
      (fun p => if p.2 then some p.1 else none) = _
  rw [List.zip_append hbal]
  rw [List.filterMap_append]
  cases b <;> rfl
/-- C6: the two stack sequences stay equal in length under every stack
operation (push, pop, drop-last-N); a successful full parse of an
encoded well-typed value — in any of the three formats — leaves exactly
that one value on the scratch stack; and the destructor's release list
holds each owned slot exactly once and no unowned slot, in any stack
state, aborted parses included. -/
theorem C6_stack_invariant (vm : VM) (hwf : WF vm) :
    (∀ (d : DStack) (v : Value) (b : Bool) (n : Nat),
      d.stack.length = d.is_ref.length →
      (pushV d v b).stack.length = (pushV d v b).is_ref.length ∧
      (popV d).2.stack.length = (popV d).2.is_ref.length ∧
      (popVN d n).stack.length = (popVN d n).is_ref.length) ∧
    (∀ (v : Value) (off : Nat) (pf fuel : Nat), HasTy vm off v →
      fuelV v < pf → fuelV v < fuel →
      textStep fuel vm (.factor off true) ⟨printVal pf vm v, ⟨[], []⟩⟩ =
        .ok ⟨[], ⟨[v], [isRefV v]⟩⟩ ∧
      (SOK vm off v →
        binStep fuel vm (.elem off)
            ⟨encSchema vm v, 0, (encSchema vm v).length, ⟨[], []⟩⟩ =
          .ok ⟨encSchema vm v, (encSchema vm v).length, (encSchema vm v).length,
            ⟨[v], [isRefV v]⟩⟩) ∧
      flexStep fuel vm (.factor (flexOf pf vm v) off) ⟨[], []⟩ =
        .ok ⟨[v], [isRefV v]⟩) ∧
    (∀ (d : DStack) (v : Value),
      d.stack.length = d.is_ref.length →
      destructorReleases (pushV d v true) = destructorReleases d ++ [v] ∧
      destructorReleases (pushV d v false) = destructorReleases d ∧
      (destructorReleases d).length = (d.is_ref.filter (fun x => x)).length) := by
  refine ⟨?_, ?_, ?_⟩
  · intro d v b n hbal
    refine ⟨?_, ?_, ?_⟩
    · simp only [pushV, List.length_append, List.length_cons, List.length_nil, hbal]
    · simp only [popV, List.length_dropLast, hbal]
    · simp only [popVN, List.length_take, hbal]
  · intro v off pf fuel hty hpf hfuel
    refine ⟨?_, ?_, ?_⟩
    · have h := textElemRT vm hwf (fuelV v) v off (le_refl _) hty pf fuel [] ⟨[], []⟩
        hpf hfuel
      rw [List.append_nil] at h
      exact h
    · intro hsok
      have h := binElemRT vm hwf (fuelV v) v off (le_refl _) hty hsok fuel [] []
        (encSchema vm v).length ⟨[], []⟩ hfuel (by simp) (by simp)
      simp only [List.nil_append, List.append_nil, List.length_nil, Nat.zero_add] at h
      exact h
    · exact flexElemRT vm hwf (fuelV v) v off (le_refl _) hty pf fuel ⟨[], []⟩ hpf hfuel
  · intro d v hbal
    refine ⟨?_, ?_, ?_⟩
    · rw [destructorReleases_push d v true hbal]
      rfl
    · rw [destructorReleases_push d v false hbal]
      rw [show (if false = true then [v] else ([] : List Value)) = [] from rfl]
      rw [List.append_nil]
    · exact releasesAux_length d.stack d.is_ref hbal

theorem C6_stack_invariant_witness :
    ((pushV ⟨[.vInt 1], [false]⟩ .nilVal true).stack.length =
      (pushV ⟨[.vInt 1], [false]⟩ .nilVal true).is_ref.length ∧
     (popV ⟨[.vInt 1], [false]⟩).2.stack.length =
      (popV ⟨[.vInt 1], [false]⟩).2.is_ref.length ∧
     (popVN ⟨[.vInt 1], [false]⟩ 1).stack.length =
      (popVN ⟨[.vInt 1], [false]⟩ 1).is_ref.length) ∧
    (textStep 20 egVM (.factor 1 true) ⟨printVal 20 egVM (.vInt 3), ⟨[], []⟩⟩ =
      .ok ⟨[], ⟨[.vInt 3], [isRefV (.vInt 3)]⟩⟩) ∧
    (destructorReleases (pushV ⟨[.vInt 1], [false]⟩ (.vString [65]) true) =
      destructorReleases ⟨[.vInt 1], [false]⟩ ++ [.vString [65]]) :=
  ⟨(C6_stack_invariant egVM egWF).1 ⟨[.vInt 1], [false]⟩ .nilVal true 1 rfl,
   ((C6_stack_invariant egVM egWF).2.1 (.vInt 3) 1 20 20 (.int rfl) (by decide)
     (by decide)).1,
   ((C6_stack_invariant egVM egWF).2.2 ⟨[.vInt 1], [false]⟩ (.vString [65]) rfl).1⟩
/-- A successful full parse after which not exactly one value remains:
a struct-by-value target pushes its member slots flat and never
assembles them, so the textual parse of `S { 1, 2 }` at the struct
descriptor completes with two values on the scratch stack, and the
public entry still reports success (returning only the top slot). -/
theorem C6_counterexample :
    textStep 20 egVM (.factor 8 true)
        ⟨[.tIdent [81], .tLC, .tInt 1, .tComma, .tInt 2, .tRC], ⟨[], []⟩⟩ =
      .ok ⟨[], ⟨[.vInt 1, .vInt 2], [false, false]⟩⟩ ∧
    textParse 20 egVM 8 [.tIdent [81], .tLC, .tInt 1, .tComma, .tInt 2, .tRC] =
      .ok (.vInt 2) ∧
    [Value.vInt 1, .vInt 2].length ≠ 1 :=
  ⟨rfl, rfl, by decide⟩

end LobsterReader
